import Mathlib

/-!
# Verification of the ledger-ts-parser core

A shallow embedding, in Lean 4, of the loss-less ledger journal parser:
the token data model (`token.ts`), token groups (`group.ts`), the symbol
table (`symbol-table.ts`), spans (`location.ts`), the whitespace-absorbing
lexer (`lexer.ts`), and the recursive-descent grammar (`parse-node.ts`)
over the parser-primitive facade.  Source text is modelled as `List Char`;
the regex token rules of the underlying `moo` tokenizer are translated to
explicit character-list functions following the documented rule set
(first match wins at each position, greedy within a rule).

The parser-primitive class (the facade offering `expect`, `peek`,
`skipIf`, `slurpUntil`, `inlineSpace`, `whileIndented`, `untilSequence`,
`synchronize`, …) is not present in the available sources — only its
callers and its documented contracts are.  Each of those primitives is
therefore modelled from the specification, and is marked as such in its
doc comment.
-/

set_option maxRecDepth 10000

namespace Ledger

/-- Source text and token texts: strings as explicit character lists. -/
abbrev Str := List Char

/-- A byte span `[start, end)` over the source buffer (`location.ts`). -/
abbrev Span := Nat × Nat

/-- Token kinds.  The raw `moo` side additionally has `ws`, which never
surfaces from the public lexer; the public side adds the virtual `eof`.
One Lean type carries all of them, mirroring the runtime (TypeScript only
distinguishes them at the type level).  `at` is a Lean keyword, so that
kind is spelled `atSign`. -/
inductive TokType where
  | newline | ws | comment | string | number
  | equal | tilde | lparen | rparen | lbrace | rbrace | lbracket | rbracket
  | hyphen | slash | star | bang | colon | atSign
  | identifier | symbol | eof
deriving DecidableEq, Repr

/-- `/\t| {2,}/.test(s)`: the whitespace string contains a tab or two or
more consecutive spaces (`isHardSpace` in `token.ts`). -/
def isHardSpace : Str → Bool
  | [] => false
  | '\t' :: _ => true
  | ' ' :: ' ' :: _ => true
  | _ :: rest => isHardSpace rest

/-- The `Token` class of `token.ts`: kind, buffer offset of the inner
text as reported by `moo`, inner text, and the attached leading and
trailing whitespace runs. -/
structure Token where
  type : TokType
  offset : Nat
  text : Str
  leading : Str
  trailing : Str
deriving DecidableEq, Repr

namespace Token

/-- `Token.virtual(type, offset, leadingSpace = '')`: a zero-length token
used for the end-of-input marker. -/
def virtual (type : TokType) (offset : Nat) (leading : Str := []) : Token :=
  { type := type, offset := offset, text := [], leading := leading, trailing := [] }

def innerText (t : Token) : Str := t.text

def outerText (t : Token) : Str := t.leading ++ t.text ++ t.trailing

def innerLength (t : Token) : Nat := t.text.length

def outerLength (t : Token) : Nat := t.text.length + t.leading.length + t.trailing.length

def beginsWithSpace (t : Token) : Bool := t.leading.length > 0

def endsWithSpace (t : Token) : Bool := t.trailing.length > 0

def beginsWithHardSpace (t : Token) : Bool := isHardSpace t.leading

def endsWithHardSpace (t : Token) : Bool := isHardSpace t.trailing

/-- `get span()`: `[offset + leadingSpace.length, start + innerLength]`. -/
def span (t : Token) : Span :=
  (t.offset + t.leading.length, t.offset + t.leading.length + t.text.length)

end Token

/-- The character set stripped by JavaScript's `trimStart`/`trimEnd` and
matched by `\s`, restricted to the ASCII whitespace the lexer can attach
to tokens (space, tab, CR, LF, vertical tab, form feed). -/
def isJsWs (c : Char) : Bool :=
  c = ' ' || c = '\t' || c = '\n' || c = '\r' || c = '\x0b' || c = '\x0c'

/-- JavaScript `String.prototype.trimStart`. -/
def jsTrimStart (s : Str) : Str := s.dropWhile isJsWs

/-- JavaScript `String.prototype.trimEnd`. -/
def jsTrimEnd (s : Str) : Str := (s.reverse.dropWhile isJsWs).reverse

/-- `combineSpans` from `location.ts`, restricted to the two-argument
form used by `Group.span`: min of starts, max of ends. -/
def combineSpans2 (a b : Span) : Span := (min a.1 b.1, max a.2 b.2)

/-- The `Group` class of `group.ts`: an ordered token sequence.  The
TypeScript constructor is private and documented to require a non-empty
array, but `UNSAFE_nonEmpty` lets any caller bypass the check, so the
Lean structure carries a bare list. -/
structure Group where
  tokens : List Token
deriving DecidableEq, Repr

namespace Group

/-- `Group.UNSAFE_nonEmpty(...tokens)`. -/
def UNSAFE_nonEmpty (tokens : List Token) : Group := ⟨tokens⟩

def length (g : Group) : Nat := g.tokens.length

/-- Fold of `Group.innerText`'s reduce: the first token's outer text is
`trimStart`ed, the last token's is `trimEnd`ed, interior tokens keep
their outer text.  The boolean flag records whether the element at hand
is the first one (index 0), which in the source wins over the last-index
check. -/
def innerAux : List Token → Bool → Str
  | [], _ => []
  | [t], isFirst =>
      if isFirst then jsTrimStart t.outerText else jsTrimEnd t.outerText
  | t :: rest, isFirst =>
      (if isFirst then jsTrimStart t.outerText else t.outerText) ++ innerAux rest false

/-- `Group.innerText()`: a group of fewer than two tokens yields
`tokens[0].innerText()` (the empty string standing in for the crash on an
empty group); otherwise the trim-at-the-ends reduce. -/
def innerText (g : Group) : Str :=
  if g.tokens.length < 2 then
    (g.tokens.headD (Token.virtual .eof 0)).innerText
  else
    innerAux g.tokens true

/-- `Group.outerText()`. -/
def outerText (g : Group) : Str := (g.tokens.map Token.outerText).flatten

/-- `Group.span`: `combineSpans(first.span, last.span)`; the empty group
would crash in the source, here it yields the degenerate `(0, 0)`. -/
def span (g : Group) : Span :=
  match g.tokens.head?, g.tokens.getLast? with
  | some a, some b => combineSpans2 a.span b.span
  | _, _ => (0, 0)

def beginsWithSpace (g : Group) : Bool :=
  (g.tokens.headD (Token.virtual .eof 0)).beginsWithSpace

def endsWithSpace (g : Group) : Bool :=
  (g.tokens.getLastD (Token.virtual .eof 0)).endsWithSpace

def beginsWithHardSpace (g : Group) : Bool :=
  (g.tokens.headD (Token.virtual .eof 0)).beginsWithHardSpace

def endsWithHardSpace (g : Group) : Bool :=
  (g.tokens.getLastD (Token.virtual .eof 0)).endsWithHardSpace

/-- `Group.concat(...groups)` for a single argument. -/
def concat (g h : Group) : Group := ⟨g.tokens ++ h.tokens⟩

end Group

/-- Error kinds of `parse-error.ts` (current revision, with
`LEADING_SPACE`). -/
inductive ErrorCode where
  | UNEXPECTED_TOKEN | UNEXPECTED_EOF | INVALID_DATE
  | INVALID_ACCOUNT | INVALID_INTEGER | LEADING_SPACE
deriving DecidableEq, Repr

/-- A parse diagnostic: kind tag and span.  The human-readable message
string of `ParseError` is presentation-only and is not modelled. -/
structure ParseError where
  code : ErrorCode
  span : Span
deriving DecidableEq, Repr

namespace ParseError

/-- `ParseError.unexpectedToken(saw, expected?)`. -/
def unexpectedToken (saw : Token) : ParseError :=
  { code := .UNEXPECTED_TOKEN, span := saw.span }

/-- `ParseError.unexpectedEOF(span, expected?)`. -/
def unexpectedEOF (span : Span) : ParseError :=
  { code := .UNEXPECTED_EOF, span := span }

/-- `ParseError.leadingSpace(saw)`. -/
def leadingSpace (saw : Token) : ParseError :=
  { code := .LEADING_SPACE, span := saw.span }

/-- `ParseError.invalidInteger(saw)`. -/
def invalidInteger (saw : Token) : ParseError :=
  { code := .INVALID_INTEGER, span := saw.span }

end ParseError

/-- The `SymbolTable` of `symbol-table.ts`: an insertion-ordered map from
names to first-declaration spans, modelled as an association list keyed
on the first occurrence. -/
structure SymbolTable where
  table : List (Str × Span)
deriving DecidableEq, Repr

namespace SymbolTable

def empty : SymbolTable := ⟨[]⟩

/-- `has(key)`. -/
def has (st : SymbolTable) (key : Str) : Bool :=
  st.table.any (fun p => p.1 = key)

/-- `get(key)`: the span stored for the key, if present. -/
def get (st : SymbolTable) (key : Str) : Option Span :=
  (st.table.find? (fun p => p.1 = key)).map (·.2)

/-- `add(key, span)`: `Map.set` on a fresh key; a present key throws
`Re-definition of symbol …`, modelled as `Except.error`. -/
def add (st : SymbolTable) (key : Str) (span : Span) : Except Unit SymbolTable :=
  if st.has key then
    .error ()
  else
    .ok ⟨st.table ++ [(key, span)]⟩

end SymbolTable

end Ledger

namespace Ledger

/-! ## The raw tokenizer

`LEDGER_RULES` from `lexer.ts`, compiled by the external `moo` library.
Following the documented engine behaviour, the first rule that matches at
the current position wins and each rule is greedy.  The `^` anchor of the
comment rule matches at the start of a line.  JavaScript's `\s` inside
the `symbol` rule is modelled by the ASCII whitespace characters
(`isJsWs`); the exotic Unicode space code points are out of scope. -/

/-- A token as produced by `moo`: rule name, byte offset, matched text. -/
structure RawTok where
  type : TokType
  offset : Nat
  text : Str
deriving DecidableEq, Repr

/-- `/\r?\n/` (rule `newline`). -/
def matchNewline : Str → Option (Str × Str)
  | c :: rest =>
      if c = '\n' then some ([c], rest)
      else if c = '\r' then
        match rest with
        | d :: rest2 => if d = '\n' then some ([c, d], rest2) else none
        | [] => none
      else none
  | [] => none

/-- A character of the `ws` rule `[ \t]+`. -/
def isWsChar (c : Char) : Bool := c = ' ' || c = '\t'

/-- `/[ \t]+/` (rule `ws`), greedy. -/
def matchWs : Str → Option (Str × Str)
  | c :: rest =>
      if isWsChar c then
        some ((c :: rest).takeWhile isWsChar, (c :: rest).dropWhile isWsChar)
      else none
  | [] => none

/-- The start-of-line comment characters `[;#%*|]`. -/
def isCommentStart (c : Char) : Bool :=
  c = ';' || c = '#' || c = '%' || c = '*' || c = '|'

/-- `/(?:(?:;[^\n]*)|(?:^[;#%*|]))[^\n]*/` (rule `comment`): a `;`
anywhere, or any of `[;#%*|]` at the start of a line, then the rest of
the line. -/
def matchComment (lineStart : Bool) : Str → Option (Str × Str)
  | c :: rest =>
      if c = ';' || (lineStart && isCommentStart c) then
        some (c :: rest.takeWhile (fun d => d ≠ '\n'),
              rest.dropWhile (fun d => d ≠ '\n'))
      else none
  | [] => none

/-- `/"[^"\n]*"/` (rule `string`); an unclosed quote falls through to the
later rules, as regex alternation does. -/
def matchString : Str → Option (Str × Str)
  | c :: rest =>
      if c = '"' then
        match rest.dropWhile (fun d => d ≠ '"' && d ≠ '\n') with
        | d :: rest2 =>
            if d = '"' then
              some (c :: rest.takeWhile (fun d => d ≠ '"' && d ≠ '\n') ++ [d], rest2)
            else none
        | [] => none
      else none
  | [] => none

/-- The `(?:[.,]\d+)*` tail of the `number` rule: repeated groups of a
separator followed by a digit run.  The fuel bounds the number of
repetitions; each repetition consumes at least two characters, so any
fuel at least the length of the input is enough and the exhaustion
branch is unreachable from `matchNumber`. -/
def numTail : Nat → Str → Str × Str
  | _, [] => ([], [])
  | 0, cs => ([], cs)
  | fuel + 1, sep :: rest =>
      if sep = '.' || sep = ',' then
        match rest with
        | d :: tl =>
            if d.isDigit then
              let t := numTail fuel ((d :: tl).dropWhile Char.isDigit)
              (sep :: (d :: tl).takeWhile Char.isDigit ++ t.1, t.2)
            else ([], sep :: rest)
        | [] => ([], [sep])
      else ([], sep :: rest)

/-- `/\d+(?:[.,]\d+)*(?:[.,]\d+)?/` (rule `number`). -/
def matchNumber : Str → Option (Str × Str)
  | c :: rest =>
      if c.isDigit then
        let left := (c :: rest).dropWhile Char.isDigit
        let t := numTail left.length left
        some ((c :: rest).takeWhile Char.isDigit ++ t.1, t.2)
      else none
  | [] => none

/-- The single-character rules `equal … at`, in rule order: each is a
one-character regex, so the fourteen rules are a character/kind table. -/
def singleChars : List (Char × TokType) :=
  [('=', .equal), ('~', .tilde), ('(', .lparen), (')', .rparen),
   ('\x7b', .lbrace), ('\x7d', .rbrace), ('[', .lbracket), (']', .rbracket),
   ('-', .hyphen), ('/', .slash), ('*', .star), ('!', .bang),
   (':', .colon), ('@', .atSign)]

/-- First single-character rule matching `c`, if any. -/
def singleType (c : Char) : Option TokType :=
  (singleChars.find? (fun p => p.1 = c)).map (·.2)

/-- One `moo` step at the current position: the rules of `LEDGER_RULES`
tried in order, first match wins.  `none` models the `moo` error on an
unmatchable character (for instance a carriage return not followed by a
line feed). -/
def rawMatch (lineStart : Bool) (cs : Str) : Option (TokType × Str × Str) :=
  match matchNewline cs with
  | some p => some (.newline, p.1, p.2)
  | none =>
  match matchWs cs with
  | some p => some (.ws, p.1, p.2)
  | none =>
  match matchComment lineStart cs with
  | some p => some (.comment, p.1, p.2)
  | none =>
  match matchString cs with
  | some p => some (.string, p.1, p.2)
  | none =>
  match matchNumber cs with
  | some p => some (.number, p.1, p.2)
  | none =>
  match cs with
  | c :: rest =>
      (match singleType c with
        | some ty => some (ty, [c], rest)
        | none =>
            if c.isAlpha then
              some (.identifier, (c :: rest).takeWhile Char.isAlpha,
                    (c :: rest).dropWhile Char.isAlpha)
            else if !isJsWs c then some (.symbol, [c], rest)
            else none)
  | [] => none

theorem matchNewline_spec {cs t r} (h : matchNewline cs = some (t, r)) :
    t ++ r = cs ∧ t ≠ [] := by
  rcases cs with _ | ⟨c, rest⟩
  · exact absurd h (by simp [matchNewline])
  simp only [matchNewline] at h
  split at h
  case isTrue hc =>
    simp only [Option.some.injEq, Prod.mk.injEq] at h
    obtain ⟨ht, hr⟩ := h
    subst ht hr
    simp
  case isFalse =>
    split at h
    case isFalse => exact absurd h (by simp)
    case isTrue =>
      split at h
      case h_2 => exact absurd h (by simp)
      case h_1 d rest2 =>
        split at h
        case isFalse => exact absurd h (by simp)
        case isTrue =>
          simp only [Option.some.injEq, Prod.mk.injEq] at h
          obtain ⟨ht, hr⟩ := h
          subst ht hr
          simp

theorem matchWs_spec {cs t r} (h : matchWs cs = some (t, r)) :
    t ++ r = cs ∧ t ≠ [] := by
  rcases cs with _ | ⟨c, rest⟩
  · exact absurd h (by simp [matchWs])
  simp only [matchWs] at h
  split at h
  case isFalse => exact absurd h (by simp)
  case isTrue hc =>
    simp only [Option.some.injEq, Prod.mk.injEq] at h
    obtain ⟨ht, hr⟩ := h
    subst ht hr
    exact ⟨List.takeWhile_append_dropWhile _ _, by simp [List.takeWhile_cons, hc]⟩

theorem matchComment_spec {ls cs t r} (h : matchComment ls cs = some (t, r)) :
    t ++ r = cs ∧ t ≠ [] := by
  rcases cs with _ | ⟨c, rest⟩
  · exact absurd h (by simp [matchComment])
  simp only [matchComment] at h
  split at h
  case isFalse => exact absurd h (by simp)
  case isTrue =>
    simp only [Option.some.injEq, Prod.mk.injEq] at h
    obtain ⟨ht, hr⟩ := h
    subst ht hr
    simp [List.takeWhile_append_dropWhile]

theorem matchString_spec {cs t r} (h : matchString cs = some (t, r)) :
    t ++ r = cs ∧ t ≠ [] := by
  rcases cs with _ | ⟨c, rest⟩
  · exact absurd h (by simp [matchString])
  simp only [matchString] at h
  split at h
  case isFalse => exact absurd h (by simp)
  case isTrue hq =>
    split at h
    case h_2 => exact absurd h (by simp)
    case h_1 d rest2 hdrop =>
      split at h
      case isFalse => exact absurd h (by simp)
      case isTrue hd =>
        simp only [Option.some.injEq, Prod.mk.injEq] at h
        obtain ⟨ht, hr⟩ := h
        subst ht hr
        constructor
        · have hsplit : rest.takeWhile (fun d => d ≠ '"' && d ≠ '\n') ++
              rest.dropWhile (fun d => d ≠ '"' && d ≠ '\n') = rest :=
            List.takeWhile_append_dropWhile _ _
          rw [hdrop] at hsplit
          simp only [List.cons_append, List.append_assoc, List.singleton_append, List.cons.injEq]
          exact ⟨trivial, hsplit⟩
        · simp

theorem numTail_spec : ∀ (fuel : Nat) (cs : Str),
    (numTail fuel cs).1 ++ (numTail fuel cs).2 = cs := by
  intro fuel
  induction fuel with
  | zero =>
      intro cs
      rcases cs with _ | ⟨sep, rest⟩ <;> simp [numTail]
  | succ fuel ih =>
      intro cs
      rcases cs with _ | ⟨sep, rest⟩
      · simp [numTail]
      simp only [numTail]
      split
      · split
        · rename_i d tl
          split
          · simp only [List.cons_append, List.append_assoc, List.cons.injEq, true_and]
            rw [ih]
            exact List.takeWhile_append_dropWhile _ _
          · simp
        · simp
      · simp

theorem matchNumber_spec {cs t r} (h : matchNumber cs = some (t, r)) :
    t ++ r = cs ∧ t ≠ [] := by
  rcases cs with _ | ⟨c, rest⟩
  · exact absurd h (by simp [matchNumber])
  simp only [matchNumber] at h
  split at h
  case isFalse => exact absurd h (by simp)
  case isTrue hc =>
    simp only [Option.some.injEq, Prod.mk.injEq] at h
    obtain ⟨ht, hr⟩ := h
    subst ht hr
    constructor
    · rw [List.append_assoc, numTail_spec]
      exact List.takeWhile_append_dropWhile _ _
    · simp [List.takeWhile_cons, hc]

theorem rawMatch_spec {lineStart : Bool} {cs : Str} {ty : TokType} {text rest : Str}
    (h : rawMatch lineStart cs = some (ty, text, rest)) :
    text ++ rest = cs ∧ text ≠ [] := by
  unfold rawMatch at h
  split at h
  case h_1 p heq =>
    simp only [Option.some.injEq, Prod.mk.injEq] at h
    obtain ⟨-, ht, hr⟩ := h
    subst ht hr
    exact matchNewline_spec heq
  case h_2 =>
  split at h
  case h_1 p heq =>
    simp only [Option.some.injEq, Prod.mk.injEq] at h
    obtain ⟨-, ht, hr⟩ := h
    subst ht hr
    exact matchWs_spec heq
  case h_2 =>
  split at h
  case h_1 p heq =>
    simp only [Option.some.injEq, Prod.mk.injEq] at h
    obtain ⟨-, ht, hr⟩ := h
    subst ht hr
    exact matchComment_spec heq
  case h_2 =>
  split at h
  case h_1 p heq =>
    simp only [Option.some.injEq, Prod.mk.injEq] at h
    obtain ⟨-, ht, hr⟩ := h
    subst ht hr
    exact matchString_spec heq
  case h_2 =>
  split at h
  case h_1 p heq =>
    simp only [Option.some.injEq, Prod.mk.injEq] at h
    obtain ⟨-, ht, hr⟩ := h
    subst ht hr
    exact matchNumber_spec heq
  case h_2 =>
  split at h
  case h_2 => exact absurd h (by simp)
  case h_1 c rest' =>
  split at h
  case h_1 ty2 heq =>
    simp only [Option.some.injEq, Prod.mk.injEq] at h
    obtain ⟨-, ht, hr⟩ := h
    subst ht hr
    simp
  case h_2 =>
  split at h
  case isTrue ha =>
    simp only [Option.some.injEq, Prod.mk.injEq] at h
    obtain ⟨-, ht, hr⟩ := h
    subst ht hr
    exact ⟨List.takeWhile_append_dropWhile _ _, by simp [List.takeWhile_cons, ha]⟩
  case isFalse =>
  split at h
  case isFalse => exact absurd h (by simp)
  case isTrue =>
    simp only [Option.some.injEq, Prod.mk.injEq] at h
    obtain ⟨-, ht, hr⟩ := h
    subst ht hr
    simp

/-- The full `moo` run over a buffer: raw tokens with byte offsets.  The
boolean tracks whether the position is at the start of a line, for the
comment rule's `^` anchor.  The fuel bounds the number of tokens; every
match consumes at least one character, so fuel equal to the buffer
length is enough and the exhaustion branch is unreachable from
`rawTokenize`. -/
def rawTokenizeAux : Nat → Str → Nat → Bool → Option (List RawTok)
  | _, [], _, _ => some []
  | 0, _ :: _, _, _ => none
  | fuel + 1, c :: cs', pos, lineStart =>
      match rawMatch lineStart (c :: cs') with
      | none => none
      | some (ty, text, rest) =>
          (rawTokenizeAux fuel rest (pos + text.length)
              (decide (text.getLast? = some '\n'))).map
            (fun ts => ⟨ty, pos, text⟩ :: ts)

/-- `lexer.reset(input)` followed by the whole raw run. -/
def rawTokenize (cs : Str) : Option (List RawTok) := rawTokenizeAux cs.length cs 0 true

theorem rawTokenizeAux_texts : ∀ (fuel : Nat) (cs : Str) (pos : Nat) (ls : Bool)
    (toks : List RawTok), rawTokenizeAux fuel cs pos ls = some toks →
    (toks.map RawTok.text).flatten = cs := by
  intro fuel
  induction fuel with
  | zero =>
      intro cs pos ls toks h
      rcases cs with _ | ⟨c, cs'⟩
      · simp only [rawTokenizeAux, Option.some.injEq] at h
        subst h
        simp
      · exact absurd h (by simp [rawTokenizeAux])
  | succ fuel ih =>
      intro cs pos ls toks h
      rcases cs with _ | ⟨c, cs'⟩
      · simp only [rawTokenizeAux, Option.some.injEq] at h
        subst h
        simp
      rw [rawTokenizeAux] at h
      split at h
      · exact absurd h (by simp)
      case h_2 ty text rest hm =>
        obtain ⟨happ, hne⟩ := rawMatch_spec hm
        rcases hrec : rawTokenizeAux fuel rest (pos + text.length)
            (decide (text.getLast? = some '\n')) with _ | ⟨ts⟩
        · rw [hrec] at h; exact absurd h (by simp)
        rw [hrec] at h
        simp only [Option.map_some', Option.some.injEq] at h
        subst h
        have := ih rest (pos + text.length) (decide (text.getLast? = some '\n')) ts hrec
        simp only [List.map_cons, List.flatten_cons, this]
        exact happ

/-- Concatenating the texts of the raw tokens restores the buffer. -/
theorem rawTokenize_texts {cs : Str} {toks : List RawTok}
    (h : rawTokenize cs = some toks) : (toks.map RawTok.text).flatten = cs :=
  rawTokenizeAux_texts cs.length cs 0 true toks h

theorem singleType_no_eof {c : Char} {ty : TokType} (h : singleType c = some ty) :
    ty ≠ .eof := by
  unfold singleType at h
  rcases hf : singleChars.find? (fun p => p.1 = c) with _ | ⟨p⟩
  · rw [hf] at h
    exact absurd h (by simp)
  · rw [hf] at h
    simp only [Option.map_some', Option.some_inj] at h
    subst h
    have hmem := List.mem_of_find?_eq_some hf
    have hall : ∀ q ∈ singleChars, q.2 ≠ TokType.eof := by decide
    exact hall p hmem

theorem rawMatch_no_eof {lineStart : Bool} {cs : Str} {ty : TokType} {text rest : Str}
    (h : rawMatch lineStart cs = some (ty, text, rest)) : ty ≠ .eof := by
  unfold rawMatch at h
  split at h
  · simp only [Option.some.injEq, Prod.mk.injEq] at h; obtain ⟨ht, -⟩ := h; subst ht; simp
  split at h
  · simp only [Option.some.injEq, Prod.mk.injEq] at h; obtain ⟨ht, -⟩ := h; subst ht; simp
  split at h
  · simp only [Option.some.injEq, Prod.mk.injEq] at h; obtain ⟨ht, -⟩ := h; subst ht; simp
  split at h
  · simp only [Option.some.injEq, Prod.mk.injEq] at h; obtain ⟨ht, -⟩ := h; subst ht; simp
  split at h
  · simp only [Option.some.injEq, Prod.mk.injEq] at h; obtain ⟨ht, -⟩ := h; subst ht; simp
  split at h
  case h_2 => exact absurd h (by simp)
  case h_1 c rest' =>
  split at h
  case h_1 ty2 heq =>
    simp only [Option.some.injEq, Prod.mk.injEq] at h
    obtain ⟨ht, -⟩ := h
    subst ht
    exact singleType_no_eof heq
  case h_2 =>
  split at h
  · simp only [Option.some.injEq, Prod.mk.injEq] at h; obtain ⟨ht, -⟩ := h; subst ht; simp
  split at h
  · simp only [Option.some.injEq, Prod.mk.injEq] at h; obtain ⟨ht, -⟩ := h; subst ht; simp
  · exact absurd h (by simp)

theorem rawTokenizeAux_no_eof : ∀ (fuel : Nat) (cs : Str) (pos : Nat) (ls : Bool)
    (toks : List RawTok), rawTokenizeAux fuel cs pos ls = some toks →
    ∀ t ∈ toks, t.type ≠ .eof := by
  intro fuel
  induction fuel with
  | zero =>
      intro cs pos ls toks h
      rcases cs with _ | ⟨c, cs'⟩
      · simp only [rawTokenizeAux, Option.some.injEq] at h
        subst h
        simp
      · exact absurd h (by simp [rawTokenizeAux])
  | succ fuel ih =>
      intro cs pos ls toks h
      rcases cs with _ | ⟨c, cs'⟩
      · simp only [rawTokenizeAux, Option.some.injEq] at h
        subst h
        simp
      rw [rawTokenizeAux] at h
      split at h
      · exact absurd h (by simp)
      case h_2 ty text rest hm =>
        rcases hrec : rawTokenizeAux fuel rest (pos + text.length)
            (decide (text.getLast? = some '\n')) with _ | ⟨ts⟩
        · rw [hrec] at h; exact absurd h (by simp)
        rw [hrec] at h
        simp only [Option.map_some', Option.some.injEq] at h
        subst h
        intro t ht
        rcases List.mem_cons.mp ht with rfl | hmem
        · exact rawMatch_no_eof hm
        · exact ih rest (pos + text.length) (decide (text.getLast? = some '\n')) ts hrec t hmem

/-- No raw token carries the virtual `eof` kind. -/
theorem rawTokenize_no_eof {cs : Str} {toks : List RawTok}
    (h : rawTokenize cs = some toks) : ∀ t ∈ toks, t.type ≠ .eof :=
  rawTokenizeAux_no_eof cs.length cs 0 true toks h

/-! ## The whitespace-absorbing lexer (`lexer.ts`) -/

/-- `this.lexer.next()` on the raw stream: the stream is the list of
raw tokens `moo` has not yet produced. -/
def mooNext : List RawTok → Option RawTok × List RawTok
  | [] => (none, [])
  | t :: ts => (some t, ts)

/-- `this.lookbehind?.span[0] ?? 0`: the span start of the previous
token, or 0 when none has been produced. -/
def spanStart (lookbehind : Option Token) : Nat :=
  match lookbehind with
  | some t => t.span.1
  | none => 0

/-- `Lexer.eofToken(leadingSpace?)`: a virtual `eof` whose offset is
`this.lookbehind?.span[0] ?? 0`, carrying the pending whitespace as its
leading space. -/
def eofToken (lookbehind : Option Token) (leading : Option Str) : Token :=
  Token.virtual .eof (spanStart lookbehind) (leading.getD [])

/-- `new Token(nextNonWs, leadingSpace?.text, trailingSpace?.text)`. -/
def mkToken (next : RawTok) (leading trailing : Option RawTok) : Token :=
  { type := next.type, offset := next.offset, text := next.text,
    leading := (leading.map RawTok.text).getD [],
    trailing := (trailing.map RawTok.text).getD [] }

/-- The tail of `Lexer.getNext`: with the non-`ws` token fixed, peek one
more raw token into `_peek`; if it is `ws` it becomes the trailing space
and `_peek` is cleared. -/
def finishTok (next : RawTok) (leading : Option RawTok) (raw : List RawTok) :
    Token × Option RawTok × List RawTok :=
  match mooNext raw with
  | (some t, raw2) =>
      if t.type = .ws then (mkToken next leading (some t), none, raw2)
      else (mkToken next leading none, some t, raw2)
  | (none, raw2) => (mkToken next leading none, none, raw2)

/-- `Lexer.getNext`: take `_peek` or the next raw token; absorb a `ws`
token as the leading space of the following token; exhaustion yields the
virtual `eof`, with pending whitespace attached as its leading space.
Returns the produced token together with the updated `_peek` and raw
stream. -/
def getNext (lookbehind : Option Token) (pk : Option RawTok) (raw : List RawTok) :
    Token × Option RawTok × List RawTok :=
  match (match pk with | some p => (some p, raw) | none => mooNext raw) with
  | (none, raw1) => (eofToken lookbehind none, none, raw1)
  | (some next, raw1) =>
      if next.type = .ws then
        match mooNext raw1 with
        | (none, raw2) => (eofToken lookbehind (some next.text), none, raw2)
        | (some next2, raw2) => finishTok next2 (some next) raw2
      else finishTok next none raw1

/-- The size of the not-yet-produced portion of the raw stream. -/
def lexMeasure (pk : Option RawTok) (raw : List RawTok) : Nat :=
  pk.toList.length + raw.length

theorem getNext_progress (lb : Option Token) (pk : Option RawTok) (raw : List RawTok) :
    (getNext lb pk raw).1.type = .eof ∨
    lexMeasure (getNext lb pk raw).2.1 (getNext lb pk raw).2.2 < lexMeasure pk raw := by
  have hfin : ∀ (nx : RawTok) (ld : Option RawTok) (rw : List RawTok),
      ((finishTok nx ld rw).1.type = nx.type ∧
        lexMeasure (finishTok nx ld rw).2.1 (finishTok nx ld rw).2.2 ≤ rw.length) := by
    intro nx ld rw
    rcases rw with _ | ⟨t, ts⟩
    · simp [finishTok, mooNext, mkToken, lexMeasure]
    · rw [finishTok]
      simp only [mooNext]
      split
      · simp [mkToken, lexMeasure]
      · refine ⟨rfl, ?_⟩
        show lexMeasure (some t) ts ≤ (t :: ts).length
        simp only [lexMeasure, Option.toList, List.length_cons, List.length_nil]
        omega
  rcases pk with _ | p
  · rcases raw with _ | ⟨r, rs⟩
    · left
      simp [getNext, mooNext, eofToken, Token.virtual]
    · rw [getNext]
      simp only [mooNext]
      split
      · rcases rs with _ | ⟨r2, rs2⟩
        · left
          simp [mooNext, eofToken, Token.virtual]
        · right
          simp only [mooNext]
          have := (hfin r2 (some r) rs2).2
          simp only [lexMeasure, Option.toList, List.length_cons, List.length_nil] at this ⊢
          omega
      · right
        have := (hfin r none rs).2
        simp only [lexMeasure, Option.toList, List.length_cons, List.length_nil] at this ⊢
        omega
  · rw [getNext]
    split
    · right
      rcases raw with _ | ⟨r2, rs2⟩
      · simp [mooNext, lexMeasure, eofToken]
      · simp only [mooNext]
        have := (hfin r2 (some p) rs2).2
        simp only [lexMeasure, Option.toList, List.length_cons, List.length_nil] at this ⊢
        omega
    · right
      have := (hfin p none raw).2
      simp only [lexMeasure, Option.toList, List.length_cons, List.length_nil] at this ⊢
      omega

/-- The token iteration of the `Lexer`: repeated `next()` up to and
including the first `eof`, exactly as `[Symbol.iterator]` yields the
stream.  `lookbehind` is the lexer's `previous()` token.  The fuel
bounds the number of tokens; every non-`eof` emission strictly shrinks
the raw stream (`getNext_progress`), so fuel above `lexMeasure` is
enough and the exhaustion branch is unreachable from `lexAll`. -/
def emitAll : Nat → Option Token → Option RawTok → List RawTok → List Token
  | 0, _, _, _ => []
  | fuel + 1, lookbehind, pk, raw =>
      let r := getNext lookbehind pk raw
      if r.1.type = .eof then [r.1] else r.1 :: emitAll fuel (some r.1) r.2.1 r.2.2

/-- The text still owed by the raw stream (including the parked `_peek`). -/
def streamTexts (pk : Option RawTok) (raw : List RawTok) : Str :=
  ((pk.toList ++ raw).map RawTok.text).flatten

theorem optRawText (ld : Option RawTok) :
    (Option.map RawTok.text ld).getD [] = (ld.toList.map RawTok.text).flatten := by
  rcases ld with _ | l <;> simp

theorem getNext_texts (lb : Option Token) (pk : Option RawTok) (raw : List RawTok) :
    (getNext lb pk raw).1.outerText ++
      streamTexts (getNext lb pk raw).2.1 (getNext lb pk raw).2.2 = streamTexts pk raw := by
  have hfin : ∀ (nx : RawTok) (ld : Option RawTok) (rw : List RawTok),
      (finishTok nx ld rw).1.outerText ++
        streamTexts (finishTok nx ld rw).2.1 (finishTok nx ld rw).2.2 =
        (ld.toList.map RawTok.text).flatten ++ nx.text ++ (rw.map RawTok.text).flatten := by
    intro nx ld rw
    rcases rw with _ | ⟨t, ts⟩
    · simp [finishTok, mooNext, mkToken, streamTexts, Token.outerText, optRawText]
    · rw [finishTok]
      simp only [mooNext]
      split
      · rename_i hws
        simp [mkToken, streamTexts, Token.outerText, optRawText]
      · simp [mkToken, streamTexts, Token.outerText, optRawText]
  rcases pk with _ | p
  · rcases raw with _ | ⟨r, rs⟩
    · simp [getNext, mooNext, eofToken, Token.virtual, streamTexts, Token.outerText]
    · rw [getNext]
      simp only [mooNext]
      split
      · rename_i hws
        rcases rs with _ | ⟨r2, rs2⟩
        · simp [mooNext, eofToken, Token.virtual, streamTexts, Token.outerText]
        · simp only [mooNext]
          have := hfin r2 (some r) rs2
          simp only [streamTexts, Option.toList] at this ⊢
          simp only [List.map_cons, List.flatten_cons, List.map_nil, List.flatten_nil,
            List.nil_append, List.map_append, List.cons_append, List.append_assoc,
            List.singleton_append] at this ⊢
          rw [this]
      · have := hfin r none rs
        simp only [streamTexts, Option.toList] at this ⊢
        simp only [List.map_cons, List.flatten_cons, List.map_nil, List.flatten_nil,
          List.nil_append, List.map_append, List.cons_append, List.append_assoc,
          List.singleton_append] at this ⊢
        rw [this]
  · rw [getNext]
    split
    · rename_i hws
      rcases raw with _ | ⟨r2, rs2⟩
      · simp [mooNext, eofToken, Token.virtual, streamTexts, Token.outerText]
      · simp only [mooNext]
        have := hfin r2 (some p) rs2
        simp only [streamTexts, Option.toList] at this ⊢
        simp only [List.map_cons, List.flatten_cons, List.map_nil, List.flatten_nil,
          List.nil_append, List.map_append, List.cons_append, List.append_assoc,
          List.singleton_append] at this ⊢
        rw [this]
    · have := hfin p none raw
      simp only [streamTexts, Option.toList] at this ⊢
      simp only [List.map_cons, List.flatten_cons, List.map_nil, List.flatten_nil,
        List.nil_append, List.map_append, List.cons_append, List.append_assoc,
        List.singleton_append] at this ⊢
      rw [this]

theorem getNext_eof_end (lb : Option Token) (pk : Option RawTok) (raw : List RawTok)
    (hno : ∀ r ∈ pk.toList ++ raw, r.type ≠ .eof)
    (he : (getNext lb pk raw).1.type = .eof) :
    (getNext lb pk raw).2.1 = none ∧ (getNext lb pk raw).2.2 = [] := by
  have hfin : ∀ (nx : RawTok) (ld : Option RawTok) (rw : List RawTok),
      (finishTok nx ld rw).1.type = nx.type := by
    intro nx ld rw
    rcases rw with _ | ⟨t, ts⟩
    · simp [finishTok, mooNext, mkToken]
    · rw [finishTok]
      simp only [mooNext]
      split <;> simp [mkToken]
  rcases pk with _ | p
  · rcases raw with _ | ⟨r, rs⟩
    · simp [getNext, mooNext]
    · rw [getNext] at he ⊢
      simp only [mooNext] at he ⊢
      split at he
      · rename_i hws
        rcases rs with _ | ⟨r2, rs2⟩
        · simp [mooNext, hws]
        · simp only [mooNext] at he ⊢
          rw [hfin r2 (some r) rs2] at he
          exact absurd he (hno r2 (by simp))
      · rw [hfin r none rs] at he
        exact absurd he (hno r (by simp))
  · rw [getNext] at he ⊢
    split at he
    · rename_i hws
      rcases raw with _ | ⟨r2, rs2⟩
      · simp [mooNext, hws]
      · simp only [mooNext] at he ⊢
        rw [hfin r2 (some p) rs2] at he
        exact absurd he (hno r2 (by simp))
    · rw [hfin p none raw] at he
      exact absurd he (hno p (by simp))

theorem getNext_preserve (lb : Option Token) (pk : Option RawTok) (raw : List RawTok) :
    ∀ r ∈ (getNext lb pk raw).2.1.toList ++ (getNext lb pk raw).2.2,
      r ∈ pk.toList ++ raw := by
  have hfin : ∀ (nx : RawTok) (ld : Option RawTok) (rw : List RawTok),
      ∀ r ∈ (finishTok nx ld rw).2.1.toList ++ (finishTok nx ld rw).2.2, r ∈ rw := by
    intro nx ld rw
    rcases rw with _ | ⟨t, ts⟩
    · simp [finishTok, mooNext]
    · rw [finishTok]
      simp only [mooNext]
      split
      · intro r hr
        simp only [Option.toList, List.nil_append] at hr
        exact List.mem_cons_of_mem _ hr
      · intro r hr
        simp only [Option.toList, List.cons_append, List.mem_cons, List.nil_append] at hr
        rcases hr with rfl | hr
        · exact List.mem_cons_self _ _
        · exact List.mem_cons_of_mem _ hr
  rcases pk with _ | p
  · rcases raw with _ | ⟨r, rs⟩
    · simp [getNext, mooNext]
    · rw [getNext]
      simp only [mooNext]
      split
      · rcases rs with _ | ⟨r2, rs2⟩
        · simp [mooNext]
        · simp only [mooNext]
          intro x hx
          have := hfin r2 (some r) rs2 x hx
          simp only [Option.toList, List.nil_append]
          exact List.mem_cons_of_mem _ (List.mem_cons_of_mem _ this)
      · intro x hx
        have := hfin r none rs x hx
        simp only [Option.toList, List.nil_append]
        exact List.mem_cons_of_mem _ this
  · rw [getNext]
    split
    · rcases raw with _ | ⟨r2, rs2⟩
      · simp [mooNext]
      · simp only [mooNext]
        intro x hx
        have := hfin r2 (some p) rs2 x hx
        simp only [Option.toList, List.cons_append]
        exact List.mem_cons_of_mem _ (List.mem_cons_of_mem _ this)
    · intro x hx
      have := hfin p none raw x hx
      simp only [Option.toList, List.cons_append]
      exact List.mem_cons_of_mem _ this

theorem emitAll_outer_aux : ∀ (fuel : Nat) (lb : Option Token) (pk : Option RawTok)
    (raw : List RawTok), lexMeasure pk raw < fuel →
    (∀ r ∈ pk.toList ++ raw, r.type ≠ .eof) →
    ((emitAll fuel lb pk raw).map Token.outerText).flatten = streamTexts pk raw := by
  intro fuel
  induction fuel with
  | zero =>
      intro lb pk raw hlen hno
      exact absurd hlen (by omega)
  | succ fuel ih =>
      intro lb pk raw hlen hno
      rw [emitAll]
      split
      · rename_i he
        have hend := getNext_eof_end lb pk raw hno he
        have htexts := getNext_texts lb pk raw
        rw [hend.1, hend.2] at htexts
        simp only [streamTexts, Option.toList, List.nil_append, List.map_nil,
          List.flatten_nil, List.append_nil] at htexts
        simp only [List.map_cons, List.map_nil, List.flatten_cons, List.flatten_nil,
          List.append_nil]
        exact htexts
      · rename_i he
        have hprog := getNext_progress lb pk raw
        rcases hprog with he2 | hlt
        · exact absurd he2 he
        have hno2 : ∀ r ∈ (getNext lb pk raw).2.1.toList ++ (getNext lb pk raw).2.2,
            r.type ≠ .eof := fun r hr => hno r (getNext_preserve lb pk raw r hr)
        have := ih (some (getNext lb pk raw).1) (getNext lb pk raw).2.1
          (getNext lb pk raw).2.2 (by omega) hno2
        simp only [List.map_cons, List.flatten_cons, this]
        exact getNext_texts lb pk raw

/-- Emitting the cooked token stream and concatenating outer texts
restores exactly the raw-token text stream. -/
theorem emitAll_outer (lb : Option Token) (pk : Option RawTok) (raw : List RawTok)
    (hno : ∀ r ∈ pk.toList ++ raw, r.type ≠ .eof) :
    ((emitAll (lexMeasure pk raw + 1) lb pk raw).map Token.outerText).flatten =
      streamTexts pk raw :=
  emitAll_outer_aux (lexMeasure pk raw + 1) lb pk raw (by omega) hno

/-- The `Lexer` class of `lexer.ts`: the remaining raw stream with the
`_peek`, `lookahead` and `lookbehind` slots. -/
structure Lexer where
  raw : List RawTok
  peekRaw : Option RawTok
  lookahead : Option Token
  lookbehind : Option Token
deriving DecidableEq, Repr

namespace Lexer

/-- `new Lexer(input)`: compile the rules and reset on the buffer; fails
when `moo` cannot tokenize the buffer. -/
def ofInput (cs : Str) : Option Lexer :=
  (rawTokenize cs).map (fun toks => ⟨toks, none, none, none⟩)

/-- `Lexer.next()`: take the cached lookahead or cook the next token,
updating `lookbehind`. -/
def next (l : Lexer) : Token × Lexer :=
  match l.lookahead with
  | some t => (t, { l with lookahead := none, lookbehind := some t })
  | none =>
      let r := getNext l.lookbehind l.peekRaw l.raw
      (r.1, { l with raw := r.2.2, peekRaw := r.2.1, lookbehind := some r.1 })

/-- `Lexer.peek()`: materialize the next token once and cache it. -/
def peek (l : Lexer) : Token × Lexer :=
  match l.lookahead with
  | some t => (t, l)
  | none =>
      let r := getNext l.lookbehind l.peekRaw l.raw
      (r.1, { l with raw := r.2.2, peekRaw := r.2.1, lookahead := some r.1 })

/-- `Lexer.previous()`. -/
def previous (l : Lexer) : Option Token := l.lookbehind

/-- `Lexer.hasNext()`: `peek().type !== 'eof'`. -/
def hasNext (l : Lexer) : Bool × Lexer :=
  let r := l.peek
  (r.1.type ≠ .eof, r.2)

end Lexer

/-- The lexer's whole observable emission over a buffer: the tokens the
iterator yields, up to and including the virtual `eof`. -/
def lexAll (cs : Str) : Option (List Token) :=
  (rawTokenize cs).map (fun toks => emitAll (lexMeasure none toks + 1) none none toks)

/-- `render`: concatenation of `outer_text` over emitted tokens. -/
def render (toks : List Token) : Str := (toks.map Token.outerText).flatten

/-- A whitespace-only buffer is one `ws` raw token. -/
theorem rawTokenize_ws_only {cs : Str} (hne : cs ≠ []) (hws : cs.all isWsChar) :
    rawTokenize cs = some [⟨.ws, 0, cs⟩] := by
  rcases cs with _ | ⟨c, cs'⟩
  · exact absurd rfl hne
  have hc : isWsChar c := by
    have := List.all_eq_true.mp hws c (by simp)
    exact this
  have hcsp : c = ' ' ∨ c = '\t' := by
    unfold isWsChar at hc
    rcases Bool.or_eq_true_iff.mp hc with h | h
    · exact Or.inl (by exact_mod_cast of_decide_eq_true h)
    · exact Or.inr (by exact_mod_cast of_decide_eq_true h)
  have hnl : matchNewline (c :: cs') = none := by
    unfold matchNewline
    rcases hcsp with rfl | rfl <;> simp
  have hmw : matchWs (c :: cs') = some (c :: cs', []) := by
    simp only [matchWs]
    rw [if_pos hc]
    rw [List.takeWhile_eq_self_iff.mpr, List.dropWhile_eq_nil_iff.mpr]
    · intro a ha
      exact List.all_eq_true.mp hws a ha
    · intro a ha
      exact List.all_eq_true.mp hws a ha
  have hrm : rawMatch true (c :: cs') = some (.ws, c :: cs', []) := by
    unfold rawMatch
    rw [hnl, hmw]
  unfold rawTokenize
  rw [List.length_cons]
  simp only [rawTokenizeAux]
  rw [hrm]
  simp [rawTokenizeAux]

/-- Emission over a single `ws` raw token: the whitespace becomes the
`eof` token's leading space. -/
theorem emitAll_ws_only (fuel : Nat) (w : RawTok) (hw : w.type = .ws) :
    emitAll (fuel + 1) none none [w] = [Token.virtual .eof 0 w.text] := by
  rw [emitAll]
  have hg : getNext none none [w] = (Token.virtual .eof 0 w.text, none, []) := by
    rw [getNext]
    simp only [mooNext]
    rw [if_pos hw]
    simp [mooNext, eofToken, Token.virtual, spanStart]
  simp only [hg]
  simp [Token.virtual]

/-- C1 (amended).  For every buffer the raw tokenizer accepts,
concatenating the outer text (leading whitespace ++ inner text ++
trailing whitespace) of every token the Lexer emits, in order up to and
including the virtual `eof`, yields exactly the input; and the trailing
whitespace of a whitespace-only buffer is carried as the `eof` token's
leading whitespace.  (In a whitespace-terminated buffer that contains a
real token, the trailing whitespace is carried as that token's trailing
whitespace instead — see the counterexample.) -/
theorem claim1_roundtrip :
    (∀ (cs : Str) (toks : List Token), lexAll cs = some toks → render toks = cs) ∧
    (∀ cs : Str, cs ≠ [] → cs.all isWsChar →
      lexAll cs = some [Token.virtual .eof 0 cs]) := by
  constructor
  · intro cs toks h
    unfold lexAll at h
    rcases hr : rawTokenize cs with _ | raws
    · rw [hr] at h
      exact absurd h (by simp)
    rw [hr] at h
    simp only [Option.map_some', Option.some.injEq] at h
    subst h
    unfold render
    have hno : ∀ r ∈ (none : Option RawTok).toList ++ raws, r.type ≠ .eof := by
      intro r hrr
      simp only [Option.toList, List.nil_append] at hrr
      exact rawTokenize_no_eof hr r hrr
    rw [emitAll_outer none none raws hno]
    simp only [streamTexts, Option.toList, List.nil_append]
    exact rawTokenize_texts hr
  · intro cs hne hws
    unfold lexAll
    rw [rawTokenize_ws_only hne hws]
    simp only [Option.map_some', Option.some.injEq]
    exact emitAll_ws_only _ ⟨.ws, 0, cs⟩ rfl

/-- C1, claim as stated, is false: the buffer `"a "` is
whitespace-terminated, yet the `eof` token's leading whitespace is empty
(the trailing space is attached to the `a` token instead). -/
theorem claim1_counterexample :
    lexAll ['a', ' '] =
      some [⟨.identifier, 0, ['a'], [], [' ']⟩, ⟨.eof, 0, [], [], []⟩] ∧
    (⟨.eof, 0, [], [], []⟩ : Token).leading = [] ∧ ([' '] : Str) ≠ [] := by
  refine ⟨by decide, rfl, by decide⟩

/-- Witness for C1 at concrete inputs. -/
theorem claim1_roundtrip_witness :
    render [⟨.identifier, 0, ['a'], [], [' ']⟩, ⟨.identifier, 2, ['b'], [], []⟩,
            ⟨.eof, 2, [], [], []⟩] = ['a', ' ', 'b'] ∧
    lexAll [' ', ' '] = some [Token.virtual .eof 0 [' ', ' ']] :=
  ⟨claim1_roundtrip.1 ['a', ' ', 'b'] _ (by decide),
   claim1_roundtrip.2 [' ', ' '] (by decide) (by decide)⟩

/-- C8 (amended).  Once the raw stream is exhausted, every call to
`Lexer.next()` returns a virtual `eof` token whose offset is the span
start of the lexer's previous token (`lookbehind?.span[0] ?? 0`, the
previous token's `moo` offset plus its leading-whitespace length), not
its end offset; and if the remaining buffer is exactly one unconsumed
whitespace run, that run becomes the `eof` token's leading whitespace. -/
theorem claim8_eof_next :
    (∀ l : Lexer, l.lookahead = none → l.peekRaw = none → l.raw = [] →
      (l.next).1 = Token.virtual .eof (spanStart l.lookbehind) []) ∧
    (∀ (l : Lexer) (w : RawTok), l.lookahead = none → l.peekRaw = none →
      l.raw = [w] → w.type = .ws →
      (l.next).1 = Token.virtual .eof (spanStart l.lookbehind) w.text) := by
  constructor
  · intro l hla hpk hraw
    unfold Lexer.next
    rw [hla]
    simp only [getNext, hpk, hraw, mooNext, eofToken]
    rfl
  · intro l w hla hpk hraw hws
    unfold Lexer.next
    rw [hla]
    simp only [getNext, hpk, hraw, mooNext]
    rw [if_pos hws]
    simp only [mooNext, eofToken]
    rfl

/-- C8, claim as stated, is false: after lexing `"ab"` the `eof` offset
is 0 (the span start of `ab`), not 2 (its start plus its outer length). -/
theorem claim8_counterexample :
    (Lexer.next ⟨[], none, none, some ⟨.identifier, 0, ['a', 'b'], [], []⟩⟩).1 =
      Token.virtual .eof 0 [] ∧
    (⟨.identifier, 0, ['a', 'b'], [], []⟩ : Token).offset +
      (⟨.identifier, 0, ['a', 'b'], [], []⟩ : Token).outerLength = 2 ∧
    (Token.virtual .eof 0 []).offset ≠ 2 := by
  refine ⟨by decide, by decide, by decide⟩

/-- Witness for C8 at concrete lexer states. -/
theorem claim8_eof_next_witness :
    (Lexer.next ⟨[], none, none, some ⟨.identifier, 1, ['a'], [' '], []⟩⟩).1 =
      Token.virtual .eof 2 [] ∧
    (Lexer.next ⟨[⟨.ws, 0, [' ', ' ']⟩], none, none, none⟩).1 =
      Token.virtual .eof 0 [' ', ' '] :=
  ⟨claim8_eof_next.1 ⟨[], none, none, some ⟨.identifier, 1, ['a'], [' '], []⟩⟩ rfl rfl rfl,
   claim8_eof_next.2 ⟨[⟨.ws, 0, [' ', ' ']⟩], none, none, none⟩ ⟨.ws, 0, [' ', ' ']⟩
     rfl rfl rfl rfl⟩

/-- C3 (amended).  `SymbolTable.add(name, span)` on a name already
present does not modify the table: it throws (`Except.error`) before any
write, so the table still holds the first declaration's span; `add` on an
absent name appends the pair, and lookups of previously present names are
unaffected by later additions, so `get(name)` always returns the span of
the first declaration. -/
theorem claim3_add_existing :
    (∀ (st : SymbolTable) (key : Str) (span : Span),
      st.has key = true → st.add key span = .error ()) ∧
    (∀ (st : SymbolTable) (key key' : Str) (span : Span) (t : SymbolTable),
      st.add key span = .ok t → st.has key' = true → t.get key' = st.get key') := by
  constructor
  · intro st key span hkey
    unfold SymbolTable.add
    rw [if_pos hkey]
  · intro st key key' span t hadd hkey
    unfold SymbolTable.add at hadd
    split at hadd
    · exact absurd hadd (by simp)
    · simp only [Except.ok.injEq] at hadd
      subst hadd
      unfold SymbolTable.get
      have hfind : (st.table.find? (fun p => p.1 = key')).isSome := by
        rw [List.find?_isSome]
        obtain ⟨p, hp, hpk⟩ := List.any_eq_true.mp hkey
        exact ⟨p, hp, hpk⟩
      rcases hf : st.table.find? (fun p => p.1 = key') with _ | p
      · rw [hf] at hfind
        simp at hfind
      · have : (st.table ++ [(key, span)]).find? (fun p => p.1 = key') = some p := by
          rw [List.find?_append, hf]
          rfl
        rw [this, hf]

/-- C3, claim as stated, is false: re-adding a present name is not a
no-op success — `add` throws (`Except.error`). -/
theorem claim3_counterexample :
    (SymbolTable.mk [(['a'], (0, 1))]).has ['a'] = true ∧
    (SymbolTable.mk [(['a'], (0, 1))]).add ['a'] (5, 6) = .error () := by
  refine ⟨by decide, by rfl⟩

/-- Witness for C3 at a concrete table. -/
theorem claim3_add_existing_witness :
    (SymbolTable.mk [(['a'], (0, 1))]).add ['a'] (5, 6) = .error () ∧
    (SymbolTable.mk [(['a'], (0, 1)), (['b'], (2, 3))]).get ['a'] = some (0, 1) :=
  ⟨claim3_add_existing.1 (SymbolTable.mk [(['a'], (0, 1))]) ['a'] (5, 6) (by decide),
   by
    have := claim3_add_existing.2 (SymbolTable.mk [(['a'], (0, 1))]) ['b'] ['a'] (2, 3)
      (SymbolTable.mk [(['a'], (0, 1)), (['b'], (2, 3))]) (by rfl) (by decide)
    rw [this]
    decide⟩

/-- Specified from the claim's words: the group's inner text is the
concatenation of the constituent tokens' outer texts with only the
group's leading whitespace (the first token's leading run) and trailing
whitespace (the last token's trailing run) removed. -/
def specGroupInner (g : Group) : Str :=
  let lead := (g.tokens.headD (Token.virtual .eof 0)).leading.length
  let trail := (g.tokens.getLastD (Token.virtual .eof 0)).trailing.length
  (g.outerText.drop lead).take (g.outerText.length - lead - trail)

/-- The string starts with a non-whitespace character. -/
def firstCharNonWs (s : Str) : Bool :=
  match s with
  | [] => false
  | c :: _ => !isJsWs c

theorem dropWhile_allws {l : Str} (hl : l.all isJsWs) {c : Char}
    (hc : isJsWs c = false) (rest : Str) :
    (l ++ c :: rest).dropWhile isJsWs = c :: rest := by
  induction l with
  | nil => simp [List.dropWhile_cons, hc]
  | cons x xs ih =>
      simp only [List.all_cons, Bool.and_eq_true] at hl
      simp only [List.cons_append, List.dropWhile_cons, hl.1, if_true]
      exact ih hl.2

theorem jsTrimStart_concat {lead : Str} (hl : lead.all isJsWs) {c : Char}
    (hc : isJsWs c = false) (rest : Str) :
    jsTrimStart (lead ++ c :: rest) = c :: rest := by
  unfold jsTrimStart
  exact dropWhile_allws hl hc rest

theorem jsTrimEnd_concat (front : Str) {c : Char} (hc : isJsWs c = false)
    {trail : Str} (ht : trail.all isJsWs) :
    jsTrimEnd (front ++ c :: trail) = front ++ [c] := by
  unfold jsTrimEnd
  have hrev : (front ++ c :: trail).reverse = trail.reverse ++ c :: front.reverse := by
    simp
  rw [hrev, dropWhile_allws (by simpa using ht) hc front.reverse]
  simp

theorem innerAux_false_eq : ∀ (ts : List Token) (h : ts ≠ []),
    Group.innerAux ts false =
      ((ts.dropLast.map Token.outerText).flatten) ++ jsTrimEnd (ts.getLast h).outerText := by
  intro ts
  induction ts with
  | nil => intro h; exact absurd rfl h
  | cons t rest ih =>
      intro h
      rcases rest with _ | ⟨t2, rest2⟩
      · simp [Group.innerAux]
      · rw [Group.innerAux]
        · rw [ih (by simp)]
          simp [List.getLast]
        · simp

theorem innerAux_true_eq (t : Token) (t2 : Token) (rest : List Token) :
    Group.innerAux (t :: t2 :: rest) true =
      jsTrimStart t.outerText ++ Group.innerAux (t2 :: rest) false := by
  rw [Group.innerAux]
  · simp
  · simp

theorem claim9_multi_core {t0 t1 : Token} {rest2 : List Token}
    (hws : ∀ t ∈ t0 :: t1 :: rest2, t.leading.all isJsWs ∧ t.trailing.all isJsWs)
    (hfirst : firstCharNonWs t0.text = true)
    (hlast : firstCharNonWs ((t0 :: t1 :: rest2).getLast (by simp)).text.reverse = true) :
    Group.innerAux (t0 :: t1 :: rest2) true =
      (t0.text ++ t0.trailing) ++
        (((t1 :: rest2).dropLast.map Token.outerText).flatten) ++
        (((t0 :: t1 :: rest2).getLast (by simp)).leading ++
          ((t0 :: t1 :: rest2).getLast (by simp)).text) := by
  have hlast' : (t0 :: t1 :: rest2).getLast (by simp) = (t1 :: rest2).getLast (by simp) :=
    List.getLast_cons (by simp)
  rw [innerAux_true_eq, innerAux_false_eq (t1 :: rest2) (by simp)]
  have h1 : jsTrimStart t0.outerText = t0.text ++ t0.trailing := by
    rcases hc : t0.text with _ | ⟨c, text'⟩
    · rw [firstCharNonWs.eq_def, hc] at hfirst
      exact absurd hfirst (by simp)
    · rw [firstCharNonWs.eq_def, hc] at hfirst
      have hcw : isJsWs c = false := by simpa using hfirst
      have := jsTrimStart_concat (hws t0 (by simp)).1 hcw (text' ++ t0.trailing)
      unfold Token.outerText
      rw [hc]
      simp only [List.cons_append, List.append_assoc] at this ⊢
      exact this
  have h2 : jsTrimEnd ((t1 :: rest2).getLast (by simp)).outerText =
      ((t1 :: rest2).getLast (by simp)).leading ++ ((t1 :: rest2).getLast (by simp)).text := by
    set tn := (t1 :: rest2).getLast (by simp) with htn
    rw [hlast'] at hlast
    rcases hc : tn.text.reverse with _ | ⟨c, rev'⟩
    · rw [firstCharNonWs.eq_def, hc] at hlast
      exact absurd hlast (by simp)
    · rw [firstCharNonWs.eq_def, hc] at hlast
      have hcw : isJsWs c = false := by simpa using hlast
      have htext : tn.text = rev'.reverse ++ [c] := by
        have := congrArg List.reverse hc
        simpa using this
      have htnmem : tn ∈ t0 :: t1 :: rest2 :=
        List.mem_cons_of_mem _ (List.getLast_mem _)
      have := jsTrimEnd_concat (tn.leading ++ rev'.reverse) hcw (hws tn htnmem).2
      unfold Token.outerText
      rw [htext]
      simp only [List.append_assoc, List.cons_append, List.nil_append,
        List.singleton_append] at this ⊢
      exact this
  rw [h1, h2, hlast']
  simp [List.append_assoc]

/-- C9 (amended).  For a single-token group, `innerText()` is exactly
the token's outer text with the group's leading and trailing whitespace
removed.  For a multi-token group it agrees with that description
provided the edge tokens' inner texts do not themselves begin or end
with whitespace characters (and all attached whitespace runs are really
whitespace): `trimStart`/`trimEnd` on the edge tokens' outer texts then
strip exactly the group-edge whitespace, and all interior whitespace is
preserved.  When an edge token's inner text itself ends (or begins) with
whitespace, `innerText()` strips more — see the counterexample. -/
theorem claim9_innerText :
    (∀ t : Token, Group.innerText ⟨[t]⟩ = specGroupInner ⟨[t]⟩) ∧
    (∀ g : Group, 2 ≤ g.tokens.length →
      (∀ t ∈ g.tokens, t.leading.all isJsWs ∧ t.trailing.all isJsWs) →
      firstCharNonWs (g.tokens.headD (Token.virtual .eof 0)).text = true →
      firstCharNonWs ((g.tokens.getLastD (Token.virtual .eof 0)).text.reverse) = true →
      Group.innerText g = specGroupInner g) := by
  constructor
  · intro t
    have h1 : Group.innerText ⟨[t]⟩ = t.text := rfl
    rw [h1]
    unfold specGroupInner Group.outerText
    simp only [List.headD_cons, List.getLastD_cons, List.getLastD_nil,
      List.map_cons, List.map_nil, List.flatten_cons, List.flatten_nil,
      List.append_nil, Token.outerText]
    rw [show (t.leading ++ t.text ++ t.trailing).length - t.leading.length
        - t.trailing.length = t.text.length from by
      simp only [List.length_append]; omega]
    rw [List.append_assoc, List.drop_left]
    exact (List.take_left _ _).symm
  · intro g h2 hws hfirst hlast
    obtain ⟨ts⟩ := g
    rcases ts with _ | ⟨t0, rest⟩
    · simp at h2
    rcases rest with _ | ⟨t1, rest2⟩
    · simp at h2
    simp only [List.headD_cons] at hfirst
    have hgld : (t0 :: t1 :: rest2).getLastD (Token.virtual .eof 0) =
        (t0 :: t1 :: rest2).getLast (by simp) := by
      simp [List.getLastD_eq_getLast?, List.getLast?_eq_getLast]
    rw [hgld] at hlast
    have hcore := claim9_multi_core hws hfirst hlast
    unfold Group.innerText
    simp only [List.length_cons]
    rw [if_neg (by omega)]
    rw [hcore]
    unfold specGroupInner Group.outerText
    simp only [List.headD_cons]
    rw [hgld]
    set tn := (t0 :: t1 :: rest2).getLast (by simp) with htn
    have hlast' : tn = (t1 :: rest2).getLast (by simp) := List.getLast_cons (by simp)
    have hdecomp : (t1 :: rest2) = (t1 :: rest2).dropLast ++ [tn] := by
      rw [hlast']
      exact (List.dropLast_append_getLast (by simp)).symm
    set mid := (t1 :: rest2).dropLast with hmid
    have houter : ((t0 :: t1 :: rest2).map Token.outerText).flatten =
        t0.leading ++ ((t0.text ++ t0.trailing ++ (mid.map Token.outerText).flatten ++
          (tn.leading ++ tn.text)) ++ tn.trailing) := by
      conv_lhs => rw [hdecomp]
      simp only [List.map_cons, List.flatten_cons, List.map_append, List.flatten_append,
        List.map_nil, List.flatten_nil, List.append_nil, Token.outerText, List.map_cons,
        List.flatten_cons]
      simp [List.append_assoc]
    rw [houter]
    have hdrop : (t0.leading ++ ((t0.text ++ t0.trailing ++ (mid.map Token.outerText).flatten ++
        (tn.leading ++ tn.text)) ++ tn.trailing)).drop t0.leading.length =
        (t0.text ++ t0.trailing ++ (mid.map Token.outerText).flatten ++
          (tn.leading ++ tn.text)) ++ tn.trailing := List.drop_left _ _
    rw [hdrop]
    have hlen : (t0.leading ++ ((t0.text ++ t0.trailing ++ (mid.map Token.outerText).flatten ++
        (tn.leading ++ tn.text)) ++ tn.trailing)).length - t0.leading.length -
        tn.trailing.length =
        (t0.text ++ t0.trailing ++ (mid.map Token.outerText).flatten ++
          (tn.leading ++ tn.text)).length := by
      simp only [List.length_append]
      omega
    rw [hlen, List.take_left]

/-- C9, claim as stated, is false: in the two-token group
`[identifier "a", comment ";x "]` (a comment's inner text may end in
spaces, since the comment rule swallows the rest of the line), the
claimed description keeps the comment's final space, but `innerText()`
trims it away. -/
theorem claim9_counterexample :
    Group.innerText ⟨[⟨.identifier, 0, ['a'], [], []⟩,
                      ⟨.comment, 1, [';', 'x', ' '], [], []⟩]⟩ = ['a', ';', 'x'] ∧
    specGroupInner ⟨[⟨.identifier, 0, ['a'], [], []⟩,
                     ⟨.comment, 1, [';', 'x', ' '], [], []⟩]⟩ = ['a', ';', 'x', ' '] ∧
    (['a', ';', 'x'] : Str) ≠ ['a', ';', 'x', ' '] := by
  refine ⟨by decide, by decide, by decide⟩

/-- Witness for C9 at concrete groups. -/
theorem claim9_innerText_witness :
    Group.innerText ⟨[⟨.comment, 0, [';', 'x', ' '], [' '], []⟩]⟩ =
      specGroupInner ⟨[⟨.comment, 0, [';', 'x', ' '], [' '], []⟩]⟩ ∧
    Group.innerText ⟨[⟨.identifier, 0, ['a'], [' '], [' ']⟩,
                      ⟨.identifier, 2, ['b'], [], [' ', ' ']⟩]⟩ =
      specGroupInner ⟨[⟨.identifier, 0, ['a'], [' '], [' ']⟩,
                       ⟨.identifier, 2, ['b'], [], [' ', ' ']⟩]⟩ :=
  ⟨claim9_innerText.1 ⟨.comment, 0, [';', 'x', ' '], [' '], []⟩,
   claim9_innerText.2 ⟨[⟨.identifier, 0, ['a'], [' '], [' ']⟩,
                        ⟨.identifier, 2, ['b'], [], [' ', ' ']⟩]⟩
     (by decide) (by decide) (by decide) (by decide)⟩

/-! ## The parser facade

`parse-node.ts` drives its grammar through a `Parser` class offering
`peek`, `next`, `expect`, `skipIf`, `slurpUntil`, `slurpUntilHardSpace`,
`inlineSpace`, `expectHardSpace`, `whileIndented`, `untilSequence`,
`synchronize` and friends.  That class is not among the available
sources — only its callers and the specification's contracts (§4.2) are —
so every primitive below is modelled from the spec. -/

/-- Modelled from the spec: the `Parser` facade class (absent from the
sources).  It owns the lexer (here: the cooked token stream still to be
produced, plus the lexer's `previous()` token), the diagnostic list and
the two symbol tables. -/
structure Parser where
  tokens : List Token
  prev : Option Token
  diagnostics : List ParseError
  accounts : SymbolTable
  payees : SymbolTable
deriving DecidableEq, Repr

/-- Outcome of a fallible parsing step: `Result.ok`/`Result.err` from
`result.ts` together with the parser state, plus `spin` for a loop that
ran out of fuel (proved unreachable for the fuel the drivers supply). -/
inductive POut (α : Type) where
  | ok (a : α) (st : Parser)
  | err (e : ParseError) (st : Parser)
  | spin
deriving DecidableEq, Repr

/-- Sequencing of fallible steps: the semantics of `Result.andThen` and
of the `Result.all` combinator (each later step sees the earlier
results; the first `err` short-circuits). -/
def pbind {α β : Type} (x : POut α) (f : α → Parser → POut β) : POut β :=
  match x with
  | .ok a st => f a st
  | .err e st => .err e st
  | .spin => .spin

/-- `Result.map` on an outcome. -/
def pmap {α β : Type} (x : POut α) (f : α → β) : POut β :=
  match x with
  | .ok a st => .ok (f a) st
  | .err e st => .err e st
  | .spin => .spin

namespace Parser

/-- Modelled from the spec: `peek` returns the next token without
consuming; at exhaustion the lexer materializes a virtual `eof` (offset
from the previous token's span start, as in `Lexer.eofToken`). -/
def peek (p : Parser) : Token :=
  p.tokens.headD (Token.virtual .eof (spanStart p.prev))

/-- Modelled from the spec: `next` consumes and returns the next token. -/
def next (p : Parser) : Token × Parser :=
  match p.tokens with
  | t :: ts => (t, { p with tokens := ts, prev := some t })
  | [] =>
      let e := Token.virtual .eof (spanStart p.prev)
      (e, { p with prev := some e })

/-- Modelled from the spec: `peek_type(kinds…)` is true iff the peeked
token's kind is among `kinds`. -/
def peekType (p : Parser) (kinds : List TokType) : Bool :=
  kinds.contains p.peek.type

/-- Modelled from the spec: `hasNext` is `peek().kind != eof`. -/
def hasNext (p : Parser) : Bool :=
  p.peek.type ≠ .eof

/-- Modelled from the spec: `skip_if(kinds…)` consumes and returns the
next token iff it matches, else leaves the stream alone. -/
def skipIf (p : Parser) (kinds : List TokType) : Option Token × Parser :=
  if kinds.contains p.peek.type then
    let r := p.next
    (some r.1, r.2)
  else (none, p)

/-- Modelled from the spec: `skip_if_identifier(name)`. -/
def skipIfIdentifier (p : Parser) (name : Str) : Option Token × Parser :=
  if p.peek.type = .identifier && p.peek.innerText = name then
    let r := p.next
    (some r.1, r.2)
  else (none, p)

/-- Modelled from the spec: `expect(kinds…)` consumes the next token; a
kind mismatch yields `UNEXPECTED_TOKEN`, exhaustion `UNEXPECTED_EOF`. -/
def expect (p : Parser) (kinds : List TokType) : POut Token :=
  let r := p.next
  if kinds.contains r.1.type then .ok r.1 r.2
  else if r.1.type = .eof then .err (ParseError.unexpectedEOF r.1.span) r.2
  else .err (ParseError.unexpectedToken r.1) r.2

/-- Modelled from the spec: `expect_identifier(name)` — `expect` an
identifier, then compare the inner text. -/
def expectIdentifier (p : Parser) (name : Str) : POut Token :=
  pbind (p.expect [.identifier]) fun t st =>
    if t.innerText = name then .ok t st else .err (ParseError.unexpectedToken t) st

/-- The inner text spells a decimal integer. -/
def isIntegerStr (s : Str) : Bool :=
  !s.isEmpty && s.all Char.isDigit

/-- Modelled from the spec: `expect_integer` — `expect('number')`, then
reject non-integer spellings with `INVALID_INTEGER`. -/
def expectInteger (p : Parser) : POut Token :=
  pbind (p.expect [.number]) fun t st =>
    if isIntegerStr t.innerText then .ok t st
    else .err (ParseError.invalidInteger t) st

/-- Modelled from the spec: `expect_end_of_line` consumes the next token
and requires `newline` or `eof`, returning the consumed token. -/
def expectEndOfLine (p : Parser) : POut Token :=
  let r := p.next
  if r.1.type = .newline || r.1.type = .eof then .ok r.1 r.2
  else .err (ParseError.unexpectedToken r.1) r.2

/-- The previous token ends with whitespace (false at stream start). -/
def prevEndsWithSpace (p : Parser) : Bool :=
  match p.prev with
  | some t => t.endsWithSpace
  | none => false

/-- The previous token ends with a hard space (false at stream start). -/
def prevEndsWithHardSpace (p : Parser) : Bool :=
  match p.prev with
  | some t => t.endsWithHardSpace
  | none => false

/-- Modelled from the spec: `expect_hard_space` succeeds iff
`previous.ends_with_hard_space` or `peek.begins_with_hard_space`;
it consumes nothing. -/
def expectHardSpace (p : Parser) : POut Unit :=
  if prevEndsWithHardSpace p || p.peek.beginsWithHardSpace then .ok () p
  else .err (ParseError.unexpectedToken p.peek) p

/-- Modelled from the spec: `inline_space` succeeds iff at end of line
(`newline`/`eof` ahead) or a hard or soft space separates the previous
token from the peeked one; it consumes nothing. -/
def inlineSpace (p : Parser) : POut Unit :=
  if p.peek.type = .newline || p.peek.type = .eof ||
      prevEndsWithSpace p || p.peek.beginsWithSpace then .ok () p
  else .err (ParseError.unexpectedToken p.peek) p

/-- Modelled from the spec: `line_has_next` — the peeked token is
neither `eof` nor `newline`. -/
def lineHasNext (p : Parser) : Bool :=
  !(p.peek.type = .eof || p.peek.type = .newline)

/-- The previous token was a newline, or the stream has just started. -/
def prevIsNewlineOrNone (p : Parser) : Bool :=
  match p.prev with
  | none => true
  | some t => t.type = .newline

/-- Modelled from the spec: `next_is_indented` — the previous token was
a `newline` (or the stream just started) and a space separates it from
the peeked token, and the stream is not at `eof`. -/
def nextIsIndented (p : Parser) : Bool :=
  prevIsNewlineOrNone p && (prevEndsWithSpace p || p.peek.beginsWithSpace) &&
    !(p.peek.type = .eof)

end Parser

/-- The prefix of the stream collected by `slurp_until`: tokens up to
(not including) any stop kind or `newline`/`eof`, with the untouched
remainder. -/
def slurpTokens (stops : List TokType) : List Token → List Token × List Token
  | [] => ([], [])
  | t :: ts =>
      if stops.contains t.type || t.type = .newline || t.type = .eof then ([], t :: ts)
      else
        let r := slurpTokens stops ts
        (t :: r.1, r.2)

/-- The prefix of the stream collected by `slurp_until_hard_space`:
collect until a token begins with a hard space (excluded) or ends with
one (included), stopping at `newline`/`eof`. -/
def slurpHardTokens : List Token → List Token × List Token
  | [] => ([], [])
  | t :: ts =>
      if t.type = .newline || t.type = .eof then ([], t :: ts)
      else if t.beginsWithHardSpace then ([], t :: ts)
      else if t.endsWithHardSpace then ([t], ts)
      else
        let r := slurpHardTokens ts
        (t :: r.1, r.2)

namespace Parser

/-- The parser after consuming `consumed` with `rest` left: the lexer's
`previous()` becomes the last consumed token. -/
def advanceOver (p : Parser) (consumed rest : List Token) : Parser :=
  { p with tokens := rest,
           prev := match consumed.getLast? with
                   | some t => some t
                   | none => p.prev }

/-- Modelled from the spec: `slurp_until(kinds)` collects tokens up to
any stop kind or `newline`/`eof` and fails if zero were collected (with
`UNEXPECTED_EOF` at exhaustion, `UNEXPECTED_TOKEN` otherwise, matching
the diagnostics the tests pin for `alias`). -/
def slurpUntil (p : Parser) (stops : List TokType) : POut Group :=
  let r := slurpTokens stops p.tokens
  let st := p.advanceOver r.1 r.2
  if r.1 = [] then
    if st.peek.type = .eof then .err (ParseError.unexpectedEOF st.peek.span) st
    else .err (ParseError.unexpectedToken st.peek) st
  else .ok (Group.UNSAFE_nonEmpty r.1) st

/-- Modelled from the spec: `slurp` is `slurp_until(newline)`. -/
def slurp (p : Parser) : POut Group :=
  p.slurpUntil [.newline]

/-- Modelled from the spec: the optional-argument slurp used by
directives ("optional argument slurp to newline"): as `slurp`, but zero
collected tokens yield `none` instead of an error. -/
def slurpOpt (p : Parser) : POut (Option Group) :=
  let r := slurpTokens [.newline] p.tokens
  let st := p.advanceOver r.1 r.2
  if r.1 = [] then .ok none st else .ok (some (Group.UNSAFE_nonEmpty r.1)) st

/-- Modelled from the spec: `slurp_until_hard_space` fails when nothing
was collected; the empty collection is the `INVALID_ACCOUNT` case the
grammar surfaces for accounts. -/
def slurpUntilHardSpace (p : Parser) : POut Group :=
  let r := slurpHardTokens p.tokens
  let st := p.advanceOver r.1 r.2
  if r.1 = [] then .err { code := .INVALID_ACCOUNT, span := st.peek.span } st
  else .ok (Group.UNSAFE_nonEmpty r.1) st

/-- `parser.ifPeek(kind, f)`: run `f` when the peeked kind matches. -/
def ifPeek {α : Type} (p : Parser) (kind : TokType) (f : Parser → POut α) :
    POut (Option α) :=
  if p.peek.type = kind then pmap (f p) some else .ok none p

/-- `parser.ifLineHasNext(f)`: run `f` while the line still has content. -/
def ifLineHasNext {α : Type} (p : Parser) (f : Parser → POut α) : POut (Option α) :=
  if p.lineHasNext then pmap (f p) some else .ok none p

/-- Modelled from the spec: `declareAccount` — the parser checks `has`
before `add`, so the first declaration wins and `add`'s throwing branch
is never taken. -/
def declareAccount (p : Parser) (name : Str) (span : Span) : Parser :=
  if p.accounts.has name then p
  else
    match p.accounts.add name span with
    | .ok t => { p with accounts := t }
    | .error _ => p

/-- Modelled from the spec: `declarePayee`, as `declareAccount`. -/
def declarePayee (p : Parser) (name : Str) (span : Span) : Parser :=
  if p.payees.has name then p
  else
    match p.payees.add name span with
    | .ok t => { p with payees := t }
    | .error _ => p

end Parser

/-- Modelled from the spec: one pass of the `synchronize` loop — advance
until the previous token is a `newline` (or the stream just started) and
the next token is not indented; terminate at `eof`.  The fuel bounds the
number of advances; every advance consumes one token, so fuel above the
stream length is enough. -/
def syncLoop : Nat → Parser → Parser
  | 0, p => p
  | fuel + 1, p =>
      if p.peek.type = .eof then p
      else if p.prevIsNewlineOrNone && !p.nextIsIndented then p
      else syncLoop fuel (p.next).2

/-- Modelled from the spec: `synchronize(err)` pushes the diagnostic and
advances to the next unindented line start. -/
def Parser.synchronize (p : Parser) (e : ParseError) : Parser :=
  syncLoop (p.tokens.length + 1) { p with diagnostics := p.diagnostics ++ [e] }

/-! ## Parse nodes (`parse-node.ts`) -/

/-- `SurroundedBy`: `open` token, slurped contents, `close` token
(`open`/`close` renamed `openTok`/`closeTok`: `open`/`end` are keywords
here). -/
structure SurroundedBy where
  openTok : Token
  contents : Group
  closeTok : Token
deriving DecidableEq, Repr

def SurroundedBy.span (s : SurroundedBy) : Span :=
  combineSpans2 s.openTok.span s.closeTok.span

/-- `SurroundedBy.parse(parser, open, close)`. -/
def SurroundedBy.parse (p : Parser) (o c : TokType) : POut SurroundedBy :=
  pbind (p.expect [o]) fun opn st1 =>
  pbind (st1.slurpUntil [c]) fun contents st2 =>
  pbind (st2.expect [c]) fun cls st3 =>
  .ok ⟨opn, contents, cls⟩ st3

/-- `invertBrace`; the `default` branch calls `unimplemented` and is
unreachable from its only caller, which guards on `lparen`/`lbracket`. -/
def invertBrace (o : TokType) : TokType :=
  match o with
  | .lbracket => .rbracket
  | _ => .rparen

/-- The `Group | SurroundedBy` union held by an `AccountRef`. -/
inductive AccountName where
  | bare (g : Group)
  | surrounded (s : SurroundedBy)
deriving DecidableEq, Repr

structure AccountRef where
  name : AccountName
deriving DecidableEq, Repr

def AccountRef.span (a : AccountRef) : Span :=
  match a.name with
  | .bare g => g.span
  | .surrounded s => s.span

/-- `AccountRef.accountName()`. -/
def AccountRef.accountName (a : AccountRef) : Str :=
  match a.name with
  | .bare g => g.innerText
  | .surrounded s => s.contents.innerText

/-- `AccountRef.parse(parser)`: bracketed form for `lparen`/`lbracket`,
else a bare account slurped up to a hard space. -/
def AccountRef.parse (p : Parser) : POut AccountRef :=
  let nextType := p.peek.type
  if nextType = .lparen || nextType = .lbracket then
    let closeType := invertBrace nextType
    pbind (p.expect [.lparen, .lbracket]) fun opn st1 =>
    pbind (st1.slurpUntil [closeType]) fun body st2 =>
    pbind (st2.expect [closeType]) fun cls st3 =>
    .ok ⟨.surrounded ⟨opn, body, cls⟩⟩ st3
  else
    pbind p.slurpUntilHardSpace fun body st =>
    .ok ⟨.bare body⟩ st

structure Payee where
  group : Group
deriving DecidableEq, Repr

def Payee.span (p : Payee) : Span := p.group.span

/-- The `while (parser.lineHasNext() && !parser.peekType('comment'))`
loop of `Payee.parse`.  Fuel: every iteration's `slurpUntilHardSpace`
must succeed to continue, hence consumes at least one token, so any
fuel above the stream length is enough. -/
def payeeLoop : Nat → Parser → Group → POut Group
  | 0, _, _ => .spin
  | fuel + 1, p, g =>
      if p.lineHasNext && !(p.peekType [.comment]) then
        pbind p.slurpUntilHardSpace fun chunk st =>
        payeeLoop fuel st (g.concat chunk)
      else .ok g p

/-- `Payee.parse(parser)`: hard-space-separated chunks concatenated into
one group, then `declarePayee(innerText, span)`. -/
def Payee.parse (p : Parser) : POut Payee :=
  pbind p.slurpUntilHardSpace fun g st =>
  pbind (payeeLoop (st.tokens.length + 1) st g) fun g2 st2 =>
  .ok ⟨g2⟩ (st2.declarePayee g2.innerText g2.span)

structure DateNode where
  raw : Group
deriving DecidableEq, Repr

def DateNode.span (d : DateNode) : Span := d.raw.span

/-- `DateNode.parse(parser)`: integer, separator (`slash`/`hyphen`),
integer, then optionally the same separator and a third integer; the
collected tokens form the raw group. -/
def DateNode.parse (p : Parser) : POut DateNode :=
  pbind p.expectInteger fun n1 st1 =>
  pbind (st1.expect [.slash, .hyphen]) fun sep st2 =>
  pbind st2.expectInteger fun n2 st3 =>
  let r := st3.skipIf [sep.type]
  match r.1 with
  | some sep2 =>
      pbind r.2.expectInteger fun n3 st5 =>
      .ok ⟨Group.UNSAFE_nonEmpty [n1, sep, n2, sep2, n3]⟩ st5
  | none => .ok ⟨Group.UNSAFE_nonEmpty [n1, sep, n2]⟩ r.2

structure Amount where
  amount : Token
  minus : Option Token
  preCommodity : Option Group
  postCommodity : Option Group
deriving DecidableEq, Repr

def Amount.span (a : Amount) : Span :=
  combineSpans2 a.amount.span
    (combineSpans2 ((a.minus.map Token.span).getD a.amount.span)
      (combineSpans2 ((a.preCommodity.map Group.span).getD a.amount.span)
        ((a.postCommodity.map Group.span).getD a.amount.span)))

/-- `slurpUntil(...).unwrapOr(undefined)`: the error is discarded and
parsing continues (zero tokens were consumed in that case).  `slurpUntil`
never returns `spin` (it does not loop), so that case is vacuous. -/
def Parser.slurpUntilOpt (p : Parser) (stops : List TokType) : Option Group × Parser :=
  match p.slurpUntil stops with
  | .ok g st => (some g, st)
  | .err _ st => (none, st)
  | .spin => (none, p)

/-- `Amount.parse(parser)`: a hard space, an optional minus, then one of
the three layouts (number first, commodity first, or bare expect). -/
def Amount.parse (p : Parser) : POut Amount :=
  pbind p.expectHardSpace fun _ st0 =>
  let mr := st0.skipIf [.hyphen]
  let minus := mr.1
  let st1 := mr.2
  if st1.peekType [.number] then
    let nr := st1.next
    let pr := nr.2.slurpUntilOpt [.hyphen, .number, .comment]
    .ok ⟨nr.1, minus, none, pr.1⟩ pr.2
  else if !(st1.peekType [.newline, .comment]) && st1.hasNext then
    let pr := st1.slurpUntilOpt [.hyphen, .number, .comment]
    let mr2 : Option Token × Parser :=
      match minus with
      | some m => (some m, pr.2)
      | none => pr.2.skipIf [.hyphen]
    pbind (mr2.2.expect [.number]) fun num st4 =>
    .ok ⟨num, mr2.1, pr.1, none⟩ st4
  else
    pbind (st1.expect [.number]) fun amt st2 =>
    .ok ⟨amt, minus, none, none⟩ st2

/-- `Comment` node; the always-empty `tags`/`typedTags` records are not
modelled. -/
structure Comment where
  comment : Token
  commentChar : Option Char
  text : Str
deriving DecidableEq, Repr

def Comment.span (c : Comment) : Span := c.comment.span

/-- `Comment.parse(parser)`: expect a `comment` token, require end of
line, split the token's inner text into its first character and rest
(`innerText()[0]` is `undefined` on an empty text, hence `Option`). -/
def Comment.parse (p : Parser) : POut Comment :=
  pbind (p.expect [.comment]) fun c st1 =>
  pbind st1.expectEndOfLine fun _ st2 =>
  .ok ⟨c, c.innerText.head?, c.innerText.drop 1⟩ st2

structure AuxDate where
  equal : Token
  date : DateNode
deriving DecidableEq, Repr

def AuxDate.span (a : AuxDate) : Span :=
  combineSpans2 a.equal.span a.date.span

/-- `AuxDate.parse(parser)`. -/
def AuxDate.parse (p : Parser) : POut AuxDate :=
  pbind (p.expect [.equal]) fun eq st =>
  pbind (DateNode.parse st) fun d st2 =>
  .ok ⟨eq, d⟩ st2

structure Posting where
  account : AccountRef
  amount : Option Amount
  comments : List Comment
deriving DecidableEq, Repr

def Posting.span (p : Posting) : Span :=
  combineSpans2 p.account.span ((p.amount.map Amount.span).getD p.account.span)

/-- `Posting.parse(parser)`: an account reference, then an amount if the
line still has content, then `declareAccount`.  A fresh posting's
`comments` array is empty. -/
def Posting.parse (p : Parser) : POut Posting :=
  pbind (AccountRef.parse p) fun acc st1 =>
  pbind (st1.ifLineHasNext Amount.parse) fun amt st2 =>
  .ok ⟨acc, amt, []⟩ (st2.declareAccount acc.accountName acc.span)

/-- `lastPosting.comments.push(comment)` on the last posting, if any. -/
def pushCommentToLast (postings : List Posting) (c : Comment) : List Posting :=
  match postings.reverse with
  | [] => postings
  | last :: front => ({ last with comments := last.comments ++ [c] } :: front).reverse

/-- The `while (parser.nextIsIndented())` loop of
`Transaction.parsePostings`, accumulating postings and the
transaction-level comments list the caller shares with it.  Note the
faithful double end-of-line in the `comment` arm: `Comment.parse`
already consumed one, and the loop's `.thenTap` consumes a second.
Fuel: an indented `peek` is not `eof`, so the stream is nonempty and
each continuing iteration consumes at least one token. -/
def postingsLoop : Nat → Parser → List Posting → List Comment →
    POut (List Posting × List Comment)
  | 0, _, _, _ => .spin
  | fuel + 1, p, postings, comments =>
      if p.nextIsIndented then
        match p.peek.type with
        | .comment =>
            pbind
              (pbind (Comment.parse p) fun c st =>
                pbind st.expectEndOfLine fun _ st2 => .ok c st2)
              fun c st2 =>
                match postings.reverse with
                | [] => postingsLoop fuel st2 postings (comments ++ [c])
                | _ :: _ => postingsLoop fuel st2 (pushCommentToLast postings c) comments
        | _ =>
            pbind
              (pbind (Posting.parse p) fun post st =>
                pbind st.expectEndOfLine fun _ st2 => .ok post st2)
              fun post st2 => postingsLoop fuel st2 (postings ++ [post]) comments
      else .ok (postings, comments) p

structure Transaction where
  date : DateNode
  auxDate : Option AuxDate
  cleared : Option Token
  pending : Option Token
  code : Option SurroundedBy
  payee : Option Payee
  comments : List Comment
  postings : List Posting
deriving DecidableEq, Repr

def Transaction.span (t : Transaction) : Span :=
  combineSpans2 t.date.span
    (combineSpans2 ((t.auxDate.map AuxDate.span).getD t.date.span)
      (combineSpans2 ((t.cleared.map Token.span).getD t.date.span)
        (combineSpans2 ((t.pending.map Token.span).getD t.date.span)
          (combineSpans2 ((t.code.map SurroundedBy.span).getD t.date.span)
            ((t.payee.map Payee.span).getD t.date.span)))))

/-- `Transaction.parse(parser)`: date, optional aux date, inline space,
one optional `bang`/`star` flag, inline space, optional code, inline
space, optional payee, optional trailing comment, end of line, then the
postings loop.  The comments pushed by the loop precede the header
comment, mirroring the shared mutable array. -/
def Transaction.parse (p : Parser) : POut Transaction :=
  pbind (DateNode.parse p) fun date st1 =>
  pbind (st1.ifPeek .equal AuxDate.parse) fun auxDate st2 =>
  pbind st2.inlineSpace fun _ st3 =>
  let fr := st3.skipIf [.bang, .star]
  let flag := fr.1
  pbind fr.2.inlineSpace fun _ st5 =>
  pbind (st5.ifPeek .lparen (fun q => SurroundedBy.parse q .lparen .rparen)) fun code st6 =>
  pbind st6.inlineSpace fun _ st7 =>
  pbind (st7.ifLineHasNext Payee.parse) fun payee st8 =>
  pbind (st8.ifPeek .comment Comment.parse) fun hdrComment st9 =>
  pbind st9.expectEndOfLine fun _ st10 =>
  pbind (postingsLoop (st10.tokens.length + 1) st10 [] []) fun pc st11 =>
  let comments := pc.2 ++ (match hdrComment with | some c => [c] | none => [])
  let cleared := match flag with
    | some f => if f.type = .star then some f else none
    | none => none
  let pending := match flag with
    | some f => if f.type = .bang then some f else none
    | none => none
  .ok ⟨date, auxDate, cleared, pending, code, payee, comments, pc.1⟩ st11

structure SubDirective where
  key : Token
  value : Option Group
deriving DecidableEq, Repr

def SubDirective.span (s : SubDirective) : Span :=
  combineSpans2 s.key.span ((s.value.map Group.span).getD s.key.span)

/-- `SubDirective.parse(parser)`. -/
def SubDirective.parse (p : Parser) : POut SubDirective :=
  pbind (p.expect [.identifier]) fun key st =>
  pbind st.slurpOpt fun v st2 =>
  .ok ⟨key, v⟩ st2

/-- Modelled from the spec: `while_indented(body)` runs the body and
requires end of line while the next token is indented.  Fuel: an
indented stream is nonempty and the only body used (`SubDirective.parse`)
consumes at least one token when it succeeds. -/
def whileIndentedLoop {α : Type} : Nat → Parser → (Parser → POut α) → List α → POut (List α)
  | 0, _, _, _ => .spin
  | fuel + 1, p, body, acc =>
      if p.nextIsIndented then
        pbind (body p) fun a st =>
        pbind st.expectEndOfLine fun _ st2 =>
        whileIndentedLoop fuel st2 body (acc ++ [a])
      else .ok acc p

structure Directive where
  name : Token
  arg : Option Group
  subDirectives : List SubDirective
deriving DecidableEq, Repr

def Directive.span (d : Directive) : Span :=
  d.subDirectives.foldl (fun sp s => combineSpans2 sp s.span) d.name.span

/-- `Directive.parseStandardDirective(parser)`. -/
def Directive.parseStandard (p : Parser) : POut Directive :=
  pbind (p.expect [.identifier]) fun name st =>
  pbind st.slurpOpt fun arg st2 =>
  pbind st2.expectEndOfLine fun _ st3 =>
  pbind (whileIndentedLoop (st3.tokens.length + 1) st3 SubDirective.parse []) fun subs st4 =>
  .ok ⟨name, arg, subs⟩ st4

structure CommentDirective where
  startName : Token
  body : Str
  endTok : Token
  endName : Token
deriving DecidableEq, Repr

def CommentDirective.span (c : CommentDirective) : Span :=
  combineSpans2 c.startName.span c.endName.span

/-- The two-token terminator of `until_sequence('end', name)`: the next
two tokens are identifiers spelling the two words. -/
def seqMatch2 (w1 w2 : Str) (p : Parser) : Bool :=
  match p.tokens with
  | t1 :: t2 :: _ =>
      t1.type = .identifier && t1.innerText = w1 &&
        t2.type = .identifier && t2.innerText = w2
  | _ => false

/-- Modelled from the spec: `until_sequence(words…)` collects tokens
until a run of identifiers spells the words; `UNEXPECTED_EOF` at
exhaustion.  Specialized to the two-word terminator of the comment
directive; returns (collected body, first word token, second word
token).  Fuel: each continuing iteration consumes one token. -/
def untilSeqLoop (w1 w2 : Str) : Nat → Parser → List Token →
    POut (Option Group × Token × Token)
  | 0, _, _ => .spin
  | fuel + 1, p, acc =>
      if p.peek.type = .eof then .err (ParseError.unexpectedEOF p.peek.span) p
      else if seqMatch2 w1 w2 p then
        let r1 := p.next
        let r2 := r1.2.next
        .ok ((match acc with
              | [] => none
              | _ :: _ => some (Group.UNSAFE_nonEmpty acc)), r1.1, r2.1) r2.2
      else
        let r := p.next
        untilSeqLoop w1 w2 fuel r.2 (acc ++ [r.1])

def Parser.untilSequence (p : Parser) (w1 w2 : Str) :
    POut (Option Group × Token × Token) :=
  untilSeqLoop w1 w2 (p.tokens.length + 1) p []

/-- `CommentDirective.parse(parser)`: the opening identifier, end of
line, then everything up to `end <name>`; the body prepends the
newline's trailing whitespace to the collected outer text. -/
def CommentDirective.parse (p : Parser) : POut CommentDirective :=
  pbind (p.expect [.identifier]) fun name st =>
  pbind st.expectEndOfLine fun nl st2 =>
  pbind (st2.untilSequence ("end".toList) name.innerText) fun triple st3 =>
  let bodyStr := match triple.1 with
    | some body => nl.trailing ++ body.outerText
    | none => []
  .ok ⟨name, bodyStr, triple.2.1, triple.2.2⟩ st3

structure Apply where
  apply : Token
  name : Token
  args : Option Group
deriving DecidableEq, Repr

def Apply.span (a : Apply) : Span :=
  combineSpans2 a.apply.span a.name.span

/-- `Apply.parse(parser)`. -/
def Apply.parse (p : Parser) : POut Apply :=
  pbind (p.expect [.identifier]) fun ap st =>
  pbind (st.expect [.identifier]) fun name st2 =>
  pbind st2.slurpOpt fun args st3 =>
  pbind st3.expectEndOfLine fun _ st4 =>
  .ok ⟨ap, name, args⟩ st4

/-- `End` node (`end` field renamed `endTok`). -/
structure End where
  endTok : Token
  apply : Option Token
  name : Token
deriving DecidableEq, Repr

def End.span (e : End) : Span :=
  combineSpans2 e.endTok.span e.name.span

/-- `End.parse(parser)`. -/
def End.parse (p : Parser) : POut End :=
  pbind (p.expectIdentifier ("end".toList)) fun e st =>
  let ar := st.skipIfIdentifier ("apply".toList)
  pbind (ar.2.expect [.identifier]) fun name st2 =>
  pbind st2.expectEndOfLine fun _ st3 =>
  .ok ⟨e, ar.1, name⟩ st3

/-- `Alias` node (`alias` field renamed `aliasTok`: `alias` is a
command keyword here). -/
structure Alias where
  aliasTok : Token
  name : Group
  eq : Token
  value : Group
deriving DecidableEq, Repr

def Alias.span (a : Alias) : Span :=
  combineSpans2 a.aliasTok.span a.value.span

/-- `Alias.parse(parser)`. -/
def Alias.parse (p : Parser) : POut Alias :=
  pbind (p.expectIdentifier ("alias".toList)) fun al st =>
  pbind (st.slurpUntil [.equal]) fun name st2 =>
  pbind (st2.expect [.equal]) fun eq st3 =>
  pbind st3.slurp fun value st4 =>
  pbind st4.expectEndOfLine fun _ st5 =>
  .ok ⟨al, name, eq, value⟩ st5

/-- The `ASTChild` union. -/
inductive ASTChild where
  | transaction (t : Transaction)
  | directive (d : Directive)
  | comment (c : Comment)
  | apply (a : Apply)
  | endDirective (e : End)
  | alias (a : Alias)
  | commentDirective (c : CommentDirective)
deriving DecidableEq, Repr

/-- `Directive.parse(parser)`: dispatch on the peeked identifier's inner
text; a non-identifier is consumed and reported. -/
def Directive.parse (p : Parser) : POut ASTChild :=
  let nx := p.peek
  if nx.type = .identifier then
    if nx.innerText = "alias".toList then pmap (Alias.parse p) .alias
    else if nx.innerText = "apply".toList then pmap (Apply.parse p) .apply
    else if nx.innerText = "comment".toList || nx.innerText = "test".toList then
      pmap (CommentDirective.parse p) .commentDirective
    else if nx.innerText = "end".toList then pmap (End.parse p) .endDirective
    else pmap (Directive.parseStandard p) .directive
  else
    let r := p.next
    .err (ParseError.unexpectedToken r.1) r.2

/-- The `while (parser.hasNext())` loop of `File.parse`.  Failed
productions and unexpected tokens synchronize and continue; nothing
escapes the loop as an error.  Fuel: every continuing iteration
consumes at least one token (directly or inside `synchronize`). -/
def fileLoop : Nat → Parser → List ASTChild → POut (List ASTChild)
  | 0, _, _ => .spin
  | fuel + 1, p, children =>
      if p.hasNext then
        if p.nextIsIndented then
          fileLoop fuel (p.synchronize (ParseError.leadingSpace p.peek)) children
        else
          match p.peek.type with
          | .number =>
              match Transaction.parse p with
              | .ok t st => fileLoop fuel st (children ++ [.transaction t])
              | .err e st => fileLoop fuel (st.synchronize e) children
              | .spin => .spin
          | .comment =>
              match Comment.parse p with
              | .ok c st => fileLoop fuel st (children ++ [.comment c])
              | .err e st => fileLoop fuel (st.synchronize e) children
              | .spin => .spin
          | .identifier =>
              match Directive.parse p with
              | .ok c st => fileLoop fuel st (children ++ [c])
              | .err e st => fileLoop fuel (st.synchronize e) children
              | .spin => .spin
          | _ =>
              let r := p.next
              fileLoop fuel (r.2.synchronize (ParseError.unexpectedToken r.1)) children
      else .ok children p

structure File where
  children : List ASTChild
deriving DecidableEq, Repr

/-- `File.parse(parser)`: run the loop to exhaustion.  The loop never
produces an error (it synchronizes instead), and the fuel is proved
sufficient below, so the `none` cases are unreachable. -/
def File.parse (p : Parser) : Option (File × Parser) :=
  match fileLoop (p.tokens.length + 1) p [] with
  | .ok children st => some (⟨children⟩, st)
  | .err _ _ => none
  | .spin => none

/-- A fresh parser over a cooked token stream. -/
def Parser.ofTokens (toks : List Token) : Parser :=
  ⟨toks, none, [], ⟨[]⟩, ⟨[]⟩⟩

/-- What `parse(text)` returns: the file plus the parser's diagnostics
and symbol tables. -/
structure ParserResult where
  file : File
  diagnostics : List ParseError
  accounts : SymbolTable
  payees : SymbolTable
deriving DecidableEq, Repr

/-- The whole pipeline: tokenize, cook, parse. -/
def parseLedger (cs : Str) : Option ParserResult :=
  (lexAll cs).bind fun toks =>
    (File.parse (Parser.ofTokens toks)).map fun r =>
      ⟨r.1, r.2.diagnostics, r.2.accounts, r.2.payees⟩

/-! ## Inversion lemmas for the outcome monad -/

theorem pbind_eq_ok {α β : Type} {x : POut α} {f : α → Parser → POut β}
    {b : β} {st : Parser} (h : pbind x f = .ok b st) :
    ∃ a st1, x = .ok a st1 ∧ f a st1 = .ok b st := by
  cases x with
  | ok a st1 => exact ⟨a, st1, rfl, h⟩
  | err e st1 => simp [pbind] at h
  | spin => simp [pbind] at h

theorem pbind_eq_err {α β : Type} {x : POut α} {f : α → Parser → POut β}
    {e : ParseError} {st : Parser} (h : pbind x f = .err e st) :
    x = .err e st ∨ ∃ a st1, x = .ok a st1 ∧ f a st1 = .err e st := by
  cases x with
  | ok a st1 => exact Or.inr ⟨a, st1, rfl, h⟩
  | err e1 st1 => simp [pbind] at h; exact Or.inl (by simp [h.1, h.2])
  | spin => simp [pbind] at h

theorem pmap_eq_ok {α β : Type} {x : POut α} {f : α → β} {b : β} {st : Parser}
    (h : pmap x f = .ok b st) : ∃ a, x = .ok a st ∧ b = f a := by
  cases x with
  | ok a st1 =>
      simp [pmap] at h
      exact ⟨a, by simp [h.1.symm, h.2], h.1.symm⟩
  | err e st1 => simp [pmap] at h
  | spin => simp [pmap] at h

theorem ok_of_pbind_ok {α β : Type} {x : POut α} {f : α → Parser → POut β}
    {a : α} {st1 : Parser} (hx : x = .ok a st1) {b : β} {st : Parser}
    (h : pbind x f = .ok b st) : f a st1 = .ok b st := by
  subst hx; exact h

/-! ## Hard-space separation of amounts (C2) -/

theorem Amount_parse_ok_hardSpace {p : Parser} {a : Amount} {st : Parser}
    (h : Amount.parse p = .ok a st) :
    (Parser.prevEndsWithHardSpace p || p.peek.beginsWithHardSpace) = true := by
  by_cases hc : (Parser.prevEndsWithHardSpace p || p.peek.beginsWithHardSpace) = true
  · exact hc
  · rw [Bool.not_eq_true] at hc
    simp [Amount.parse, Parser.expectHardSpace, hc, pbind] at h

/-- C2: a successfully parsed `Amount` is always preceded by a hard
space, and `Amount.parse` fails (returning the peeked token as an
unexpected-token error, consuming nothing) when neither the previous
token ends with nor the next token begins with a hard space; hence a
parsed `Posting` either has no amount or its account was separated from
the amount by a hard space at the boundary state. -/
theorem claim2_amount_hard_space :
    (∀ p : Parser, (Parser.prevEndsWithHardSpace p || p.peek.beginsWithHardSpace) = false →
      Amount.parse p = .err (ParseError.unexpectedToken p.peek) p) ∧
    (∀ (p : Parser) (post : Posting) (st : Parser) (a : Amount),
      Posting.parse p = .ok post st → post.amount = some a →
      ∃ st1, AccountRef.parse p = .ok post.account st1 ∧
        (Parser.prevEndsWithHardSpace st1 || st1.peek.beginsWithHardSpace) = true) := by
  constructor
  · intro p h
    simp [Amount.parse, Parser.expectHardSpace, h, pbind]
  · intro p post st a h ha
    rw [Posting.parse] at h
    obtain ⟨acc, st1, hacc, h2⟩ := pbind_eq_ok h
    obtain ⟨amt, st2, hamt, h3⟩ := pbind_eq_ok h2
    rw [POut.ok.injEq] at h3
    obtain ⟨hpost, _⟩ := h3
    subst hpost
    rw [Parser.ifLineHasNext] at hamt
    split at hamt
    · obtain ⟨a0, ha0, hsome⟩ := pmap_eq_ok hamt
      refine ⟨st1, hacc, ?_⟩
      exact Amount_parse_ok_hardSpace ha0
    · simp only [Posting.amount] at ha
      rw [POut.ok.injEq] at hamt
      rw [ha] at hamt
      simp at hamt

/-- Account token for the C2 witness: identifier `A` with a hard
(two-space) trailing run. -/
def idTokW : Token := ⟨.identifier, 0, ['A'], [], [' ', ' ']⟩

/-- Number token for the C2 witness. -/
def numTokW : Token := ⟨.number, 3, ['5'], [], []⟩

/-- Posting stream for the C2 witness: `A  5`. -/
def pC2b : Parser := Parser.ofTokens [idTokW, numTokW]

/-- Amount stream for the C2 witness failure: a bare `5` with no space
anywhere. -/
def pC2a : Parser := Parser.ofTokens [numTokW]

/-- The posting `Posting.parse` produces on `pC2b`. -/
def postC2 : Posting :=
  ⟨⟨.bare ⟨[idTokW]⟩⟩, some ⟨numTokW, none, none, none⟩, []⟩

/-- The state `Posting.parse` leaves on `pC2b`. -/
def stC2 : Parser := ⟨[], some numTokW, [], ⟨[(['A'], 0, 1)]⟩, ⟨[]⟩⟩

theorem claim2_amount_hard_space_witness :
    (Amount.parse pC2a = .err (ParseError.unexpectedToken pC2a.peek) pC2a) ∧
    (∃ st1, AccountRef.parse pC2b = .ok postC2.account st1 ∧
      (Parser.prevEndsWithHardSpace st1 || st1.peek.beginsWithHardSpace) = true) :=
  ⟨claim2_amount_hard_space.1 pC2a (by decide),
   claim2_amount_hard_space.2 pC2b postC2 stC2 ⟨numTokW, none, none, none⟩
     (by decide) (by decide)⟩

/-! ## Evaluation lemmas for the parser primitives -/

theorem Parser.peek_cons {p : Parser} {t : Token} {ts : List Token}
    (h : p.tokens = t :: ts) : p.peek = t := by
  simp [Parser.peek, h]

theorem Parser.expect_cons {p : Parser} {t : Token} {ts : List Token} {kinds : List TokType}
    (h : p.tokens = t :: ts) (hk : kinds.contains t.type = true) :
    p.expect kinds = .ok t { p with tokens := ts, prev := some t } := by
  have hmem : t.type ∈ kinds := by simpa using hk
  simp [Parser.expect, Parser.next, h, hmem]

theorem Parser.expect_cons_err {p : Parser} {t : Token} {ts : List Token} {kinds : List TokType}
    (h : p.tokens = t :: ts) (hk : kinds.contains t.type = false) (hne : t.type ≠ .eof) :
    p.expect kinds = .err (ParseError.unexpectedToken t)
      { p with tokens := ts, prev := some t } := by
  have hmem : t.type ∉ kinds := by simpa using hk
  simp [Parser.expect, Parser.next, h, hmem, hne]

theorem slurpTokens_append (stops : List TokType) :
    ∀ ts : List Token, (slurpTokens stops ts).1 ++ (slurpTokens stops ts).2 = ts := by
  intro ts
  induction ts with
  | nil => simp [slurpTokens]
  | cons t tl ih =>
      rw [slurpTokens]
      split
      · simp
      · simpa using ih

theorem slurpHardTokens_append :
    ∀ ts : List Token, (slurpHardTokens ts).1 ++ (slurpHardTokens ts).2 = ts := by
  intro ts
  induction ts with
  | nil => simp [slurpHardTokens]
  | cons t tl ih =>
      rw [slurpHardTokens]
      split
      · simp
      · split
        · simp
        · split
          · simp
          · simpa using ih

theorem Parser.slurpUntil_eval {p : Parser} {stops : List TokType}
    {body rest : List Token} (h : slurpTokens stops p.tokens = (body, rest))
    (hb : body ≠ []) :
    p.slurpUntil stops = .ok (Group.UNSAFE_nonEmpty body) (p.advanceOver body rest) := by
  simp [Parser.slurpUntil, h, hb]

theorem Parser.slurpUntil_nil {p : Parser} {stops : List TokType}
    {t : Token} {rest : List Token} (h : slurpTokens stops p.tokens = ([], t :: rest))
    (hne : t.type ≠ .eof) :
    p.slurpUntil stops = .err (ParseError.unexpectedToken t) (p.advanceOver [] (t :: rest)) := by
  have hpk : (p.advanceOver [] (t :: rest)).peek = t := by
    simp [Parser.advanceOver, Parser.peek]
  simp [Parser.slurpUntil, h, hpk, hne]

theorem Parser.slurpUntilHardSpace_eval {p : Parser}
    {body rest : List Token} (h : slurpHardTokens p.tokens = (body, rest))
    (hb : body ≠ []) :
    p.slurpUntilHardSpace = .ok (Group.UNSAFE_nonEmpty body) (p.advanceOver body rest) := by
  simp [Parser.slurpUntilHardSpace, h, hb]

theorem Parser.slurpUntilHardSpace_nil {p : Parser} {rest : List Token}
    (h : slurpHardTokens p.tokens = ([], rest)) :
    p.slurpUntilHardSpace =
      .err { code := .INVALID_ACCOUNT, span := (p.advanceOver [] rest).peek.span }
        (p.advanceOver [] rest) := by
  simp [Parser.slurpUntilHardSpace, h]

/-! ## AccountRef behaviour (C5) -/

/-- C5: bracketed account references consume the open token, slurp to
the matching close and consume it — provided at least one token lies
between the brackets (the slurp of an empty body fails instead); a
newline before the close surfaces as the unexpected-token error; bare
account references collect up to a hard space / newline / eof, yield
exactly the collected tokens, and report `INVALID_ACCOUNT` when zero
tokens are collected. -/
theorem claim5_account_ref :
    (∀ (p : Parser) (opn : Token) (ts body : List Token) (cls : Token) (rest : List Token),
      p.tokens = opn :: ts →
      (opn.type = .lparen ∨ opn.type = .lbracket) →
      slurpTokens [invertBrace opn.type] ts = (body, cls :: rest) →
      body ≠ [] →
      cls.type = invertBrace opn.type →
      AccountRef.parse p = .ok ⟨.surrounded ⟨opn, Group.UNSAFE_nonEmpty body, cls⟩⟩
        ⟨rest, some cls, p.diagnostics, p.accounts, p.payees⟩) ∧
    (∀ (p : Parser) (opn : Token) (ts body : List Token) (nl : Token) (rest : List Token),
      p.tokens = opn :: ts →
      (opn.type = .lparen ∨ opn.type = .lbracket) →
      slurpTokens [invertBrace opn.type] ts = (body, nl :: rest) →
      nl.type = .newline →
      ∃ st, AccountRef.parse p = .err (ParseError.unexpectedToken nl) st) ∧
    (∀ p : Parser,
      p.peek.type ≠ .lparen → p.peek.type ≠ .lbracket →
      (slurpHardTokens p.tokens).1 = [] →
      ∃ e st, AccountRef.parse p = .err e st ∧ e.code = .INVALID_ACCOUNT) ∧
    (∀ (p : Parser) (body rest : List Token),
      p.peek.type ≠ .lparen → p.peek.type ≠ .lbracket →
      slurpHardTokens p.tokens = (body, rest) →
      body ≠ [] →
      AccountRef.parse p = .ok ⟨.bare (Group.UNSAFE_nonEmpty body)⟩ (p.advanceOver body rest)) := by
  refine ⟨?_, ?_, ?_, ?_⟩
  · intro p opn ts body cls rest h hop hs hb hc
    have hpk : p.peek = opn := Parser.peek_cons h
    have hcond : (decide (opn.type = TokType.lparen) || decide (opn.type = TokType.lbracket)) = true := by
      rcases hop with hop | hop <;> simp [hop]
    have hcont : [TokType.lparen, TokType.lbracket].contains opn.type = true := by
      rcases hop with hop | hop <;> rw [hop] <;> decide
    have hexp := Parser.expect_cons h hcont
    rw [AccountRef.parse]
    simp only [hpk]
    rw [if_pos hcond, hexp]
    simp only [pbind]
    have hsl := Parser.slurpUntil_eval
      (show slurpTokens [invertBrace opn.type]
        ({ p with tokens := ts, prev := some opn } : Parser).tokens = (body, cls :: rest) from hs) hb
    rw [hsl]
    simp only [pbind]
    have hcont2 : [invertBrace opn.type].contains cls.type = true := by
      rw [hc]; simp
    have hexp2 := Parser.expect_cons
      (show (({ p with tokens := ts, prev := some opn } : Parser).advanceOver body
        (cls :: rest)).tokens = cls :: rest from rfl) hcont2
    rw [hexp2]
    simp only [pbind]
    rfl
  · intro p opn ts body nl rest h hop hs hnl
    have hpk : p.peek = opn := Parser.peek_cons h
    have hcond : (decide (opn.type = TokType.lparen) || decide (opn.type = TokType.lbracket)) = true := by
      rcases hop with hop | hop <;> simp [hop]
    have hcont : [TokType.lparen, TokType.lbracket].contains opn.type = true := by
      rcases hop with hop | hop <;> rw [hop] <;> decide
    have hexp := Parser.expect_cons h hcont
    rw [AccountRef.parse]
    simp only [hpk]
    rw [if_pos hcond, hexp]
    simp only [pbind]
    by_cases hb : body = []
    · subst hb
      have hne : nl.type ≠ TokType.eof := by rw [hnl]; decide
      have hsl := Parser.slurpUntil_nil
        (show slurpTokens [invertBrace opn.type]
          ({ p with tokens := ts, prev := some opn } : Parser).tokens = ([], nl :: rest) from hs) hne
      rw [hsl]
      exact ⟨_, rfl⟩
    · have hsl := Parser.slurpUntil_eval
        (show slurpTokens [invertBrace opn.type]
          ({ p with tokens := ts, prev := some opn } : Parser).tokens = (body, nl :: rest) from hs) hb
      rw [hsl]
      simp only [pbind]
      have hcont2 : [invertBrace opn.type].contains nl.type = false := by
        rw [hnl]
        rcases hop with hop | hop <;> rw [hop] <;> decide
      have hne : nl.type ≠ TokType.eof := by rw [hnl]; decide
      have hexp2 := Parser.expect_cons_err
        (show (({ p with tokens := ts, prev := some opn } : Parser).advanceOver body
          (nl :: rest)).tokens = nl :: rest from rfl) hcont2 hne
      rw [hexp2]
      exact ⟨_, rfl⟩
  · intro p h1 h2 hzero
    have hcond : (decide (p.peek.type = TokType.lparen) || decide (p.peek.type = TokType.lbracket)) = false := by
      simp [h1, h2]
    have hpair : slurpHardTokens p.tokens = ([], (slurpHardTokens p.tokens).2) := by
      rw [← hzero]
    have hsl := Parser.slurpUntilHardSpace_nil hpair
    rw [AccountRef.parse]
    rw [if_neg (by simp [hcond]), hsl]
    exact ⟨_, _, rfl, rfl⟩
  · intro p body rest h1 h2 hs hb
    have hcond : (decide (p.peek.type = TokType.lparen) || decide (p.peek.type = TokType.lbracket)) = false := by
      simp [h1, h2]
    have hsl := Parser.slurpUntilHardSpace_eval hs hb
    rw [AccountRef.parse]
    rw [if_neg (by simp [hcond]), hsl]
    simp only [pbind]

/-- Open-paren token for the C5 examples. -/
def lpTok5 : Token := ⟨.lparen, 0, ['('], [], []⟩

/-- Close-paren token for the C5 examples. -/
def rpTok5 : Token := ⟨.rparen, 2, [')'], [], []⟩

/-- Identifier token for the C5 examples. -/
def idTok5 : Token := ⟨.identifier, 1, ['A'], [], []⟩

/-- Newline token for the C5 examples. -/
def nlTok5 : Token := ⟨.newline, 2, ['\n'], [], []⟩

/-- `(A)` as a token stream. -/
def pC5a : Parser := Parser.ofTokens [lpTok5, idTok5, rpTok5]

/-- `(A` followed by a newline. -/
def pC5b : Parser := Parser.ofTokens [lpTok5, idTok5, nlTok5]

/-- The empty stream (bare branch, zero tokens collectable). -/
def pC5c : Parser := Parser.ofTokens []

/-- A bare account `A`. -/
def pC5d : Parser := Parser.ofTokens [idTok5]

/-- `()` as a token stream: the close immediately follows the open. -/
def pC5ce : Parser := Parser.ofTokens [⟨.lparen, 0, ['('], [], []⟩, ⟨.rparen, 1, [')'], [], []⟩]

/-- C5 counterexample: on `()` the matching close is present on the
line, yet `AccountRef.parse` returns an unexpected-token error instead
of consuming the close and producing a node — the empty contents make
`slurpUntil` fail first. -/
theorem claim5_counterexample :
    AccountRef.parse pC5ce =
      .err { code := .UNEXPECTED_TOKEN, span := (1, 2) }
        ⟨[⟨.rparen, 1, [')'], [], []⟩], some ⟨.lparen, 0, ['('], [], []⟩, [], ⟨[]⟩, ⟨[]⟩⟩ := by
  decide

theorem claim5_account_ref_witness :
    (AccountRef.parse pC5a = .ok ⟨.surrounded ⟨lpTok5, Group.UNSAFE_nonEmpty [idTok5], rpTok5⟩⟩
      ⟨[], some rpTok5, [], ⟨[]⟩, ⟨[]⟩⟩) ∧
    (∃ st, AccountRef.parse pC5b = .err (ParseError.unexpectedToken nlTok5) st) ∧
    (∃ e st, AccountRef.parse pC5c = .err e st ∧ e.code = .INVALID_ACCOUNT) ∧
    (AccountRef.parse pC5d = .ok ⟨.bare (Group.UNSAFE_nonEmpty [idTok5])⟩
      (pC5d.advanceOver [idTok5] [])) :=
  ⟨claim5_account_ref.1 pC5a lpTok5 [idTok5, rpTok5] [idTok5] rpTok5 []
      (by decide) (Or.inl (by decide)) (by decide) (by decide) (by decide),
   claim5_account_ref.2.1 pC5b lpTok5 [idTok5, nlTok5] [idTok5] nlTok5 []
      (by decide) (Or.inl (by decide)) (by decide) (by decide),
   claim5_account_ref.2.2.1 pC5c (by decide) (by decide) (by decide),
   claim5_account_ref.2.2.2 pC5d [idTok5] [] (by decide) (by decide) (by decide) (by decide)⟩

/-! ## Inversion of `expect`/`expectInteger` (C6) -/

theorem Parser.expect_eq_ok_inv {p : Parser} {kinds : List TokType} {t : Token} {st : Parser}
    (hk : kinds.contains .eof = false) (h : p.expect kinds = .ok t st) :
    ∃ ts, p.tokens = t :: ts ∧ kinds.contains t.type = true ∧
      st = { p with tokens := ts, prev := some t } := by
  have hke : TokType.eof ∉ kinds := by simpa using hk
  cases hp : p.tokens with
  | nil =>
      rw [Parser.expect, Parser.next] at h
      rw [hp] at h
      simp [Token.virtual, hke] at h
  | cons t0 ts =>
      rw [Parser.expect, Parser.next] at h
      rw [hp] at h
      simp only at h
      split at h
      case isTrue hcont =>
        rw [POut.ok.injEq] at h
        obtain ⟨h1, h2⟩ := h
        subst h1
        exact ⟨ts, rfl, hcont, h2.symm⟩
      case isFalse hcont =>
        split at h <;> simp at h

theorem Parser.expectInteger_eq_ok_inv {p : Parser} {t : Token} {st : Parser}
    (h : p.expectInteger = .ok t st) :
    ∃ ts, p.tokens = t :: ts ∧ t.type = .number ∧ isIntegerStr t.innerText = true ∧
      st = { p with tokens := ts, prev := some t } := by
  rw [Parser.expectInteger] at h
  obtain ⟨t1, st1, h1, h2⟩ := pbind_eq_ok h
  obtain ⟨ts, hts, hknd, hst1⟩ := Parser.expect_eq_ok_inv (by decide) h1
  split at h2
  · rw [POut.ok.injEq] at h2
    obtain ⟨rfl, rfl⟩ := h2
    exact ⟨ts, hts, by simpa using hknd, by assumption, hst1⟩
  · simp at h2

theorem Parser.expectInteger_cons {p : Parser} {t : Token} {ts : List Token}
    (h : p.tokens = t :: ts) (ht : t.type = .number) (hi : isIntegerStr t.innerText = true) :
    p.expectInteger = .ok t { p with tokens := ts, prev := some t } := by
  have hexp : p.expect [.number] = .ok t { p with tokens := ts, prev := some t } :=
    Parser.expect_cons h (by simp [ht])
  rw [Parser.expectInteger, hexp]
  simp only [pbind]
  rw [if_pos hi]

theorem Parser.skipIf_nil {p : Parser} {kinds : List TokType}
    (h : p.tokens = []) (hke : kinds.contains .eof = false) :
    p.skipIf kinds = (none, p) := by
  have : p.peek.type = .eof := by simp [Parser.peek, h, Token.virtual]
  rw [Parser.skipIf]
  rw [if_neg]
  intro hmem
  rw [this] at hmem
  simp at hke hmem
  exact hke hmem

theorem Parser.skipIf_cons_miss {p : Parser} {t : Token} {ts : List Token} {kinds : List TokType}
    (h : p.tokens = t :: ts) (hk : kinds.contains t.type = false) :
    p.skipIf kinds = (none, p) := by
  have hpk : p.peek = t := Parser.peek_cons h
  rw [Parser.skipIf]
  rw [if_neg]
  rw [hpk]
  simp at hk ⊢
  exact hk

theorem Parser.skipIf_cons_hit {p : Parser} {t : Token} {ts : List Token} {kinds : List TokType}
    (h : p.tokens = t :: ts) (hk : kinds.contains t.type = true) :
    p.skipIf kinds = (some t, { p with tokens := ts, prev := some t }) := by
  have hpk : p.peek = t := Parser.peek_cons h
  rw [Parser.skipIf]
  rw [if_pos (by rw [hpk]; exact hk)]
  simp [Parser.next, h]


/-! ## DateNode characterization (C6) -/

/-- C6: `DateNode.parse` succeeds exactly on integer, `/`-or-`-`
separator, integer, optionally the same separator and a required third
integer; a non-matching token after the second integer is not consumed;
and the raw group holds exactly the consumed tokens. -/
theorem claim6_date_shape :
    (∀ (p : Parser) (d : DateNode) (st : Parser), DateNode.parse p = .ok d st →
      (∃ n1 sep n2,
        p.tokens = n1 :: sep :: n2 :: st.tokens ∧
        d.raw = Group.UNSAFE_nonEmpty [n1, sep, n2] ∧
        n1.type = .number ∧ Parser.isIntegerStr n1.innerText = true ∧
        (sep.type = .slash ∨ sep.type = .hyphen) ∧
        n2.type = .number ∧ Parser.isIntegerStr n2.innerText = true ∧
        (∀ t ts, st.tokens = t :: ts → t.type ≠ sep.type)) ∨
      (∃ n1 sep n2 sep2 n3,
        p.tokens = n1 :: sep :: n2 :: sep2 :: n3 :: st.tokens ∧
        d.raw = Group.UNSAFE_nonEmpty [n1, sep, n2, sep2, n3] ∧
        n1.type = .number ∧ Parser.isIntegerStr n1.innerText = true ∧
        (sep.type = .slash ∨ sep.type = .hyphen) ∧
        n2.type = .number ∧ Parser.isIntegerStr n2.innerText = true ∧
        sep2.type = sep.type ∧
        n3.type = .number ∧ Parser.isIntegerStr n3.innerText = true)) ∧
    (∀ (p : Parser) (n1 sep n2 : Token) (rest : List Token),
      p.tokens = n1 :: sep :: n2 :: rest →
      n1.type = .number → Parser.isIntegerStr n1.innerText = true →
      (sep.type = .slash ∨ sep.type = .hyphen) →
      n2.type = .number → Parser.isIntegerStr n2.innerText = true →
      (∀ t ts, rest = t :: ts → t.type ≠ sep.type) →
      DateNode.parse p = .ok ⟨Group.UNSAFE_nonEmpty [n1, sep, n2]⟩
        ⟨rest, some n2, p.diagnostics, p.accounts, p.payees⟩) ∧
    (∀ (p : Parser) (n1 sep n2 sep2 n3 : Token) (rest : List Token),
      p.tokens = n1 :: sep :: n2 :: sep2 :: n3 :: rest →
      n1.type = .number → Parser.isIntegerStr n1.innerText = true →
      (sep.type = .slash ∨ sep.type = .hyphen) →
      n2.type = .number → Parser.isIntegerStr n2.innerText = true →
      sep2.type = sep.type →
      n3.type = .number → Parser.isIntegerStr n3.innerText = true →
      DateNode.parse p = .ok ⟨Group.UNSAFE_nonEmpty [n1, sep, n2, sep2, n3]⟩
        ⟨rest, some n3, p.diagnostics, p.accounts, p.payees⟩) := by
  refine ⟨?_, ?_, ?_⟩
  · intro p d st h
    rw [DateNode.parse] at h
    obtain ⟨n1, st1, hn1, h⟩ := pbind_eq_ok h
    obtain ⟨sep, st2, hsep, h⟩ := pbind_eq_ok h
    obtain ⟨n2, st3, hn2, h⟩ := pbind_eq_ok h
    obtain ⟨ts1, hts1, htn1, hii1, hst1⟩ := Parser.expectInteger_eq_ok_inv hn1
    obtain ⟨ts2, hts2, hksep, hst2⟩ := Parser.expect_eq_ok_inv (by decide) hsep
    obtain ⟨ts3, hts3, htn2, hii2, hst3⟩ := Parser.expectInteger_eq_ok_inv hn2
    have hst1tok : st1.tokens = ts1 := by rw [hst1]
    have hst2tok : st2.tokens = ts2 := by rw [hst2]
    have hst3tok : st3.tokens = ts3 := by rw [hst3]
    rw [hst1tok] at hts2
    rw [hst2tok] at hts3
    have hsepor : sep.type = TokType.slash ∨ sep.type = TokType.hyphen := by
      simpa using hksep
    have hsepne : [sep.type].contains TokType.eof = false := by
      rcases hsepor with hs | hs <;> rw [hs] <;> decide
    cases hc4 : ts3 with
    | nil =>
        have hr : st3.skipIf [sep.type] = (none, st3) :=
          Parser.skipIf_nil (by rw [hst3tok, hc4]) hsepne
        rw [hr] at h
        have h2 : POut.ok (⟨Group.UNSAFE_nonEmpty [n1, sep, n2]⟩ : DateNode) st3 =
            POut.ok d st := h
        rw [POut.ok.injEq] at h2
        obtain ⟨hd, hst⟩ := h2
        refine Or.inl ⟨n1, sep, n2, ?_, by rw [← hd], htn1, hii1, hsepor, htn2, hii2, ?_⟩
        · rw [← hst, hst3tok, hc4, hts1, hts2, hts3, hc4]
        · intro t ts hts
          rw [← hst, hst3tok, hc4] at hts
          simp at hts
    | cons t4 tl =>
        by_cases hty : t4.type = sep.type
        · have hr : st3.skipIf [sep.type] =
              (some t4, { st3 with tokens := tl, prev := some t4 }) :=
            Parser.skipIf_cons_hit (by rw [hst3tok, hc4]) (by simp [hty])
          rw [hr] at h
          have h2 : pbind ({ st3 with tokens := tl, prev := some t4 } : Parser).expectInteger
              (fun n3 st5 =>
                POut.ok (⟨Group.UNSAFE_nonEmpty [n1, sep, n2, t4, n3]⟩ : DateNode) st5) =
              POut.ok d st := h
          obtain ⟨n3, st5, hn3, h3eq⟩ := pbind_eq_ok h2
          obtain ⟨ts5, hts5, htn3, hii3, hst5⟩ := Parser.expectInteger_eq_ok_inv hn3
          simp only at hts5
          have h4 : POut.ok (⟨Group.UNSAFE_nonEmpty [n1, sep, n2, t4, n3]⟩ : DateNode) st5 =
              POut.ok d st := h3eq
          rw [POut.ok.injEq] at h4
          obtain ⟨hd, hst⟩ := h4
          have hst5tok : st5.tokens = ts5 := by rw [hst5]
          refine Or.inr ⟨n1, sep, n2, t4, n3, ?_, by rw [← hd], htn1, hii1, hsepor, htn2, hii2,
            hty, htn3, hii3⟩
          rw [← hst, hst5tok, hts1, hts2, hts3, hc4, hts5]
        · have hr : st3.skipIf [sep.type] = (none, st3) :=
            Parser.skipIf_cons_miss (by rw [hst3tok, hc4]) (by simp [hty])
          rw [hr] at h
          have h2 : POut.ok (⟨Group.UNSAFE_nonEmpty [n1, sep, n2]⟩ : DateNode) st3 =
              POut.ok d st := h
          rw [POut.ok.injEq] at h2
          obtain ⟨hd, hst⟩ := h2
          refine Or.inl ⟨n1, sep, n2, ?_, by rw [← hd], htn1, hii1, hsepor, htn2, hii2, ?_⟩
          · rw [← hst, hst3tok, hts1, hts2, hts3]
          · intro t ts hts
            rw [← hst, hst3tok, hc4] at hts
            rw [List.cons.injEq] at hts
            rw [← hts.1]
            exact hty
  · intro p n1 sep n2 rest h ht1 hi1 hsep ht2 hi2 hnomatch
    have h1 := Parser.expectInteger_cons h ht1 hi1
    have h2 : ({ p with tokens := sep :: n2 :: rest, prev := some n1 } : Parser).expect
        [.slash, .hyphen] = .ok sep { p with tokens := n2 :: rest, prev := some sep } := by
      apply Parser.expect_cons rfl
      rcases hsep with hs | hs <;> rw [hs] <;> decide
    have h3 : ({ p with tokens := n2 :: rest, prev := some sep } : Parser).expectInteger =
        .ok n2 { p with tokens := rest, prev := some n2 } :=
      Parser.expectInteger_cons rfl ht2 hi2
    have hsepne : [sep.type].contains TokType.eof = false := by
      rcases hsep with hs | hs <;> rw [hs] <;> decide
    have hr : ({ p with tokens := rest, prev := some n2 } : Parser).skipIf [sep.type] =
        (none, { p with tokens := rest, prev := some n2 }) := by
      cases hc4 : rest with
      | nil => exact Parser.skipIf_nil rfl hsepne
      | cons t4 tl =>
          exact Parser.skipIf_cons_miss rfl (by simp [hnomatch t4 tl hc4])
    rw [DateNode.parse, h1]
    simp only [pbind]
    rw [h2]
    simp only [pbind]
    rw [h3]
    simp only [pbind]
    rw [hr]
  · intro p n1 sep n2 sep2 n3 rest h ht1 hi1 hsep ht2 hi2 hty ht3 hi3
    have h1 := Parser.expectInteger_cons h ht1 hi1
    have h2 : ({ p with tokens := sep :: n2 :: sep2 :: n3 :: rest, prev := some n1 } : Parser).expect
        [.slash, .hyphen] = .ok sep { p with tokens := n2 :: sep2 :: n3 :: rest, prev := some sep } := by
      apply Parser.expect_cons rfl
      rcases hsep with hs | hs <;> rw [hs] <;> decide
    have h3 : ({ p with tokens := n2 :: sep2 :: n3 :: rest, prev := some sep } : Parser).expectInteger =
        .ok n2 { p with tokens := sep2 :: n3 :: rest, prev := some n2 } :=
      Parser.expectInteger_cons rfl ht2 hi2
    have hr : ({ p with tokens := sep2 :: n3 :: rest, prev := some n2 } : Parser).skipIf [sep.type] =
        (some sep2, { p with tokens := n3 :: rest, prev := some sep2 }) :=
      Parser.skipIf_cons_hit rfl (by simp [hty])
    have h4 : ({ p with tokens := n3 :: rest, prev := some sep2 } : Parser).expectInteger =
        .ok n3 { p with tokens := rest, prev := some n3 } :=
      Parser.expectInteger_cons rfl ht3 hi3
    rw [DateNode.parse, h1]
    simp only [pbind]
    rw [h2]
    simp only [pbind]
    rw [h3]
    simp only [pbind]
    rw [hr]
    show pbind ({ p with tokens := n3 :: rest, prev := some sep2 } : Parser).expectInteger
        (fun m st5 =>
          POut.ok (⟨Group.UNSAFE_nonEmpty [n1, sep, n2, sep2, m]⟩ : DateNode) st5) =
      POut.ok ⟨Group.UNSAFE_nonEmpty [n1, sep, n2, sep2, n3]⟩
        ⟨rest, some n3, p.diagnostics, p.accounts, p.payees⟩
    rw [h4]
    simp only [pbind]

/-- Tokens of `2024/01/02` for the C6 witness. -/
def n1T6 : Token := ⟨.number, 0, ['2', '0', '2', '4'], [], []⟩

def slT6 : Token := ⟨.slash, 4, ['/'], [], []⟩

def n2T6 : Token := ⟨.number, 5, ['0', '1'], [], []⟩

def sl2T6 : Token := ⟨.slash, 7, ['/'], [], []⟩

def n3T6 : Token := ⟨.number, 8, ['0', '2'], [], []⟩

/-- `2024/01` as a token stream. -/
def p6a : Parser := Parser.ofTokens [n1T6, slT6, n2T6]

/-- `2024/01/02` as a token stream. -/
def p6b : Parser := Parser.ofTokens [n1T6, slT6, n2T6, sl2T6, n3T6]

/-- The node and state `DateNode.parse` yields on `p6a`. -/
def d6 : DateNode := ⟨Group.UNSAFE_nonEmpty [n1T6, slT6, n2T6]⟩

def st6a : Parser := ⟨[], some n2T6, [], ⟨[]⟩, ⟨[]⟩⟩

theorem claim6_date_shape_witness :
    ((∃ n1 sep n2,
        p6a.tokens = n1 :: sep :: n2 :: st6a.tokens ∧
        d6.raw = Group.UNSAFE_nonEmpty [n1, sep, n2] ∧
        n1.type = .number ∧ Parser.isIntegerStr n1.innerText = true ∧
        (sep.type = .slash ∨ sep.type = .hyphen) ∧
        n2.type = .number ∧ Parser.isIntegerStr n2.innerText = true ∧
        (∀ t ts, st6a.tokens = t :: ts → t.type ≠ sep.type)) ∨
      (∃ n1 sep n2 sep2 n3,
        p6a.tokens = n1 :: sep :: n2 :: sep2 :: n3 :: st6a.tokens ∧
        d6.raw = Group.UNSAFE_nonEmpty [n1, sep, n2, sep2, n3] ∧
        n1.type = .number ∧ Parser.isIntegerStr n1.innerText = true ∧
        (sep.type = .slash ∨ sep.type = .hyphen) ∧
        n2.type = .number ∧ Parser.isIntegerStr n2.innerText = true ∧
        sep2.type = sep.type ∧
        n3.type = .number ∧ Parser.isIntegerStr n3.innerText = true)) ∧
    (DateNode.parse p6a = .ok ⟨Group.UNSAFE_nonEmpty [n1T6, slT6, n2T6]⟩
      ⟨[], some n2T6, p6a.diagnostics, p6a.accounts, p6a.payees⟩) ∧
    (DateNode.parse p6b = .ok ⟨Group.UNSAFE_nonEmpty [n1T6, slT6, n2T6, sl2T6, n3T6]⟩
      ⟨[], some n3T6, p6b.diagnostics, p6b.accounts, p6b.payees⟩) :=
  ⟨claim6_date_shape.1 p6a d6 st6a (by decide),
   claim6_date_shape.2.1 p6a n1T6 slT6 n2T6 [] (by decide) (by decide) (by decide)
     (Or.inl (by decide)) (by decide) (by decide) (by simp),
   claim6_date_shape.2.2 p6b n1T6 slT6 n2T6 sl2T6 n3T6 [] (by decide) (by decide) (by decide)
     (Or.inl (by decide)) (by decide) (by decide) (by decide) (by decide) (by decide)⟩

/-! ## Transaction flags (C4) -/

theorem Parser.ifPeek_miss {α : Type} {p : Parser} {k : TokType} {f : Parser → POut α}
    (h : p.peek.type ≠ k) : p.ifPeek k f = .ok none p := by
  simp [Parser.ifPeek, h]

theorem Parser.inlineSpace_okOf {p : Parser}
    (h : (Parser.prevEndsWithSpace p || p.peek.beginsWithSpace) = true) :
    p.inlineSpace = .ok () p := by
  have h2 := h
  simp at h2
  rcases h2 with hc | hc <;> simp [Parser.inlineSpace, hc]

theorem Parser.inlineSpace_err {p : Parser}
    (h1 : p.peek.type ≠ .newline) (h2 : p.peek.type ≠ .eof)
    (h3 : Parser.prevEndsWithSpace p = false) (h4 : p.peek.beginsWithSpace = false) :
    p.inlineSpace = .err (ParseError.unexpectedToken p.peek) p := by
  simp [Parser.inlineSpace, h1, h2, h3, h4]

/-- Shared helper: `DateNode.parse` on two integers and a separator with
no same-kind separator following. -/
theorem DateNode_parse_cons2 {p : Parser} {n1 sep n2 : Token} {rest : List Token}
    (h : p.tokens = n1 :: sep :: n2 :: rest)
    (ht1 : n1.type = .number) (hi1 : Parser.isIntegerStr n1.innerText = true)
    (hsep : sep.type = .slash ∨ sep.type = .hyphen)
    (ht2 : n2.type = .number) (hi2 : Parser.isIntegerStr n2.innerText = true)
    (hnomatch : ∀ t ts, rest = t :: ts → t.type ≠ sep.type) :
    DateNode.parse p = .ok ⟨Group.UNSAFE_nonEmpty [n1, sep, n2]⟩
      ⟨rest, some n2, p.diagnostics, p.accounts, p.payees⟩ := by
  have h1 := Parser.expectInteger_cons h ht1 hi1
  have h2 : ({ p with tokens := sep :: n2 :: rest, prev := some n1 } : Parser).expect
      [.slash, .hyphen] = .ok sep { p with tokens := n2 :: rest, prev := some sep } := by
    apply Parser.expect_cons rfl
    rcases hsep with hs | hs <;> rw [hs] <;> decide
  have h3 : ({ p with tokens := n2 :: rest, prev := some sep } : Parser).expectInteger =
      .ok n2 { p with tokens := rest, prev := some n2 } :=
    Parser.expectInteger_cons rfl ht2 hi2
  have hsepne : [sep.type].contains TokType.eof = false := by
    rcases hsep with hs | hs <;> rw [hs] <;> decide
  have hr : ({ p with tokens := rest, prev := some n2 } : Parser).skipIf [sep.type] =
      (none, { p with tokens := rest, prev := some n2 }) := by
    cases hc4 : rest with
    | nil => exact Parser.skipIf_nil rfl hsepne
    | cons t4 tl =>
        exact Parser.skipIf_cons_miss rfl (by simp [hnomatch t4 tl hc4])
  rw [DateNode.parse, h1]
  simp only [pbind]
  rw [h2]
  simp only [pbind]
  rw [h3]
  simp only [pbind]
  rw [hr]

/-- C4: a parsed transaction never carries both flags (the single
`skipIf(['bang','star'])` consumes at most one), and a second flag
character glued directly to the first (`*!` or `!*`) makes
`Transaction.parse` fail at the following `inlineSpace` with an
unexpected-token error on the second flag. -/
theorem claim4_transaction_flags :
    (∀ (p : Parser) (t : Transaction) (st : Parser), Transaction.parse p = .ok t st →
      t.cleared = none ∨ t.pending = none) ∧
    (∀ (p : Parser) (n1 sep n2 f1 f2 : Token) (rest : List Token),
      p.tokens = n1 :: sep :: n2 :: f1 :: f2 :: rest →
      n1.type = .number → Parser.isIntegerStr n1.innerText = true →
      (sep.type = .slash ∨ sep.type = .hyphen) →
      n2.type = .number → Parser.isIntegerStr n2.innerText = true →
      (f1.type = .bang ∨ f1.type = .star) →
      (f2.type = .bang ∨ f2.type = .star) →
      (n2.endsWithSpace || f1.beginsWithSpace) = true →
      f1.trailing = [] → f2.leading = [] →
      Transaction.parse p = .err (ParseError.unexpectedToken f2)
        ⟨f2 :: rest, some f1, p.diagnostics, p.accounts, p.payees⟩) := by
  constructor
  · intro p t st h
    rw [Transaction.parse] at h
    obtain ⟨date, st1, hdate, h⟩ := pbind_eq_ok h
    obtain ⟨auxDate, st2, haux, h⟩ := pbind_eq_ok h
    obtain ⟨u3, st3, hu3, h⟩ := pbind_eq_ok h
    obtain ⟨u5, st5, hu5, h⟩ := pbind_eq_ok h
    obtain ⟨code, st6, hcode, h⟩ := pbind_eq_ok h
    obtain ⟨u7, st7, hu7, h⟩ := pbind_eq_ok h
    obtain ⟨payee, st8, hpay, h⟩ := pbind_eq_ok h
    obtain ⟨hdr, st9, hhdr, h⟩ := pbind_eq_ok h
    obtain ⟨u10, st10, hu10, h⟩ := pbind_eq_ok h
    obtain ⟨pc, st11, hpc, h⟩ := pbind_eq_ok h
    cases hflag : (st3.skipIf [TokType.bang, TokType.star]).1 with
    | none =>
        rw [hflag] at h
        have h2 := h
        rw [POut.ok.injEq] at h2
        obtain ⟨ht, _⟩ := h2
        rw [← ht]
        exact Or.inl rfl
    | some f =>
        rw [hflag] at h
        have h2 := h
        rw [POut.ok.injEq] at h2
        obtain ⟨ht, _⟩ := h2
        rw [← ht]
        by_cases hstar : f.type = TokType.star
        · have hbang : ¬f.type = TokType.bang := by rw [hstar]; decide
          right
          simp [hbang]
        · left
          simp [hstar]
  · intro p n1 sep n2 f1 f2 rest h ht1 hi1 hsep ht2 hi2 hf1 hf2 hsp hf1tr hf2ld
    have hnosep : ∀ t ts, (f1 :: f2 :: rest) = t :: ts → t.type ≠ sep.type := by
      intro t ts hts
      rw [List.cons.injEq] at hts
      rw [← hts.1]
      rcases hf1 with hx | hx <;> rcases hsep with hs | hs <;> rw [hx, hs] <;> decide
    have hd := DateNode_parse_cons2 h ht1 hi1 hsep ht2 hi2 hnosep
    rw [Transaction.parse, hd]
    simp only [pbind]
    have hf1neq : ({ p with tokens := f1 :: f2 :: rest, prev := some n2 } : Parser).peek.type ≠
        TokType.equal := by
      rw [Parser.peek_cons rfl]
      rcases hf1 with hx | hx <;> rw [hx] <;> decide
    rw [Parser.ifPeek_miss hf1neq]
    simp only [pbind]
    have hsp1 : (Parser.prevEndsWithSpace
        ({ p with tokens := f1 :: f2 :: rest, prev := some n2 } : Parser) ||
        ({ p with tokens := f1 :: f2 :: rest, prev := some n2 } : Parser).peek.beginsWithSpace) =
        true := by
      rw [Parser.peek_cons rfl]
      simpa [Parser.prevEndsWithSpace] using hsp
    rw [Parser.inlineSpace_okOf hsp1]
    simp only [pbind]
    have hskip : ({ p with tokens := f1 :: f2 :: rest, prev := some n2 } : Parser).skipIf
        [TokType.bang, TokType.star] =
        (some f1, { p with tokens := f2 :: rest, prev := some f1 }) := by
      apply Parser.skipIf_cons_hit rfl
      rcases hf1 with hx | hx <;> rw [hx] <;> decide
    rw [hskip]
    simp only
    have hpk2 : ({ p with tokens := f2 :: rest, prev := some f1 } : Parser).peek = f2 :=
      Parser.peek_cons rfl
    have herr : ({ p with tokens := f2 :: rest, prev := some f1 } : Parser).inlineSpace =
        .err (ParseError.unexpectedToken
          (({ p with tokens := f2 :: rest, prev := some f1 } : Parser).peek))
          { p with tokens := f2 :: rest, prev := some f1 } := by
      apply Parser.inlineSpace_err
      · rw [hpk2]; rcases hf2 with hx | hx <;> rw [hx] <;> decide
      · rw [hpk2]; rcases hf2 with hx | hx <;> rw [hx] <;> decide
      · simp [Parser.prevEndsWithSpace, Token.endsWithSpace, hf1tr]
      · rw [hpk2]; simp [Token.beginsWithSpace, hf2ld]
    rw [herr]
    rw [hpk2]

/-- Second integer of the C4 witness date, with a soft trailing space. -/
def n2T4 : Token := ⟨.number, 5, ['0', '1'], [], [' ']⟩

def starT4 : Token := ⟨.star, 8, ['*'], [], []⟩

def bangT4 : Token := ⟨.bang, 9, ['!'], [], []⟩

def nlT4 : Token := ⟨.newline, 9, ['\n'], [], []⟩

/-- `2024/01 *` + newline. -/
def pW4a : Parser := Parser.ofTokens [n1T6, slT6, n2T4, starT4, nlT4]

/-- `2024/01 *!` + newline: the second flag glued to the first. -/
def pW4b : Parser := Parser.ofTokens [n1T6, slT6, n2T4, starT4, bangT4, nlT4]

/-- The transaction `Transaction.parse` yields on `pW4a`. -/
def txW4 : Transaction :=
  ⟨⟨Group.UNSAFE_nonEmpty [n1T6, slT6, n2T4]⟩, none, some starT4, none, none, none, [], []⟩

def stW4 : Parser := ⟨[], some nlT4, [], ⟨[]⟩, ⟨[]⟩⟩

theorem claim4_transaction_flags_witness :
    (txW4.cleared = none ∨ txW4.pending = none) ∧
    (Transaction.parse pW4b = .err (ParseError.unexpectedToken bangT4)
      ⟨[bangT4, nlT4], some starT4, pW4b.diagnostics, pW4b.accounts, pW4b.payees⟩) :=
  ⟨claim4_transaction_flags.1 pW4a txW4 stW4 (by decide),
   claim4_transaction_flags.2 pW4b n1T6 slT6 n2T4 starT4 bangT4 [nlT4]
     (by decide) (by decide) (by decide) (Or.inl (by decide)) (by decide) (by decide)
     (Or.inr (by decide)) (Or.inl (by decide)) (by decide) (by decide) (by decide)⟩

/-! ## Consumption bounds and spin-freedom (C10) -/

/-- The outcome's final state retains at most as many tokens as `p`. -/
def POut.stLe {α : Type} (x : POut α) (p : Parser) : Prop :=
  match x with
  | .ok _ st => st.tokens.length ≤ p.tokens.length
  | .err _ st => st.tokens.length ≤ p.tokens.length
  | .spin => True

/-- The outcome's final state retains strictly fewer tokens than `p`. -/
def POut.stLt {α : Type} (x : POut α) (p : Parser) : Prop :=
  match x with
  | .ok _ st => st.tokens.length < p.tokens.length
  | .err _ st => st.tokens.length < p.tokens.length
  | .spin => True

theorem POut.stLt.le {α : Type} {x : POut α} {p : Parser} (h : x.stLt p) : x.stLe p := by
  cases x with
  | ok a st => exact Nat.le_of_lt h
  | err e st => exact Nat.le_of_lt h
  | spin => trivial

theorem stLe_bind {α β : Type} {x : POut α} {f : α → Parser → POut β} {p : Parser}
    (hx : x.stLe p) (hf : ∀ a st, (f a st).stLe st) : (pbind x f).stLe p := by
  cases x with
  | ok a st =>
      have := hf a st
      cases hfa : f a st with
      | ok b st2 =>
          simp only [POut.stLe] at hx ⊢
          rw [pbind, hfa]
          have h2 := this
          rw [hfa] at h2
          simp only [POut.stLe] at h2
          exact Nat.le_trans h2 hx
      | err e st2 =>
          simp only [POut.stLe] at hx ⊢
          rw [pbind, hfa]
          have h2 := this
          rw [hfa] at h2
          simp only [POut.stLe] at h2
          exact Nat.le_trans h2 hx
      | spin =>
          rw [pbind, hfa]
          trivial
  | err e st => exact hx
  | spin => trivial

theorem stLt_bind_left {α β : Type} {x : POut α} {f : α → Parser → POut β} {p : Parser}
    (hx : x.stLt p) (hf : ∀ a st, (f a st).stLe st) : (pbind x f).stLt p := by
  cases x with
  | ok a st =>
      have := hf a st
      cases hfa : f a st with
      | ok b st2 =>
          simp only [POut.stLt] at hx ⊢
          rw [pbind, hfa]
          have h2 := this
          rw [hfa] at h2
          simp only [POut.stLe] at h2
          exact Nat.lt_of_le_of_lt h2 hx
      | err e st2 =>
          simp only [POut.stLt] at hx ⊢
          rw [pbind, hfa]
          have h2 := this
          rw [hfa] at h2
          simp only [POut.stLe] at h2
          exact Nat.lt_of_le_of_lt h2 hx
      | spin =>
          rw [pbind, hfa]
          trivial
  | err e st => exact hx
  | spin => trivial

theorem noSpin_bind {α β : Type} {x : POut α} {f : α → Parser → POut β}
    (hx : x ≠ .spin) (hf : ∀ a st, f a st ≠ .spin) : pbind x f ≠ .spin := by
  cases x with
  | ok a st => exact hf a st
  | err e st => simp [pbind]
  | spin => exact absurd rfl hx

theorem stLe_pmap {α β : Type} {x : POut α} {f : α → β} {p : Parser}
    (hx : x.stLe p) : (pmap x f).stLe p := by
  cases x <;> simpa [pmap] using hx

theorem stLt_pmap {α β : Type} {x : POut α} {f : α → β} {p : Parser}
    (hx : x.stLt p) : (pmap x f).stLt p := by
  cases x <;> simpa [pmap] using hx

theorem noSpin_pmap {α β : Type} {x : POut α} {f : α → β}
    (hx : x ≠ .spin) : pmap x f ≠ .spin := by
  cases x with
  | ok a st => simp [pmap]
  | err e st => simp [pmap]
  | spin => exact absurd rfl hx

theorem Parser.next_st_le (p : Parser) : (p.next).2.tokens.length ≤ p.tokens.length := by
  cases hp : p.tokens with
  | nil => simp [Parser.next, hp]
  | cons t ts => simp [Parser.next, hp]

theorem Parser.next_st_lt {p : Parser} (h : p.tokens ≠ []) :
    (p.next).2.tokens.length < p.tokens.length := by
  cases hp : p.tokens with
  | nil => exact absurd hp h
  | cons t ts => simp [Parser.next, hp]

theorem Parser.tokens_ne_nil_of_peek {p : Parser} (h : p.peek.type ≠ .eof) :
    p.tokens ≠ [] := by
  intro hnil
  exact h (by simp [Parser.peek, hnil, Token.virtual])

theorem Parser.nextIsIndented_ne_eof {p : Parser} (h : p.nextIsIndented = true) :
    p.peek.type ≠ .eof := by
  rw [Parser.nextIsIndented] at h
  simp at h
  exact h.2

theorem Parser.hasNext_ne_eof {p : Parser} (h : p.hasNext = true) : p.peek.type ≠ .eof := by
  rw [Parser.hasNext] at h
  simpa using h

theorem Parser.expect_stLe (p : Parser) (kinds : List TokType) : (p.expect kinds).stLe p := by
  rw [Parser.expect]
  split
  · exact p.next_st_le
  · split
    · exact p.next_st_le
    · exact p.next_st_le

theorem Parser.expect_stLt {p : Parser} (kinds : List TokType) (h : p.tokens ≠ []) :
    (p.expect kinds).stLt p := by
  rw [Parser.expect]
  split
  · exact Parser.next_st_lt h
  · split
    · exact Parser.next_st_lt h
    · exact Parser.next_st_lt h

theorem Parser.expect_noSpin (p : Parser) (kinds : List TokType) : p.expect kinds ≠ .spin := by
  rw [Parser.expect]
  split
  · simp
  · split <;> simp

theorem Parser.expectIdentifier_stLe (p : Parser) (name : Str) :
    (p.expectIdentifier name).stLe p := by
  rw [Parser.expectIdentifier]
  apply stLe_bind (p.expect_stLe _)
  intro a st
  split <;> simp [POut.stLe]

theorem Parser.expectIdentifier_stLt {p : Parser} (name : Str) (h : p.tokens ≠ []) :
    (p.expectIdentifier name).stLt p := by
  rw [Parser.expectIdentifier]
  apply stLt_bind_left (Parser.expect_stLt _ h)
  intro a st
  split <;> simp [POut.stLe]

theorem Parser.expectIdentifier_noSpin (p : Parser) (name : Str) :
    p.expectIdentifier name ≠ .spin := by
  rw [Parser.expectIdentifier]
  apply noSpin_bind (p.expect_noSpin _)
  intro a st
  split <;> simp

theorem Parser.expectInteger_stLe (p : Parser) : p.expectInteger.stLe p := by
  rw [Parser.expectInteger]
  apply stLe_bind (p.expect_stLe _)
  intro a st
  split <;> simp [POut.stLe]

theorem Parser.expectInteger_stLt {p : Parser} (h : p.tokens ≠ []) :
    p.expectInteger.stLt p := by
  rw [Parser.expectInteger]
  apply stLt_bind_left (Parser.expect_stLt _ h)
  intro a st
  split <;> simp [POut.stLe]

theorem Parser.expectInteger_noSpin (p : Parser) : p.expectInteger ≠ .spin := by
  rw [Parser.expectInteger]
  apply noSpin_bind (p.expect_noSpin _)
  intro a st
  split <;> simp

theorem Parser.expectEndOfLine_stLe (p : Parser) : p.expectEndOfLine.stLe p := by
  rw [Parser.expectEndOfLine]
  split
  · exact p.next_st_le
  · exact p.next_st_le

theorem Parser.expectEndOfLine_stLt {p : Parser} (h : p.tokens ≠ []) :
    p.expectEndOfLine.stLt p := by
  rw [Parser.expectEndOfLine]
  split
  · exact Parser.next_st_lt h
  · exact Parser.next_st_lt h

theorem Parser.expectEndOfLine_noSpin (p : Parser) : p.expectEndOfLine ≠ .spin := by
  rw [Parser.expectEndOfLine]
  split <;> simp

theorem Parser.expectHardSpace_stLe (p : Parser) : p.expectHardSpace.stLe p := by
  rw [Parser.expectHardSpace]
  split <;> simp [POut.stLe]

theorem Parser.expectHardSpace_noSpin (p : Parser) : p.expectHardSpace ≠ .spin := by
  rw [Parser.expectHardSpace]
  split <;> simp

theorem Parser.inlineSpace_stLe (p : Parser) : p.inlineSpace.stLe p := by
  rw [Parser.inlineSpace]
  split <;> simp [POut.stLe]

theorem Parser.inlineSpace_noSpin (p : Parser) : p.inlineSpace ≠ .spin := by
  rw [Parser.inlineSpace]
  split <;> simp

theorem Parser.skipIf_st_le (p : Parser) (kinds : List TokType) :
    (p.skipIf kinds).2.tokens.length ≤ p.tokens.length := by
  rw [Parser.skipIf]
  split
  · exact p.next_st_le
  · exact Nat.le_refl _

theorem Parser.skipIfIdentifier_st_le (p : Parser) (name : Str) :
    (p.skipIfIdentifier name).2.tokens.length ≤ p.tokens.length := by
  rw [Parser.skipIfIdentifier]
  split
  · exact p.next_st_le
  · exact Nat.le_refl _

theorem Parser.advanceOver_tokens (p : Parser) (consumed rest : List Token) :
    (p.advanceOver consumed rest).tokens = rest := rfl

theorem slurpTokens_rest_le (stops : List TokType) (ts : List Token) :
    (slurpTokens stops ts).2.length ≤ ts.length := by
  have h := slurpTokens_append stops ts
  calc (slurpTokens stops ts).2.length
      ≤ (slurpTokens stops ts).1.length + (slurpTokens stops ts).2.length :=
        Nat.le_add_left _ _
    _ = ts.length := by rw [← List.length_append, h]

theorem slurpTokens_rest_lt {stops : List TokType} {ts : List Token}
    (h : (slurpTokens stops ts).1 ≠ []) :
    (slurpTokens stops ts).2.length < ts.length := by
  have happ := slurpTokens_append stops ts
  have hpos : 0 < (slurpTokens stops ts).1.length := List.length_pos.mpr h
  calc (slurpTokens stops ts).2.length
      < (slurpTokens stops ts).1.length + (slurpTokens stops ts).2.length := by
        exact Nat.lt_add_of_pos_left hpos
    _ = ts.length := by rw [← List.length_append, happ]

theorem slurpHardTokens_rest_le (ts : List Token) :
    (slurpHardTokens ts).2.length ≤ ts.length := by
  have h := slurpHardTokens_append ts
  calc (slurpHardTokens ts).2.length
      ≤ (slurpHardTokens ts).1.length + (slurpHardTokens ts).2.length :=
        Nat.le_add_left _ _
    _ = ts.length := by rw [← List.length_append, h]

theorem slurpHardTokens_rest_lt {ts : List Token}
    (h : (slurpHardTokens ts).1 ≠ []) :
    (slurpHardTokens ts).2.length < ts.length := by
  have happ := slurpHardTokens_append ts
  have hpos : 0 < (slurpHardTokens ts).1.length := List.length_pos.mpr h
  calc (slurpHardTokens ts).2.length
      < (slurpHardTokens ts).1.length + (slurpHardTokens ts).2.length := by
        exact Nat.lt_add_of_pos_left hpos
    _ = ts.length := by rw [← List.length_append, happ]

theorem Parser.slurpUntil_stLe (p : Parser) (stops : List TokType) :
    (p.slurpUntil stops).stLe p := by
  rw [Parser.slurpUntil]
  split
  · split <;> simpa [POut.stLe, Parser.advanceOver] using slurpTokens_rest_le stops p.tokens
  · simpa [POut.stLe, Parser.advanceOver] using slurpTokens_rest_le stops p.tokens

theorem Parser.slurpUntil_okLt (p : Parser) (stops : List TokType) :
    ∀ g st, p.slurpUntil stops = .ok g st → st.tokens.length < p.tokens.length := by
  intro g st h
  rw [Parser.slurpUntil] at h
  split at h
  · split at h <;> simp at h
  case isFalse hne =>
    rw [POut.ok.injEq] at h
    rw [← h.2]
    simpa [Parser.advanceOver] using slurpTokens_rest_lt hne

theorem Parser.slurpUntil_noSpin (p : Parser) (stops : List TokType) :
    p.slurpUntil stops ≠ .spin := by
  rw [Parser.slurpUntil]
  split
  · split <;> simp
  · simp

theorem Parser.slurp_stLe (p : Parser) : p.slurp.stLe p := p.slurpUntil_stLe _

theorem Parser.slurp_noSpin (p : Parser) : p.slurp ≠ .spin := p.slurpUntil_noSpin _

theorem Parser.slurpOpt_stLe (p : Parser) : p.slurpOpt.stLe p := by
  rw [Parser.slurpOpt]
  split <;> simpa [POut.stLe, Parser.advanceOver] using
    slurpTokens_rest_le [TokType.newline] p.tokens

theorem Parser.slurpOpt_noSpin (p : Parser) : p.slurpOpt ≠ .spin := by
  rw [Parser.slurpOpt]
  split <;> simp

theorem Parser.slurpUntilHardSpace_stLe (p : Parser) : p.slurpUntilHardSpace.stLe p := by
  rw [Parser.slurpUntilHardSpace]
  split <;> simpa [POut.stLe, Parser.advanceOver] using slurpHardTokens_rest_le p.tokens

theorem Parser.slurpUntilHardSpace_okLt (p : Parser) :
    ∀ g st, p.slurpUntilHardSpace = .ok g st → st.tokens.length < p.tokens.length := by
  intro g st h
  rw [Parser.slurpUntilHardSpace] at h
  split at h
  · simp at h
  case isFalse hne =>
    rw [POut.ok.injEq] at h
    rw [← h.2]
    simpa [Parser.advanceOver] using slurpHardTokens_rest_lt hne

theorem Parser.slurpUntilHardSpace_noSpin (p : Parser) : p.slurpUntilHardSpace ≠ .spin := by
  rw [Parser.slurpUntilHardSpace]
  split <;> simp

theorem Parser.slurpUntilOpt_st_le (p : Parser) (stops : List TokType) :
    (p.slurpUntilOpt stops).2.tokens.length ≤ p.tokens.length := by
  rw [Parser.slurpUntilOpt]
  have h := p.slurpUntil_stLe stops
  split
  case h_1 g st heq => rw [heq] at h; simpa [POut.stLe] using h
  case h_2 e st heq => rw [heq] at h; simpa [POut.stLe] using h
  case h_3 heq => exact Nat.le_refl _

theorem Parser.declareAccount_tokens (p : Parser) (name : Str) (span : Span) :
    (p.declareAccount name span).tokens = p.tokens := by
  rw [Parser.declareAccount]
  split
  · rfl
  · split <;> rfl

theorem Parser.declarePayee_tokens (p : Parser) (name : Str) (span : Span) :
    (p.declarePayee name span).tokens = p.tokens := by
  rw [Parser.declarePayee]
  split
  · rfl
  · split <;> rfl

theorem Parser.ifPeek_stLe {α : Type} (p : Parser) (k : TokType) (f : Parser → POut α)
    (hf : (f p).stLe p) : (p.ifPeek k f).stLe p := by
  rw [Parser.ifPeek]
  split
  · exact stLe_pmap hf
  · simp [POut.stLe]

theorem Parser.ifPeek_noSpin {α : Type} (p : Parser) (k : TokType) (f : Parser → POut α)
    (hf : f p ≠ .spin) : p.ifPeek k f ≠ .spin := by
  rw [Parser.ifPeek]
  split
  · exact noSpin_pmap hf
  · simp

theorem Parser.ifLineHasNext_stLe {α : Type} (p : Parser) (f : Parser → POut α)
    (hf : (f p).stLe p) : (p.ifLineHasNext f).stLe p := by
  rw [Parser.ifLineHasNext]
  split
  · exact stLe_pmap hf
  · simp [POut.stLe]

theorem Parser.ifLineHasNext_noSpin {α : Type} (p : Parser) (f : Parser → POut α)
    (hf : f p ≠ .spin) : p.ifLineHasNext f ≠ .spin := by
  rw [Parser.ifLineHasNext]
  split
  · exact noSpin_pmap hf
  · simp

theorem syncLoop_le : ∀ (fuel : Nat) (p : Parser),
    (syncLoop fuel p).tokens.length ≤ p.tokens.length := by
  intro fuel
  induction fuel with
  | zero => intro p; exact Nat.le_refl _
  | succ n ih =>
      intro p
      rw [syncLoop]
      split
      · exact Nat.le_refl _
      · split
        · exact Nat.le_refl _
        · exact Nat.le_trans (ih (p.next).2) p.next_st_le

theorem Parser.synchronize_le (p : Parser) (e : ParseError) :
    (p.synchronize e).tokens.length ≤ p.tokens.length := by
  rw [Parser.synchronize]
  exact syncLoop_le _ _

theorem Parser.synchronize_lt_of_indented {p : Parser} (e : ParseError)
    (h : p.nextIsIndented = true) :
    (p.synchronize e).tokens.length < p.tokens.length := by
  rw [Parser.synchronize]
  have hq : ({ p with diagnostics := p.diagnostics ++ [e] } : Parser).nextIsIndented = true := h
  have hne : ({ p with diagnostics := p.diagnostics ++ [e] } : Parser).peek.type ≠ .eof :=
    Parser.nextIsIndented_ne_eof hq
  have htok : ({ p with diagnostics := p.diagnostics ++ [e] } : Parser).tokens ≠ [] :=
    Parser.tokens_ne_nil_of_peek hne
  rw [syncLoop]
  rw [if_neg (by simpa using hne)]
  rw [if_neg (by simp [hq])]
  have h1 := syncLoop_le (p.tokens.length)
    (({ p with diagnostics := p.diagnostics ++ [e] } : Parser).next).2
  have h2 := Parser.next_st_lt htok
  exact Nat.lt_of_le_of_lt h1 h2

theorem Parser.synchronize_eof {p : Parser} (e : ParseError) (h : p.peek.type = .eof) :
    p.synchronize e = { p with diagnostics := p.diagnostics ++ [e] } := by
  rw [Parser.synchronize]
  rw [syncLoop]
  rw [if_pos]
  exact h

theorem SurroundedBy_parse_stLe (p : Parser) (o c : TokType) :
    (SurroundedBy.parse p o c).stLe p := by
  rw [SurroundedBy.parse]
  apply stLe_bind (p.expect_stLe _)
  intro a st
  apply stLe_bind (st.slurpUntil_stLe _)
  intro g st2
  apply stLe_bind (st2.expect_stLe _)
  intro cl st3
  simp [POut.stLe]

theorem SurroundedBy_parse_noSpin (p : Parser) (o c : TokType) :
    SurroundedBy.parse p o c ≠ .spin := by
  rw [SurroundedBy.parse]
  apply noSpin_bind (p.expect_noSpin _)
  intro a st
  apply noSpin_bind (st.slurpUntil_noSpin _)
  intro g st2
  apply noSpin_bind (st2.expect_noSpin _)
  intro cl st3
  simp

theorem AccountRef_parse_stLe (p : Parser) : (AccountRef.parse p).stLe p := by
  rw [AccountRef.parse]
  split
  · apply stLe_bind (p.expect_stLe _)
    intro a st
    apply stLe_bind (st.slurpUntil_stLe _)
    intro g st2
    apply stLe_bind (st2.expect_stLe _)
    intro cl st3
    simp [POut.stLe]
  · apply stLe_bind (p.slurpUntilHardSpace_stLe)
    intro g st
    simp [POut.stLe]

theorem AccountRef_parse_noSpin (p : Parser) : AccountRef.parse p ≠ .spin := by
  rw [AccountRef.parse]
  split
  · apply noSpin_bind (p.expect_noSpin _)
    intro a st
    apply noSpin_bind (st.slurpUntil_noSpin _)
    intro g st2
    apply noSpin_bind (st2.expect_noSpin _)
    intro cl st3
    simp
  · apply noSpin_bind (p.slurpUntilHardSpace_noSpin)
    intro g st
    simp

theorem AccountRef_parse_okLt {p : Parser} (h : p.tokens ≠ []) :
    ∀ a st, AccountRef.parse p = .ok a st → st.tokens.length < p.tokens.length := by
  intro a st hok
  rw [AccountRef.parse] at hok
  split at hok
  · obtain ⟨opn, st1, hexp, hok⟩ := pbind_eq_ok hok
    obtain ⟨g, st2, hsl, hok⟩ := pbind_eq_ok hok
    obtain ⟨cl, st3, hcl, hok⟩ := pbind_eq_ok hok
    have h2 : POut.ok (⟨.surrounded ⟨opn, g, cl⟩⟩ : AccountRef) st3 = POut.ok a st := hok
    rw [POut.ok.injEq] at h2
    have e1 := Parser.expect_stLt [TokType.lparen, TokType.lbracket] h
    rw [hexp] at e1
    simp only [POut.stLt] at e1
    have e2 := st1.slurpUntil_stLe [invertBrace p.peek.type]
    rw [hsl] at e2
    simp only [POut.stLe] at e2
    have e3 := st2.expect_stLe [invertBrace p.peek.type]
    rw [hcl] at e3
    simp only [POut.stLe] at e3
    rw [← h2.2]
    exact Nat.lt_of_le_of_lt (Nat.le_trans e3 e2) e1
  · obtain ⟨g, st1, hsl, hok⟩ := pbind_eq_ok hok
    have hlt := p.slurpUntilHardSpace_okLt g st1 hsl
    have h2 : POut.ok (⟨.bare g⟩ : AccountRef) st1 = POut.ok a st := hok
    rw [POut.ok.injEq] at h2
    rw [← h2.2]
    exact hlt

theorem payeeLoop_stLe : ∀ (fuel : Nat) (p : Parser) (g : Group),
    (payeeLoop fuel p g).stLe p := by
  intro fuel
  induction fuel with
  | zero => intro p g; trivial
  | succ n ih =>
      intro p g
      rw [payeeLoop]
      split
      · apply stLe_bind (p.slurpUntilHardSpace_stLe)
        intro chunk st
        exact ih st (g.concat chunk)
      · simp [POut.stLe]

theorem Parser.lineHasNext_ne_eof {p : Parser} (h : p.lineHasNext = true) :
    p.peek.type ≠ .eof := by
  rw [Parser.lineHasNext] at h
  simp at h
  exact h.1

theorem payeeLoop_noSpin : ∀ (fuel : Nat) (p : Parser) (g : Group),
    p.tokens.length < fuel → payeeLoop fuel p g ≠ .spin := by
  intro fuel
  induction fuel with
  | zero => intro p g hf; exact absurd hf (Nat.not_lt_zero _)
  | succ n ih =>
      intro p g hf
      rw [payeeLoop]
      split
      case isTrue hg =>
        have hg2 := hg
        simp at hg2
        have hne : p.tokens ≠ [] :=
          Parser.tokens_ne_nil_of_peek (Parser.lineHasNext_ne_eof hg2.1)
        cases hsl : p.slurpUntilHardSpace with
        | ok chunk st =>
            simp only [pbind]
            apply ih st (g.concat chunk)
            have hlt := p.slurpUntilHardSpace_okLt chunk st hsl
            exact Nat.lt_of_lt_of_le hlt (Nat.lt_succ_iff.mp hf)
        | err e st => simp [pbind]
        | spin => exact absurd hsl p.slurpUntilHardSpace_noSpin
      case isFalse hg => simp

theorem POut.stLe_trans {α : Type} {x : POut α} {q p : Parser}
    (h : x.stLe q) (hqp : q.tokens.length ≤ p.tokens.length) : x.stLe p := by
  cases x with
  | ok a st => exact Nat.le_trans h hqp
  | err e st => exact Nat.le_trans h hqp
  | spin => trivial

theorem POut.stLt_of_le_of_lt {α : Type} {x : POut α} {q p : Parser}
    (h : x.stLe q) (hqp : q.tokens.length < p.tokens.length) : x.stLt p := by
  cases x with
  | ok a st => exact Nat.lt_of_le_of_lt h hqp
  | err e st => exact Nat.lt_of_le_of_lt h hqp
  | spin => trivial

theorem Payee_parse_stLe (p : Parser) : (Payee.parse p).stLe p := by
  rw [Payee.parse]
  apply stLe_bind p.slurpUntilHardSpace_stLe
  intro g st
  apply stLe_bind (payeeLoop_stLe _ st g)
  intro g2 st2
  simp [POut.stLe, Parser.declarePayee_tokens]

theorem Payee_parse_noSpin (p : Parser) : Payee.parse p ≠ .spin := by
  rw [Payee.parse]
  apply noSpin_bind p.slurpUntilHardSpace_noSpin
  intro g st
  apply noSpin_bind (payeeLoop_noSpin _ st g (Nat.lt_succ_self _))
  intro g2 st2
  simp

theorem Amount_parse_stLe (p : Parser) : (Amount.parse p).stLe p := by
  rw [Amount.parse]
  apply stLe_bind p.expectHardSpace_stLe
  intro u st0
  dsimp only
  split
  · simp only [POut.stLe]
    exact Nat.le_trans (Parser.slurpUntilOpt_st_le _ _)
      (Nat.le_trans (Parser.next_st_le _) (Parser.skipIf_st_le _ _))
  · split
    · apply stLe_bind
      · apply POut.stLe_trans (Parser.expect_stLe _ _)
        split
        · exact Nat.le_trans (Parser.slurpUntilOpt_st_le _ _) (Parser.skipIf_st_le _ _)
        · exact Nat.le_trans (Parser.skipIf_st_le _ _)
            (Nat.le_trans (Parser.slurpUntilOpt_st_le _ _) (Parser.skipIf_st_le _ _))
      · intro num st4
        simp [POut.stLe]
    · apply stLe_bind
      · exact POut.stLe_trans (Parser.expect_stLe _ _) (Parser.skipIf_st_le _ _)
      · intro amt st2
        simp [POut.stLe]

theorem Amount_parse_noSpin (p : Parser) : Amount.parse p ≠ .spin := by
  rw [Amount.parse]
  apply noSpin_bind p.expectHardSpace_noSpin
  intro u st0
  dsimp only
  split
  · simp
  · split
    · apply noSpin_bind
      · exact Parser.expect_noSpin _ _
      · intro num st4
        simp
    · apply noSpin_bind (Parser.expect_noSpin _ _)
      intro amt st2
      simp

theorem Comment_parse_stLe (p : Parser) : (Comment.parse p).stLe p := by
  rw [Comment.parse]
  apply stLe_bind (p.expect_stLe _)
  intro c st1
  apply stLe_bind st1.expectEndOfLine_stLe
  intro u st2
  simp [POut.stLe]

theorem Comment_parse_stLt {p : Parser} (h : p.tokens ≠ []) : (Comment.parse p).stLt p := by
  rw [Comment.parse]
  apply stLt_bind_left (Parser.expect_stLt _ h)
  intro c st1
  apply stLe_bind st1.expectEndOfLine_stLe
  intro u st2
  simp [POut.stLe]

theorem Comment_parse_noSpin (p : Parser) : Comment.parse p ≠ .spin := by
  rw [Comment.parse]
  apply noSpin_bind (p.expect_noSpin _)
  intro c st1
  apply noSpin_bind st1.expectEndOfLine_noSpin
  intro u st2
  simp

theorem DateNode_parse_stLe (p : Parser) : (DateNode.parse p).stLe p := by
  rw [DateNode.parse]
  apply stLe_bind p.expectInteger_stLe
  intro n1 st1
  apply stLe_bind (st1.expect_stLe _)
  intro sep st2
  apply stLe_bind st2.expectInteger_stLe
  intro n2 st3
  dsimp only
  split
  · apply stLe_bind (POut.stLe_trans (Parser.expectInteger_stLe _) (Parser.skipIf_st_le _ _))
    intro n3 st5
    simp [POut.stLe]
  · simp only [POut.stLe]
    exact Parser.skipIf_st_le _ _

theorem DateNode_parse_stLt {p : Parser} (h : p.tokens ≠ []) : (DateNode.parse p).stLt p := by
  rw [DateNode.parse]
  apply stLt_bind_left (Parser.expectInteger_stLt h)
  intro n1 st1
  apply stLe_bind (st1.expect_stLe _)
  intro sep st2
  apply stLe_bind st2.expectInteger_stLe
  intro n2 st3
  dsimp only
  split
  · apply stLe_bind (POut.stLe_trans (Parser.expectInteger_stLe _) (Parser.skipIf_st_le _ _))
    intro n3 st5
    simp [POut.stLe]
  · simp only [POut.stLe]
    exact Parser.skipIf_st_le _ _

theorem DateNode_parse_noSpin (p : Parser) : DateNode.parse p ≠ .spin := by
  rw [DateNode.parse]
  apply noSpin_bind p.expectInteger_noSpin
  intro n1 st1
  apply noSpin_bind (st1.expect_noSpin _)
  intro sep st2
  apply noSpin_bind st2.expectInteger_noSpin
  intro n2 st3
  dsimp only
  split
  · apply noSpin_bind (Parser.expectInteger_noSpin _)
    intro n3 st5
    simp
  · simp

theorem AuxDate_parse_stLe (p : Parser) : (AuxDate.parse p).stLe p := by
  rw [AuxDate.parse]
  apply stLe_bind (p.expect_stLe _)
  intro eq st
  apply stLe_bind (DateNode_parse_stLe st)
  intro d st2
  simp [POut.stLe]

theorem AuxDate_parse_noSpin (p : Parser) : AuxDate.parse p ≠ .spin := by
  rw [AuxDate.parse]
  apply noSpin_bind (p.expect_noSpin _)
  intro eq st
  apply noSpin_bind (DateNode_parse_noSpin st)
  intro d st2
  simp

theorem Posting_parse_stLe (p : Parser) : (Posting.parse p).stLe p := by
  rw [Posting.parse]
  apply stLe_bind (AccountRef_parse_stLe p)
  intro acc st1
  apply stLe_bind (st1.ifLineHasNext_stLe _ (Amount_parse_stLe st1))
  intro amt st2
  simp [POut.stLe, Parser.declareAccount_tokens]

theorem Posting_parse_noSpin (p : Parser) : Posting.parse p ≠ .spin := by
  rw [Posting.parse]
  apply noSpin_bind (AccountRef_parse_noSpin p)
  intro acc st1
  apply noSpin_bind (st1.ifLineHasNext_noSpin _ (Amount_parse_noSpin st1))
  intro amt st2
  simp

theorem Posting_parse_okLt {p : Parser} (h : p.tokens ≠ []) :
    ∀ a st, Posting.parse p = .ok a st → st.tokens.length < p.tokens.length := by
  intro a st hok
  rw [Posting.parse] at hok
  obtain ⟨acc, st1, hacc, hok⟩ := pbind_eq_ok hok
  obtain ⟨amt, st2, hamt, hok⟩ := pbind_eq_ok hok
  have e1 := AccountRef_parse_okLt h acc st1 hacc
  have e2 := st1.ifLineHasNext_stLe _ (Amount_parse_stLe st1)
  rw [hamt] at e2
  simp only [POut.stLe] at e2
  have h2 : POut.ok (⟨acc, amt, []⟩ : Posting) (st2.declareAccount acc.accountName acc.span) =
      POut.ok a st := hok
  rw [POut.ok.injEq] at h2
  rw [← h2.2]
  rw [Parser.declareAccount_tokens]
  exact Nat.lt_of_le_of_lt e2 e1

theorem postingsLoop_stLe : ∀ (fuel : Nat) (p : Parser) (postings : List Posting)
    (comments : List Comment), (postingsLoop fuel p postings comments).stLe p := by
  intro fuel
  induction fuel with
  | zero => intro p postings comments; trivial
  | succ n ih =>
      intro p postings comments
      rw [postingsLoop]
      split
      · split
        · apply stLe_bind
          · apply stLe_bind (Comment_parse_stLe p)
            intro c st
            apply stLe_bind st.expectEndOfLine_stLe
            intro u st2
            simp [POut.stLe]
          · intro c st2
            split
            · exact ih st2 postings (comments ++ [c])
            · exact ih st2 (pushCommentToLast postings c) comments
        · apply stLe_bind
          · apply stLe_bind (Posting_parse_stLe p)
            intro post st
            apply stLe_bind st.expectEndOfLine_stLe
            intro u st2
            simp [POut.stLe]
          · intro post st2
            exact ih st2 (postings ++ [post]) comments
      · simp [POut.stLe]

theorem postingsLoop_noSpin : ∀ (fuel : Nat) (p : Parser) (postings : List Posting)
    (comments : List Comment), p.tokens.length < fuel →
    postingsLoop fuel p postings comments ≠ .spin := by
  intro fuel
  induction fuel with
  | zero => intro p postings comments hf; exact absurd hf (Nat.not_lt_zero _)
  | succ n ih =>
      intro p postings comments hf
      rw [postingsLoop]
      split
      case isTrue hind =>
        have hne : p.tokens ≠ [] :=
          Parser.tokens_ne_nil_of_peek (Parser.nextIsIndented_ne_eof hind)
        split
        · have hXlt : (pbind (Comment.parse p) fun c st =>
              pbind st.expectEndOfLine fun _ st2 => POut.ok c st2).stLt p := by
            apply stLt_bind_left (Comment_parse_stLt hne)
            intro c st
            apply stLe_bind st.expectEndOfLine_stLe
            intro u st2
            simp [POut.stLe]
          have hXns : (pbind (Comment.parse p) fun c st =>
              pbind st.expectEndOfLine fun _ st2 => POut.ok c st2) ≠ .spin := by
            apply noSpin_bind (Comment_parse_noSpin p)
            intro c st
            apply noSpin_bind st.expectEndOfLine_noSpin
            intro u st2
            simp
          cases hx : (pbind (Comment.parse p) fun c st =>
              pbind st.expectEndOfLine fun _ st2 => POut.ok c st2) with
          | ok c st2 =>
              rw [hx] at hXlt
              simp only [POut.stLt] at hXlt
              have hlt : st2.tokens.length < n := Nat.lt_of_lt_of_le hXlt (Nat.lt_succ_iff.mp hf)
              simp only [pbind]
              split
              · exact ih st2 postings (comments ++ [c]) hlt
              · exact ih st2 (pushCommentToLast postings c) comments hlt
          | err e st2 => simp [pbind]
          | spin => exact absurd hx hXns
        · have hXns : (pbind (Posting.parse p) fun post st =>
              pbind st.expectEndOfLine fun _ st2 => POut.ok post st2) ≠ .spin := by
            apply noSpin_bind (Posting_parse_noSpin p)
            intro post st
            apply noSpin_bind st.expectEndOfLine_noSpin
            intro u st2
            simp
          cases hx : (pbind (Posting.parse p) fun post st =>
              pbind st.expectEndOfLine fun _ st2 => POut.ok post st2) with
          | ok post st2 =>
              obtain ⟨post1, st1, hpost, hrest⟩ := pbind_eq_ok hx
              have e1 := Posting_parse_okLt hne post1 st1 hpost
              have e2 : (pbind st1.expectEndOfLine fun _ st2 => POut.ok post1 st2).stLe st1 := by
                apply stLe_bind st1.expectEndOfLine_stLe
                intro u st3
                simp [POut.stLe]
              rw [hrest] at e2
              simp only [POut.stLe] at e2
              have hlt : st2.tokens.length < n :=
                Nat.lt_of_lt_of_le (Nat.lt_of_le_of_lt e2 e1) (Nat.lt_succ_iff.mp hf)
              simp only [pbind]
              exact ih st2 (postings ++ [post]) comments hlt
          | err e st2 => simp [pbind]
          | spin => exact absurd hx hXns
      case isFalse hind => simp

theorem Transaction_parse_stLe (p : Parser) : (Transaction.parse p).stLe p := by
  rw [Transaction.parse]
  apply stLe_bind (DateNode_parse_stLe p)
  intro date st1
  apply stLe_bind (st1.ifPeek_stLe _ _ (AuxDate_parse_stLe st1))
  intro auxDate st2
  apply stLe_bind st2.inlineSpace_stLe
  intro u3 st3
  dsimp only
  apply stLe_bind (POut.stLe_trans ((st3.skipIf [TokType.bang, TokType.star]).2.inlineSpace_stLe)
    (Parser.skipIf_st_le _ _))
  intro u5 st5
  apply stLe_bind (st5.ifPeek_stLe _ _ (SurroundedBy_parse_stLe st5 _ _))
  intro code st6
  apply stLe_bind st6.inlineSpace_stLe
  intro u7 st7
  apply stLe_bind (st7.ifLineHasNext_stLe _ (Payee_parse_stLe st7))
  intro payee st8
  apply stLe_bind (st8.ifPeek_stLe _ _ (Comment_parse_stLe st8))
  intro hdr st9
  apply stLe_bind st9.expectEndOfLine_stLe
  intro u10 st10
  apply stLe_bind (postingsLoop_stLe _ st10 [] [])
  intro pc st11
  simp [POut.stLe]

theorem Transaction_parse_stLt {p : Parser} (h : p.tokens ≠ []) :
    (Transaction.parse p).stLt p := by
  rw [Transaction.parse]
  apply stLt_bind_left (DateNode_parse_stLt h)
  intro date st1
  apply stLe_bind (st1.ifPeek_stLe _ _ (AuxDate_parse_stLe st1))
  intro auxDate st2
  apply stLe_bind st2.inlineSpace_stLe
  intro u3 st3
  dsimp only
  apply stLe_bind (POut.stLe_trans ((st3.skipIf [TokType.bang, TokType.star]).2.inlineSpace_stLe)
    (Parser.skipIf_st_le _ _))
  intro u5 st5
  apply stLe_bind (st5.ifPeek_stLe _ _ (SurroundedBy_parse_stLe st5 _ _))
  intro code st6
  apply stLe_bind st6.inlineSpace_stLe
  intro u7 st7
  apply stLe_bind (st7.ifLineHasNext_stLe _ (Payee_parse_stLe st7))
  intro payee st8
  apply stLe_bind (st8.ifPeek_stLe _ _ (Comment_parse_stLe st8))
  intro hdr st9
  apply stLe_bind st9.expectEndOfLine_stLe
  intro u10 st10
  apply stLe_bind (postingsLoop_stLe _ st10 [] [])
  intro pc st11
  simp [POut.stLe]

theorem Transaction_parse_noSpin (p : Parser) : Transaction.parse p ≠ .spin := by
  rw [Transaction.parse]
  apply noSpin_bind (DateNode_parse_noSpin p)
  intro date st1
  apply noSpin_bind (st1.ifPeek_noSpin _ _ (AuxDate_parse_noSpin st1))
  intro auxDate st2
  apply noSpin_bind st2.inlineSpace_noSpin
  intro u3 st3
  dsimp only
  apply noSpin_bind ((st3.skipIf [TokType.bang, TokType.star]).2.inlineSpace_noSpin)
  intro u5 st5
  apply noSpin_bind (st5.ifPeek_noSpin _ _ (SurroundedBy_parse_noSpin st5 _ _))
  intro code st6
  apply noSpin_bind st6.inlineSpace_noSpin
  intro u7 st7
  apply noSpin_bind (st7.ifLineHasNext_noSpin _ (Payee_parse_noSpin st7))
  intro payee st8
  apply noSpin_bind (st8.ifPeek_noSpin _ _ (Comment_parse_noSpin st8))
  intro hdr st9
  apply noSpin_bind st9.expectEndOfLine_noSpin
  intro u10 st10
  apply noSpin_bind (postingsLoop_noSpin _ st10 [] [] (Nat.lt_succ_self _))
  intro pc st11
  simp

theorem SubDirective_parse_stLe (p : Parser) : (SubDirective.parse p).stLe p := by
  rw [SubDirective.parse]
  apply stLe_bind (p.expect_stLe _)
  intro key st
  apply stLe_bind st.slurpOpt_stLe
  intro v st2
  simp [POut.stLe]

theorem SubDirective_parse_stLt {p : Parser} (h : p.tokens ≠ []) :
    (SubDirective.parse p).stLt p := by
  rw [SubDirective.parse]
  apply stLt_bind_left (Parser.expect_stLt _ h)
  intro key st
  apply stLe_bind st.slurpOpt_stLe
  intro v st2
  simp [POut.stLe]

theorem SubDirective_parse_noSpin (p : Parser) : SubDirective.parse p ≠ .spin := by
  rw [SubDirective.parse]
  apply noSpin_bind (p.expect_noSpin _)
  intro key st
  apply noSpin_bind st.slurpOpt_noSpin
  intro v st2
  simp

theorem whileIndentedLoop_stLe {α : Type} (body : Parser → POut α)
    (hbLe : ∀ q, (body q).stLe q) :
    ∀ (fuel : Nat) (p : Parser) (acc : List α),
    (whileIndentedLoop fuel p body acc).stLe p := by
  intro fuel
  induction fuel with
  | zero => intro p acc; trivial
  | succ n ih =>
      intro p acc
      rw [whileIndentedLoop]
      split
      · apply stLe_bind (hbLe p)
        intro a st
        apply stLe_bind st.expectEndOfLine_stLe
        intro u st2
        exact ih st2 (acc ++ [a])
      · simp [POut.stLe]

theorem whileIndentedLoop_noSpin {α : Type} (body : Parser → POut α)
    (hbLt : ∀ q, q.tokens ≠ [] → (body q).stLt q)
    (hbNS : ∀ q, body q ≠ .spin) :
    ∀ (fuel : Nat) (p : Parser) (acc : List α),
    p.tokens.length < fuel → whileIndentedLoop fuel p body acc ≠ .spin := by
  intro fuel
  induction fuel with
  | zero => intro p acc hf; exact absurd hf (Nat.not_lt_zero _)
  | succ n ih =>
      intro p acc hf
      rw [whileIndentedLoop]
      split
      case isTrue hind =>
        have hne : p.tokens ≠ [] :=
          Parser.tokens_ne_nil_of_peek (Parser.nextIsIndented_ne_eof hind)
        cases hx : body p with
        | ok a st =>
            have e1 := hbLt p hne
            rw [hx] at e1
            simp only [POut.stLt] at e1
            simp only [pbind]
            cases hy : st.expectEndOfLine with
            | ok u st2 =>
                have e2 := st.expectEndOfLine_stLe
                rw [hy] at e2
                simp only [POut.stLe] at e2
                simp only [pbind]
                apply ih st2 (acc ++ [a])
                exact Nat.lt_of_lt_of_le (Nat.lt_of_le_of_lt e2 e1) (Nat.lt_succ_iff.mp hf)
            | err e st2 => simp [pbind]
            | spin => exact absurd hy st.expectEndOfLine_noSpin
        | err e st => simp [pbind]
        | spin => exact absurd hx (hbNS p)
      case isFalse hind => simp

theorem Directive_parseStandard_stLe (p : Parser) : (Directive.parseStandard p).stLe p := by
  rw [Directive.parseStandard]
  apply stLe_bind (p.expect_stLe _)
  intro name st
  apply stLe_bind st.slurpOpt_stLe
  intro arg st2
  apply stLe_bind st2.expectEndOfLine_stLe
  intro u st3
  apply stLe_bind (whileIndentedLoop_stLe _ SubDirective_parse_stLe _ st3 [])
  intro subs st4
  simp [POut.stLe]

theorem Directive_parseStandard_stLt {p : Parser} (h : p.tokens ≠ []) :
    (Directive.parseStandard p).stLt p := by
  rw [Directive.parseStandard]
  apply stLt_bind_left (Parser.expect_stLt _ h)
  intro name st
  apply stLe_bind st.slurpOpt_stLe
  intro arg st2
  apply stLe_bind st2.expectEndOfLine_stLe
  intro u st3
  apply stLe_bind (whileIndentedLoop_stLe _ SubDirective_parse_stLe _ st3 [])
  intro subs st4
  simp [POut.stLe]

theorem Directive_parseStandard_noSpin (p : Parser) : Directive.parseStandard p ≠ .spin := by
  rw [Directive.parseStandard]
  apply noSpin_bind (p.expect_noSpin _)
  intro name st
  apply noSpin_bind st.slurpOpt_noSpin
  intro arg st2
  apply noSpin_bind st2.expectEndOfLine_noSpin
  intro u st3
  apply noSpin_bind (whileIndentedLoop_noSpin _
    (fun q hq => SubDirective_parse_stLt hq) SubDirective_parse_noSpin _ st3 []
    (Nat.lt_succ_self _))
  intro subs st4
  simp

theorem untilSeqLoop_stLe (w1 w2 : Str) : ∀ (fuel : Nat) (p : Parser) (acc : List Token),
    (untilSeqLoop w1 w2 fuel p acc).stLe p := by
  intro fuel
  induction fuel with
  | zero => intro p acc; trivial
  | succ n ih =>
      intro p acc
      simp only [untilSeqLoop]
      split
      · simp [POut.stLe]
      · split
        · simp only [POut.stLe]
          exact Nat.le_trans (Parser.next_st_le _) (Parser.next_st_le _)
        · exact POut.stLe_trans (ih (p.next).2 (acc ++ [(p.next).1])) (Parser.next_st_le _)

theorem untilSeqLoop_noSpin (w1 w2 : Str) : ∀ (fuel : Nat) (p : Parser) (acc : List Token),
    p.tokens.length < fuel → untilSeqLoop w1 w2 fuel p acc ≠ .spin := by
  intro fuel
  induction fuel with
  | zero => intro p acc hf; exact absurd hf (Nat.not_lt_zero _)
  | succ n ih =>
      intro p acc hf
      simp only [untilSeqLoop]
      split
      · simp
      · split
        · simp
        case isFalse heof _ =>
          have hne : p.tokens ≠ [] := Parser.tokens_ne_nil_of_peek (by simpa using heof)
          apply ih (p.next).2 (acc ++ [(p.next).1])
          exact Nat.lt_of_lt_of_le (Parser.next_st_lt hne) (Nat.lt_succ_iff.mp hf)

theorem Parser.untilSequence_stLe (p : Parser) (w1 w2 : Str) :
    (p.untilSequence w1 w2).stLe p := by
  rw [Parser.untilSequence]
  exact untilSeqLoop_stLe w1 w2 _ p []

theorem Parser.untilSequence_noSpin (p : Parser) (w1 w2 : Str) :
    p.untilSequence w1 w2 ≠ .spin := by
  rw [Parser.untilSequence]
  exact untilSeqLoop_noSpin w1 w2 _ p [] (Nat.lt_succ_self _)

theorem CommentDirective_parse_stLe (p : Parser) : (CommentDirective.parse p).stLe p := by
  rw [CommentDirective.parse]
  apply stLe_bind (p.expect_stLe _)
  intro name st
  apply stLe_bind st.expectEndOfLine_stLe
  intro nl st2
  apply stLe_bind (st2.untilSequence_stLe _ _)
  intro triple st3
  simp [POut.stLe]

theorem CommentDirective_parse_stLt {p : Parser} (h : p.tokens ≠ []) :
    (CommentDirective.parse p).stLt p := by
  rw [CommentDirective.parse]
  apply stLt_bind_left (Parser.expect_stLt _ h)
  intro name st
  apply stLe_bind st.expectEndOfLine_stLe
  intro nl st2
  apply stLe_bind (st2.untilSequence_stLe _ _)
  intro triple st3
  simp [POut.stLe]

theorem CommentDirective_parse_noSpin (p : Parser) : CommentDirective.parse p ≠ .spin := by
  rw [CommentDirective.parse]
  apply noSpin_bind (p.expect_noSpin _)
  intro name st
  apply noSpin_bind st.expectEndOfLine_noSpin
  intro nl st2
  apply noSpin_bind (st2.untilSequence_noSpin _ _)
  intro triple st3
  simp

theorem Apply_parse_stLe (p : Parser) : (Apply.parse p).stLe p := by
  rw [Apply.parse]
  apply stLe_bind (p.expect_stLe _)
  intro ap st
  apply stLe_bind (st.expect_stLe _)
  intro name st2
  apply stLe_bind st2.slurpOpt_stLe
  intro args st3
  apply stLe_bind st3.expectEndOfLine_stLe
  intro u st4
  simp [POut.stLe]

theorem Apply_parse_stLt {p : Parser} (h : p.tokens ≠ []) : (Apply.parse p).stLt p := by
  rw [Apply.parse]
  apply stLt_bind_left (Parser.expect_stLt _ h)
  intro ap st
  apply stLe_bind (st.expect_stLe _)
  intro name st2
  apply stLe_bind st2.slurpOpt_stLe
  intro args st3
  apply stLe_bind st3.expectEndOfLine_stLe
  intro u st4
  simp [POut.stLe]

theorem Apply_parse_noSpin (p : Parser) : Apply.parse p ≠ .spin := by
  rw [Apply.parse]
  apply noSpin_bind (p.expect_noSpin _)
  intro ap st
  apply noSpin_bind (st.expect_noSpin _)
  intro name st2
  apply noSpin_bind st2.slurpOpt_noSpin
  intro args st3
  apply noSpin_bind st3.expectEndOfLine_noSpin
  intro u st4
  simp

theorem End_parse_stLe (p : Parser) : (End.parse p).stLe p := by
  rw [End.parse]
  apply stLe_bind (p.expectIdentifier_stLe _)
  intro e st
  dsimp only
  apply stLe_bind (POut.stLe_trans
    (Parser.expect_stLe (st.skipIfIdentifier ("apply".toList)).2 _)
    (Parser.skipIfIdentifier_st_le _ _))
  intro name st2
  apply stLe_bind st2.expectEndOfLine_stLe
  intro u st3
  simp [POut.stLe]

theorem End_parse_stLt {p : Parser} (h : p.tokens ≠ []) : (End.parse p).stLt p := by
  rw [End.parse]
  apply stLt_bind_left (Parser.expectIdentifier_stLt _ h)
  intro e st
  dsimp only
  apply stLe_bind (POut.stLe_trans
    (Parser.expect_stLe (st.skipIfIdentifier ("apply".toList)).2 _)
    (Parser.skipIfIdentifier_st_le _ _))
  intro name st2
  apply stLe_bind st2.expectEndOfLine_stLe
  intro u st3
  simp [POut.stLe]

theorem End_parse_noSpin (p : Parser) : End.parse p ≠ .spin := by
  rw [End.parse]
  apply noSpin_bind (p.expectIdentifier_noSpin _)
  intro e st
  dsimp only
  apply noSpin_bind (Parser.expect_noSpin _ _)
  intro name st2
  apply noSpin_bind st2.expectEndOfLine_noSpin
  intro u st3
  simp

theorem Alias_parse_stLe (p : Parser) : (Alias.parse p).stLe p := by
  rw [Alias.parse]
  apply stLe_bind (p.expectIdentifier_stLe _)
  intro al st
  apply stLe_bind (st.slurpUntil_stLe _)
  intro name st2
  apply stLe_bind (st2.expect_stLe _)
  intro eq st3
  apply stLe_bind st3.slurp_stLe
  intro value st4
  apply stLe_bind st4.expectEndOfLine_stLe
  intro u st5
  simp [POut.stLe]

theorem Alias_parse_stLt {p : Parser} (h : p.tokens ≠ []) : (Alias.parse p).stLt p := by
  rw [Alias.parse]
  apply stLt_bind_left (Parser.expectIdentifier_stLt _ h)
  intro al st
  apply stLe_bind (st.slurpUntil_stLe _)
  intro name st2
  apply stLe_bind (st2.expect_stLe _)
  intro eq st3
  apply stLe_bind st3.slurp_stLe
  intro value st4
  apply stLe_bind st4.expectEndOfLine_stLe
  intro u st5
  simp [POut.stLe]

theorem Alias_parse_noSpin (p : Parser) : Alias.parse p ≠ .spin := by
  rw [Alias.parse]
  apply noSpin_bind (p.expectIdentifier_noSpin _)
  intro al st
  apply noSpin_bind (st.slurpUntil_noSpin _)
  intro name st2
  apply noSpin_bind (st2.expect_noSpin _)
  intro eq st3
  apply noSpin_bind st3.slurp_noSpin
  intro value st4
  apply noSpin_bind st4.expectEndOfLine_noSpin
  intro u st5
  simp

theorem Directive_parse_stLe (p : Parser) : (Directive.parse p).stLe p := by
  rw [Directive.parse]
  split
  · split
    · exact stLe_pmap (Alias_parse_stLe p)
    · split
      · exact stLe_pmap (Apply_parse_stLe p)
      · split
        · exact stLe_pmap (CommentDirective_parse_stLe p)
        · split
          · exact stLe_pmap (End_parse_stLe p)
          · exact stLe_pmap (Directive_parseStandard_stLe p)
  · exact (Parser.next_st_le p)

theorem Directive_parse_stLt {p : Parser} (h : p.tokens ≠ []) : (Directive.parse p).stLt p := by
  rw [Directive.parse]
  split
  · split
    · exact stLt_pmap (Alias_parse_stLt h)
    · split
      · exact stLt_pmap (Apply_parse_stLt h)
      · split
        · exact stLt_pmap (CommentDirective_parse_stLt h)
        · split
          · exact stLt_pmap (End_parse_stLt h)
          · exact stLt_pmap (Directive_parseStandard_stLt h)
  · exact (Parser.next_st_lt h)

theorem Directive_parse_noSpin (p : Parser) : Directive.parse p ≠ .spin := by
  rw [Directive.parse]
  split
  · split
    · exact noSpin_pmap (Alias_parse_noSpin p)
    · split
      · exact noSpin_pmap (Apply_parse_noSpin p)
      · split
        · exact noSpin_pmap (CommentDirective_parse_noSpin p)
        · split
          · exact noSpin_pmap (End_parse_noSpin p)
          · exact noSpin_pmap (Directive_parseStandard_noSpin p)
  · simp

theorem fileLoop_ok : ∀ (fuel : Nat) (p : Parser) (children : List ASTChild),
    p.tokens.length < fuel →
    ∃ cs st, fileLoop fuel p children = .ok cs st := by
  intro fuel
  induction fuel with
  | zero => intro p children hf; exact absurd hf (Nat.not_lt_zero _)
  | succ n ih =>
      intro p children hf
      rw [fileLoop]
      split
      case isTrue hnext =>
        have hne : p.tokens ≠ [] :=
          Parser.tokens_ne_nil_of_peek (Parser.hasNext_ne_eof hnext)
        split
        case isTrue hind =>
          apply ih _ children
          exact Nat.lt_of_lt_of_le (Parser.synchronize_lt_of_indented _ hind)
            (Nat.lt_succ_iff.mp hf)
        case isFalse hind =>
          split
          · cases hx : Transaction.parse p with
            | ok t st =>
                have e1 := Transaction_parse_stLt hne
                rw [hx] at e1
                simp only [POut.stLt] at e1
                exact ih st (children ++ [.transaction t])
                  (Nat.lt_of_lt_of_le e1 (Nat.lt_succ_iff.mp hf))
            | err e st =>
                have e1 := Transaction_parse_stLt hne
                rw [hx] at e1
                simp only [POut.stLt] at e1
                exact ih (st.synchronize e) children
                  (Nat.lt_of_le_of_lt (Parser.synchronize_le st e)
                    (Nat.lt_of_lt_of_le e1 (Nat.lt_succ_iff.mp hf)))
            | spin => exact absurd hx (Transaction_parse_noSpin p)
          · cases hx : Comment.parse p with
            | ok c st =>
                have e1 := Comment_parse_stLt hne
                rw [hx] at e1
                simp only [POut.stLt] at e1
                exact ih st (children ++ [.comment c])
                  (Nat.lt_of_lt_of_le e1 (Nat.lt_succ_iff.mp hf))
            | err e st =>
                have e1 := Comment_parse_stLt hne
                rw [hx] at e1
                simp only [POut.stLt] at e1
                exact ih (st.synchronize e) children
                  (Nat.lt_of_le_of_lt (Parser.synchronize_le st e)
                    (Nat.lt_of_lt_of_le e1 (Nat.lt_succ_iff.mp hf)))
            | spin => exact absurd hx (Comment_parse_noSpin p)
          · cases hx : Directive.parse p with
            | ok c st =>
                have e1 := Directive_parse_stLt hne
                rw [hx] at e1
                simp only [POut.stLt] at e1
                exact ih st (children ++ [c])
                  (Nat.lt_of_lt_of_le e1 (Nat.lt_succ_iff.mp hf))
            | err e st =>
                have e1 := Directive_parse_stLt hne
                rw [hx] at e1
                simp only [POut.stLt] at e1
                exact ih (st.synchronize e) children
                  (Nat.lt_of_le_of_lt (Parser.synchronize_le st e)
                    (Nat.lt_of_lt_of_le e1 (Nat.lt_succ_iff.mp hf)))
            | spin => exact absurd hx (Directive_parse_noSpin p)
          · exact ih ((p.next).2.synchronize (ParseError.unexpectedToken (p.next).1)) children
              (Nat.lt_of_le_of_lt (Parser.synchronize_le _ _)
                (Nat.lt_of_lt_of_le (Parser.next_st_lt hne) (Nat.lt_succ_iff.mp hf)))
      case isFalse hnext => exact ⟨children, p, rfl⟩

/-- C10: the file-level loop terminates on every finite token stream —
each continuing iteration strictly consumes tokens, directly or through
`synchronize` — so `File.parse` always produces a file, and the whole
pipeline produces a `ParserResult` for every input the tokenizer
accepts. -/
theorem claim10_parse_total :
    (∀ p : Parser, (File.parse p).isSome = true) ∧
    (∀ cs : Str, (lexAll cs).isSome = true → (parseLedger cs).isSome = true) := by
  have hFP : ∀ p : Parser, (File.parse p).isSome = true := by
    intro p
    obtain ⟨cs, st, heq⟩ := fileLoop_ok (p.tokens.length + 1) p [] (Nat.lt_succ_self _)
    rw [File.parse, heq]
    rfl
  refine ⟨hFP, ?_⟩
  intro cs hl
  rw [Option.isSome_iff_exists] at hl
  obtain ⟨toks, hlex⟩ := hl
  have h2 := hFP (Parser.ofTokens toks)
  rw [Option.isSome_iff_exists] at h2
  obtain ⟨r, hr⟩ := h2
  rw [parseLedger, hlex]
  simp [Option.bind, hr]

/-- Token stream for the C10 witness. -/
def pC10 : Parser := Parser.ofTokens [⟨.identifier, 0, ['y', 'r'], [], []⟩]

theorem claim10_parse_total_witness :
    (File.parse pC10).isSome = true ∧ (parseLedger "a b".toList).isSome = true :=
  ⟨claim10_parse_total.1 pC10, claim10_parse_total.2 ("a b".toList) (by decide)⟩

/-! ## Unterminated comment-block directives (C7) -/

/-- Some consecutive token pair in the list spells `w1 w2` as identifier
inner texts — the terminator `until_sequence` looks for. -/
def hasTermRun (w1 w2 : Str) : List Token → Bool
  | t1 :: t2 :: tl =>
      (t1.type = .identifier && t1.innerText = w1 &&
        t2.type = .identifier && t2.innerText = w2)
      || hasTermRun w1 w2 (t2 :: tl)
  | _ => false

theorem hasTermRun_tail {w1 w2 : Str} {t : Token} {ts : List Token}
    (h : hasTermRun w1 w2 (t :: ts) = false) : hasTermRun w1 w2 ts = false := by
  cases ts with
  | nil => rfl
  | cons t2 tl =>
      rw [hasTermRun] at h
      simp only [Bool.or_eq_false_iff] at h
      exact h.2

theorem Parser.next_diag (p : Parser) : (p.next).2.diagnostics = p.diagnostics := by
  cases hp : p.tokens <;> simp [Parser.next, hp]

theorem untilSeq_noterm (w1 w2 : Str) : ∀ (fuel : Nat) (p : Parser) (acc : List Token),
    p.tokens.length < fuel →
    hasTermRun w1 w2 p.tokens = false →
    ∃ sp st, untilSeqLoop w1 w2 fuel p acc = .err (ParseError.unexpectedEOF sp) st ∧
      st.peek.type = .eof ∧ st.diagnostics = p.diagnostics := by
  intro fuel
  induction fuel with
  | zero => intro p acc hf hn; exact absurd hf (Nat.not_lt_zero _)
  | succ n ih =>
      intro p acc hf hn
      simp only [untilSeqLoop]
      split
      case isTrue heof => exact ⟨p.peek.span, p, rfl, heof, rfl⟩
      case isFalse heof =>
        split
        case isTrue hseq =>
          exfalso
          rw [seqMatch2] at hseq
          split at hseq
          case h_1 t1 t2 tl hp =>
            rw [hp, hasTermRun] at hn
            simp only [Bool.or_eq_false_iff] at hn
            rw [hn.1] at hseq
            exact Bool.false_ne_true hseq
          case h_2 => exact Bool.false_ne_true hseq
        case isFalse hseq =>
          have hne : p.tokens ≠ [] := Parser.tokens_ne_nil_of_peek (by simpa using heof)
          have hlt : (p.next).2.tokens.length < n :=
            Nat.lt_of_lt_of_le (Parser.next_st_lt hne) (Nat.lt_succ_iff.mp hf)
          have hn2 : hasTermRun w1 w2 (p.next).2.tokens = false := by
            cases hp : p.tokens with
            | nil => exact absurd hp hne
            | cons t ts =>
                have : (p.next).2.tokens = ts := by simp [Parser.next, hp]
                rw [this]
                rw [hp] at hn
                exact hasTermRun_tail hn
          obtain ⟨sp, st, heq, heof2, hdiag⟩ := ih (p.next).2 (acc ++ [(p.next).1]) hlt hn2
          exact ⟨sp, st, heq, heof2, by rw [hdiag, Parser.next_diag]⟩

theorem Parser.expectEndOfLine_cons_newline {p : Parser} {t : Token} {ts : List Token}
    (h : p.tokens = t :: ts) (ht : t.type = .newline) :
    p.expectEndOfLine = .ok t { p with tokens := ts, prev := some t } := by
  simp [Parser.expectEndOfLine, Parser.next, h, ht]

/-- C7: a `comment`/`test` block opener whose `end <name>` terminator
never appears before end of input makes the file loop record exactly one
`UNEXPECTED_EOF` diagnostic and return the previously parsed children
unchanged. -/
theorem claim7_unterminated_comment :
    ∀ (p : Parser) (children : List ASTChild) (fuel : Nat) (name nl : Token)
      (rest2 : List Token),
    p.tokens = name :: nl :: rest2 →
    name.type = .identifier →
    (name.innerText = "comment".toList ∨ name.innerText = "test".toList) →
    nl.type = .newline →
    hasTermRun ("end".toList) name.innerText rest2 = false →
    p.nextIsIndented = false →
    p.tokens.length < fuel →
    ∃ e st, fileLoop fuel p children = .ok children st ∧
      st.diagnostics = p.diagnostics ++ [e] ∧ e.code = .UNEXPECTED_EOF := by
  intro p children fuel name nl rest2 hptok hidty hname hnl hnoterm hnotind hfuel
  have hpk : p.peek = name := Parser.peek_cons hptok
  have hlen : p.tokens.length = rest2.length + 2 := by rw [hptok]; simp
  cases fuel with
  | zero => exact absurd hfuel (Nat.not_lt_zero _)
  | succ f =>
      rw [fileLoop]
      rw [if_pos (show p.hasNext = true by simp [Parser.hasNext, hpk, hidty])]
      rw [if_neg (by simp [hnotind])]
      have hdir : ∃ sp st, Directive.parse p = .err (ParseError.unexpectedEOF sp) st ∧
          st.peek.type = .eof ∧ st.diagnostics = p.diagnostics := by
        rw [Directive.parse]
        rw [if_pos (by simp [hpk, hidty])]
        rw [if_neg (by rcases hname with hn | hn <;> rw [hpk, hn] <;> decide)]
        rw [if_neg (by rcases hname with hn | hn <;> rw [hpk, hn] <;> decide)]
        rw [if_pos (by rw [hpk]; rcases hname with hn | hn <;> simp [hn])]
        have hexp : p.expect [.identifier] =
            .ok name { p with tokens := nl :: rest2, prev := some name } :=
          Parser.expect_cons hptok (by simp [hidty])
        have heol : ({ p with tokens := nl :: rest2, prev := some name } : Parser).expectEndOfLine =
            .ok nl { p with tokens := rest2, prev := some nl } :=
          Parser.expectEndOfLine_cons_newline rfl hnl
        rw [CommentDirective.parse, hexp]
        simp only [pbind]
        rw [heol]
        simp only [pbind]
        rw [Parser.untilSequence]
        obtain ⟨sp, st, heq, heof, hdiag⟩ := untilSeq_noterm ("end".toList) name.innerText
          ((({ p with tokens := rest2, prev := some nl } : Parser)).tokens.length + 1)
          ({ p with tokens := rest2, prev := some nl } : Parser) [] (Nat.lt_succ_self _)
          (by simpa using hnoterm)
        rw [heq]
        simp only [pbind, pmap]
        exact ⟨sp, st, rfl, heof, by simpa using hdiag⟩
      obtain ⟨sp, st, hdeq, heof, hdiag⟩ := hdir
      have e1 : (match p.peek.type with
          | TokType.number =>
              match Transaction.parse p with
              | .ok t st => fileLoop f st (children ++ [.transaction t])
              | .err e st => fileLoop f (st.synchronize e) children
              | .spin => POut.spin
          | TokType.comment =>
              match Comment.parse p with
              | .ok c st => fileLoop f st (children ++ [.comment c])
              | .err e st => fileLoop f (st.synchronize e) children
              | .spin => POut.spin
          | TokType.identifier =>
              match Directive.parse p with
              | .ok c st => fileLoop f st (children ++ [c])
              | .err e st => fileLoop f (st.synchronize e) children
              | .spin => POut.spin
          | _ =>
              let r := p.next
              fileLoop f (r.2.synchronize (ParseError.unexpectedToken r.1)) children) =
          fileLoop f (st.synchronize (ParseError.unexpectedEOF sp)) children := by
        rw [hpk, hidty]
        simp only
        rw [hdeq]
      rw [e1]
      rw [Parser.synchronize_eof (ParseError.unexpectedEOF sp) heof]
      have hf2 : 1 ≤ f := by
        rw [hlen] at hfuel
        omega
      cases f with
      | zero => exact absurd hf2 (by decide)
      | succ f2 =>
          rw [fileLoop]
          rw [if_neg (show ¬(({ st with diagnostics := st.diagnostics ++
              [ParseError.unexpectedEOF sp] } : Parser).hasNext = true) by
            intro hcon
            exact (Parser.hasNext_ne_eof hcon) heof)]
          exact ⟨ParseError.unexpectedEOF sp,
            { st with diagnostics := st.diagnostics ++ [ParseError.unexpectedEOF sp] },
            rfl, by simp [hdiag], rfl⟩

/-- Opening identifier of the C7 witness. -/
def nameT7 : Token := ⟨.identifier, 0, "comment".toList, [], []⟩

def nlT7 : Token := ⟨.newline, 7, ['\n'], [], []⟩

def bodyT7 : Token := ⟨.identifier, 8, "stuff".toList, [], []⟩

/-- `comment\nstuff` — an unterminated comment block. -/
def pC7 : Parser := Parser.ofTokens [nameT7, nlT7, bodyT7]

theorem claim7_unterminated_comment_witness :
    ∃ e st, fileLoop 4 pC7 [] = .ok [] st ∧
      st.diagnostics = pC7.diagnostics ++ [e] ∧ e.code = .UNEXPECTED_EOF :=
  claim7_unterminated_comment pC7 [] 4 nameT7 nlT7 [bodyT7]
    (by decide) (by decide) (Or.inl (by decide)) (by decide) (by decide) (by decide) (by decide)
